import Mathlib

/-!
# Verification of the hysoc streaming trajectory pipeline

Shallow embedding of the core of the `hysoc` repository:

* `src/hysoc/core/point.py` — the GPS fix record;
* `src/hysoc/metrics/sed.py` — SED error and SED statistics;
* `src/hysoc/modules/move_compression/squish.py` — the SQUISH compressor
  (including an exact model of CPython's `heapq` push/pop);
* `src/hysoc/modules/segmentation/step.py` — the STEP segmenter;
* `benchmarks/oracles/stc.py` — the STC oracle;
* `src/hysoc/modules/map_matching/matcher.py` — the sliding-window map
  matcher (the external map-matching, graph and geometry libraries are
  abstracted as oracle functions, since they are third-party code).

Python floats are modelled as real numbers; `datetime` timestamps are
modelled by their `.timestamp()` value in seconds, so that subtraction
followed by `.total_seconds()` is plain real subtraction.  Python `int`s
are modelled as `Int`.  Functions that can raise are modelled with
`Except PyErr` / `Option`.
-/

open Classical

/-- Python-level errors that the modelled code can raise. -/
inductive PyErr where
  /-- `ValueError` raised by explicit validation. -/
  | valueError : PyErr
  /-- `IndexError` from indexing/popping an empty container. -/
  | indexError : PyErr
deriving DecidableEq, Repr

/-- `hysoc.core.point.Point`: a single immutable GPS fix.
`lat`/`lon` are decimal degrees, `timestamp` is the epoch-seconds value of
the `datetime`, `road_id` is the optional road identifier assigned by
map-matching. -/
structure Point where
  lat : ℝ
  lon : ℝ
  timestamp : ℝ
  obj_id : String
  road_id : Option String := none

instance : Inhabited Point := ⟨⟨0, 0, 0, "", none⟩⟩

/-- `math.radians`: degrees to radians. -/
noncomputable def radians (d : ℝ) : ℝ := d * Real.pi / 180

/-- `hysoc.modules.segmentation.step.local_distance`: flat-earth distance
approximation in metres. -/
noncomputable def local_distance (p1 p2 : Point) : ℝ :=
  let R : ℝ := 6371000
  let lat_rad := radians ((p1.lat + p2.lat) / 2)
  let dx := radians (p2.lon - p1.lon) * Real.cos lat_rad
  let dy := radians (p2.lat - p1.lat)
  R * Real.sqrt (dx * dx + dy * dy)

/-- The planar degree-to-metre distance that `hysoc.metrics.sed` inlines in
four places: latitude degrees scaled by 111320, longitude degrees scaled by
111320·cos of the mean latitude of the two arguments. -/
noncomputable def planarMeters (p p_ref : Point) : ℝ :=
  let d_lat := p.lat - p_ref.lat
  let d_lon := p.lon - p_ref.lon
  let avg_lat := radians ((p.lat + p_ref.lat) / 2)
  let d_lat_m := d_lat * 111320
  let d_lon_m := d_lon * 111320 * Real.cos avg_lat
  Real.sqrt (d_lat_m * d_lat_m + d_lon_m * d_lon_m)

/-- `hysoc.metrics.sed.calculate_sed_error`: SED error of `p_original`
against the segment from `p_start` to `p_end`. -/
noncomputable def calculate_sed_error (p_original p_start p_end : Point) : ℝ :=
  if p_start.timestamp = p_end.timestamp then
    planarMeters p_original p_start
  else
    let ratio := (p_original.timestamp - p_start.timestamp) /
      (p_end.timestamp - p_start.timestamp)
    let pred_lat := p_start.lat + (p_end.lat - p_start.lat) * ratio
    let pred_lon := p_start.lon + (p_end.lon - p_start.lon) * ratio
    let d_lat := p_original.lat - pred_lat
    let d_lon := p_original.lon - pred_lon
    let avg_lat := radians ((p_start.lat + p_end.lat) / 2)
    let d_lat_m := d_lat * 111320
    let d_lon_m := d_lon * 111320 * Real.cos avg_lat
    Real.sqrt (d_lat_m * d_lat_m + d_lon_m * d_lon_m)

/-- Result dictionary of `calculate_sed_stats`. -/
structure SedStats where
  average_sed : ℝ
  max_sed : ℝ
  rmse : ℝ
  sed_errors : List ℝ

/-- The `while comp_idx < len(compressed) - 1 and p.timestamp >
compressed[comp_idx+1].timestamp: comp_idx += 1` loop of
`calculate_sed_stats`. -/
noncomputable def sedAdvance (compressed : List Point) (t : ℝ) (idx : ℕ) : ℕ :=
  if h : idx < compressed.length - 1 ∧
      t > ((compressed.getD (idx + 1) default).timestamp) then
    sedAdvance compressed t (idx + 1)
  else idx
termination_by compressed.length - idx
decreasing_by omega

/-- Per-point body of the loop of `calculate_sed_stats`: given the running
`comp_idx`, return the SED error recorded for `p` and the updated
`comp_idx`. -/
noncomputable def sedStatsStep (compressed : List Point) (idx : ℕ) (p : Point) :
    ℝ × ℕ :=
  let idx' := sedAdvance compressed p.timestamp idx
  if idx' ≥ compressed.length - 1 then
    (planarMeters p (compressed.getLastD default), idx')
  else
    let p_start := compressed.getD idx' default
    let p_end := compressed.getD (idx' + 1) default
    if p.timestamp < p_start.timestamp then
      (planarMeters p p_start, idx')
    else
      (calculate_sed_error p p_start p_end, idx')

/-- The fold of `calculate_sed_stats` over the original points, threading
`comp_idx` and accumulating the error list. -/
noncomputable def sedErrorsGo (compressed : List Point) (idx : ℕ) :
    List Point → List ℝ
  | [] => []
  | p :: rest =>
    let r := sedStatsStep compressed idx p
    r.1 :: sedErrorsGo compressed r.2 rest

/-- Python `max` over a nonempty list (first element as seed). -/
noncomputable def pyMax : List ℝ → ℝ
  | [] => 0
  | e :: rest => rest.foldl max e

/-- `hysoc.metrics.sed.calculate_sed_stats`. -/
noncomputable def calculate_sed_stats (original compressed : List Point) :
    SedStats :=
  if original.isEmpty || compressed.isEmpty then
    ⟨0, 0, 0, []⟩
  else
    let sed_errors := sedErrorsGo compressed 0 original
    if sed_errors.isEmpty then ⟨0, 0, 0, []⟩
    else
      let avg_sed := sed_errors.sum / sed_errors.length
      let max_sed := pyMax sed_errors
      let mse := (sed_errors.map (fun e => e * e)).sum / sed_errors.length
      ⟨avg_sed, max_sed, Real.sqrt mse, sed_errors⟩

/-- `SquishCompressor._compute_priority`: SED error in degree space
(no metre scaling), with the zero-duration early return. -/
noncomputable def squishPriority (p1 p2 p3 : Point) : ℝ :=
  let t1 := p1.timestamp
  let t2 := p2.timestamp
  let t3 := p3.timestamp
  if t1 = t3 then 0
  else
    let ratio := (t2 - t1) / (t3 - t1)
    let lat_pred := p1.lat + (p3.lat - p1.lat) * ratio
    let lon_pred := p1.lon + (p3.lon - p1.lon) * ratio
    let d_lat := p2.lat - lat_pred
    let d_lon := p2.lon - lon_pred
    Real.sqrt (d_lat * d_lat + d_lon * d_lon)

/-! ## CPython `heapq` (as used by `SquishCompressor`)

Heap items model `PriorityObject(priority, index)`: the dataclass compares
by `priority` only (`index` has `compare=False`), so item comparison is
`<` on the first component. -/

/-- `heapq._siftdown(heap, startpos, pos)`: `newitem` is the value the
caller intends for slot `pos` (Python stores it there first and the loop
re-reads it); parents larger than it are shifted down and `newitem` lands
at the final position. -/
noncomputable def siftdownGo (newitem : ℝ × ℕ) (startpos : ℕ) :
    List (ℝ × ℕ) → ℕ → List (ℝ × ℕ)
  | heap, pos =>
    if h : startpos < pos then
      let parentpos := (pos - 1) / 2
      let parent := heap.getD parentpos default
      if newitem.1 < parent.1 then
        siftdownGo newitem startpos (heap.set pos parent) parentpos
      else heap.set pos newitem
    else heap.set pos newitem
  termination_by heap pos => pos
  decreasing_by omega

/-- `heapq.heappush`. -/
noncomputable def heappush (heap : List (ℝ × ℕ)) (item : ℝ × ℕ) :
    List (ℝ × ℕ) :=
  siftdownGo item 0 (heap ++ [item]) heap.length

/-- Child selection of `heapq._siftup`: the left child `2*pos+1`, replaced
by the right child when it exists and the left child is not smaller. -/
noncomputable def siftupChild (endpos : ℕ) (heap : List (ℝ × ℕ)) (pos : ℕ) : ℕ :=
  if 2 * pos + 2 < endpos ∧
      ¬ (heap.getD (2 * pos + 1) default).1 < (heap.getD (2 * pos + 2) default).1
    then 2 * pos + 2 else 2 * pos + 1

theorem siftupChild_gt (endpos : ℕ) (heap : List (ℝ × ℕ)) (pos : ℕ) :
    pos < siftupChild endpos heap pos := by
  unfold siftupChild; split <;> omega

theorem siftupChild_lt (endpos : ℕ) (heap : List (ℝ × ℕ)) (pos : ℕ)
    (h : 2 * pos + 1 < endpos) : siftupChild endpos heap pos < endpos := by
  unfold siftupChild; split <;> omega

/-- The child-walking loop of `heapq._siftup`; returns the heap with the
shifted children and the final position of the hole. -/
noncomputable def siftupGo (endpos : ℕ) :
    List (ℝ × ℕ) → ℕ → List (ℝ × ℕ) × ℕ
  | heap, pos =>
    if h : 2 * pos + 1 < endpos then
      siftupGo endpos
        (heap.set pos (heap.getD (siftupChild endpos heap pos) default))
        (siftupChild endpos heap pos)
    else (heap, pos)
  termination_by heap pos => endpos - pos
  decreasing_by
    have h1 := siftupChild_gt endpos heap pos
    omega

/-- `heapq._siftup(heap, pos)`. -/
noncomputable def siftup (heap : List (ℝ × ℕ)) (pos : ℕ) : List (ℝ × ℕ) :=
  let newitem := heap.getD pos default
  let r := siftupGo heap.length heap pos
  siftdownGo newitem pos r.1 r.2

/-- `heapq.heappop`: `none` models the `IndexError` on an empty heap;
otherwise returns the popped minimum and the remaining heap. -/
noncomputable def heappop (heap : List (ℝ × ℕ)) :
    Option ((ℝ × ℕ) × List (ℝ × ℕ)) :=
  match heap.getLast? with
  | none => none
  | some lastelt =>
    let rest := heap.dropLast
    if rest.isEmpty then some (lastelt, [])
    else some (rest.headD default, siftup (rest.set 0 lastelt) 0)

/-! ## `SquishCompressor` (`hysoc/modules/move_compression/squish.py`) -/

/-- The mutable fields of the inner `Node` class of
`SquishCompressor.compress` (`point` and `index` are recovered from the
node's position in the `nodes` array; `priority = none` models the initial
`float('inf')`, which is never pushed on the heap). -/
structure SqNode where
  prev : Option ℕ := none
  next : Option ℕ := none
  priority : Option ℝ := none
  removed : Bool := false

instance : Inhabited SqNode := ⟨{}⟩

/-- The loop state of `SquishCompressor.compress`: the `nodes` array, the
priority queue `pq` and `current_buffer_nodes` (kept as node indices;
Python stores the node objects themselves, which are in bijection with
their indices). -/
structure SqState where
  nodes : List SqNode
  pq : List (ℝ × ℕ)
  buffer : List ℕ

/-- `SquishCompressor.__init__`: rejects `capacity < 3`, otherwise stores
the capacity. -/
def squishInit (capacity : ℤ) : Except PyErr ℤ :=
  if capacity < 3 then .error .valueError else .ok capacity

/-- The shared linking code of both branches of the intake loop:
```
last_node = current_buffer_nodes[-1]
last_node.next = new_node ; new_node.prev = last_node
if last_node.prev:
    p = self._compute_priority(last_node.prev.point, last_node.point, new_node.point)
    last_node.priority = p ; heappush(pq, PriorityObject(p, last_node.index))
current_buffer_nodes.append(new_node)
```
`last` is the index of `current_buffer_nodes[-1]`, `i` the new node. -/
noncomputable def sqLink (points : List Point) (s : SqState) (last i : ℕ) :
    SqState :=
  let nodes₁ := (s.nodes.set last { s.nodes.getD last default with next := some i
                 }).set i { s.nodes.getD i default with prev := some last }
  match (nodes₁.getD last default).prev with
  | some lp =>
    let p := squishPriority (points.getD lp default) (points.getD last default)
      (points.getD i default)
    { nodes := nodes₁.set last { nodes₁.getD last default with priority := some p }
      pq := heappush s.pq (p, last)
      buffer := s.buffer ++ [i] }
  | none => { nodes := nodes₁, pq := s.pq, buffer := s.buffer ++ [i] }

/-- `siftdownGo` only writes in place: the length is preserved. -/
theorem siftdownGo_length (newitem : ℝ × ℕ) (startpos : ℕ) :
    ∀ pos heap, (siftdownGo newitem startpos heap pos).length = heap.length := by
  intro pos
  induction pos using Nat.strong_induction_on with
  | _ pos ih =>
    intro heap
    rw [siftdownGo]
    split
    · dsimp only
      split
      · rw [ih _ (by omega)]
        simp
      · simp
    · simp

/-- `siftupGo` only writes in place: the length is preserved. -/
theorem siftupGo_length (endpos : ℕ) :
    ∀ k pos heap, endpos - pos ≤ k →
      (siftupGo endpos heap pos).1.length = heap.length := by
  intro k
  induction k with
  | zero =>
    intro pos heap hk
    rw [siftupGo]
    split
    · omega
    · simp
  | succ k ih =>
    intro pos heap hk
    rw [siftupGo]
    split
    · rename_i h
      have h1 := siftupChild_gt endpos heap pos
      rw [ih _ _ (by omega)]
      simp
    · simp

/-- `siftup` preserves the length. -/
theorem siftup_length (heap : List (ℝ × ℕ)) (pos : ℕ) :
    (siftup heap pos).length = heap.length := by
  unfold siftup
  rw [siftdownGo_length, siftupGo_length heap.length (heap.length - pos) pos heap le_rfl]

/-- A successful `heappop` shrinks the heap by one element. -/
theorem heappop_length {pq pq' : List (ℝ × ℕ)} {item : ℝ × ℕ}
    (h : heappop pq = some (item, pq')) : pq.length = pq'.length + 1 := by
  unfold heappop at h
  cases hg : pq.getLast? with
  | none => rw [hg] at h; exact absurd h (by simp)
  | some lastelt =>
    rw [hg] at h
    have hne : pq ≠ [] := by
      intro hnil; rw [hnil] at hg; simp at hg
    simp only at h
    by_cases hre : pq.dropLast.isEmpty
    · rw [if_pos hre] at h
      cases h
      have h1 : pq.dropLast = [] := by simpa [List.isEmpty_iff] using hre
      have h2 : pq.length - 1 = 0 := by
        have := congrArg List.length h1
        simpa using this
      have h3 : 0 < pq.length := List.length_pos.mpr hne
      simp only [List.length_nil]
      omega
    · rw [if_neg hre] at h
      cases h
      have h1 : pq.dropLast.length = pq.length - 1 := by simp
      have h3 : 0 < pq.length := List.length_pos.mpr hne
      rw [siftup_length]
      simp only [List.length_set]
      omega

/-- The lazy-deletion pop loop of `compress`:
```
while True:
    victim_item = heapq.heappop(pq)           # IndexError when empty
    victim_node = nodes[victim_item.index]
    if not victim_node.removed and victim_node.priority == victim_item.priority:
        break
```
Returns the victim index together with the remaining heap. -/
noncomputable def popVictim (nodes : List SqNode) (pq : List (ℝ × ℕ)) :
    Except PyErr (ℕ × List (ℝ × ℕ)) :=
  match h : heappop pq with
  | none => .error .indexError
  | some (item, pq') =>
    let vnode := nodes.getD item.2 default
    if vnode.removed = false ∧ vnode.priority = some item.1 then
      .ok (item.2, pq')
    else popVictim nodes pq'
  termination_by pq.length
  decreasing_by
    have := heappop_length h
    omega

/-- `SquishCompressor._remove_node(node, pq)`: mark the victim removed,
splice it out of the doubly-linked list, and recompute/push the priorities
of its former neighbours when they are interior.  Returns the updated
nodes array and heap. -/
noncomputable def sqRemoveNode (points : List Point) (nodes : List SqNode)
    (pq : List (ℝ × ℕ)) (v : ℕ) : List SqNode × List (ℝ × ℕ) :=
  let nodes₀ := nodes.set v { nodes.getD v default with removed := true }
  let prev_node := (nodes₀.getD v default).prev
  let next_node := (nodes₀.getD v default).next
  let nodes₁ := match prev_node with
    | some pn => nodes₀.set pn { nodes₀.getD pn default with next := next_node }
    | none => nodes₀
  let nodes₂ := match next_node with
    | some nn => nodes₁.set nn { nodes₁.getD nn default with prev := prev_node }
    | none => nodes₁
  let r₃ := match prev_node, next_node with
    | some pn, some nn =>
      match (nodes₂.getD pn default).prev with
      | some pp =>
        let p := squishPriority (points.getD pp default) (points.getD pn default)
          (points.getD nn default)
        (nodes₂.set pn { nodes₂.getD pn default with priority := some p },
         heappush pq (p, pn))
      | none => (nodes₂, pq)
    | _, _ => (nodes₂, pq)
  match prev_node, next_node with
  | some pn, some nn =>
    (match (r₃.1.getD nn default).next with
    | some nx =>
      let p := squishPriority (points.getD pn default) (points.getD nn default)
        (points.getD nx default)
      (r₃.1.set nn { r₃.1.getD nn default with priority := some p },
       heappush r₃.2 (p, nn))
    | none => r₃)
  | _, _ => r₃

/-- One iteration of the intake loop of `SquishCompressor.compress` for the
point with index `i`.  `current_buffer_nodes[-1]` on an empty buffer and
`heappop` on an empty heap are `IndexError`s. -/
noncomputable def squishStep (points : List Point) (K : ℤ) (s : SqState)
    (i : ℕ) : Except PyErr SqState :=
  if (s.buffer.length : ℤ) < K then
    match s.buffer.getLast? with
    | none => .ok { s with buffer := s.buffer ++ [i] }
    | some last => .ok (sqLink points s last i)
  else
    match s.buffer.getLast? with
    | none => .error .indexError
    | some last =>
      let s₁ := sqLink points s last i
      match popVictim s₁.nodes s₁.pq with
      | .error e => .error e
      | .ok (v, pq') =>
        let r := sqRemoveNode points s₁.nodes pq' v
        .ok { nodes := r.1, pq := r.2, buffer := s₁.buffer.erase v }

/-- The intake loop of `compress` over the point indices in order. -/
noncomputable def squishLoop (points : List Point) (K : ℤ) :
    List ℕ → SqState → Except PyErr SqState
  | [], s => .ok s
  | i :: rest, s =>
    match squishStep points K s i with
    | .error e => .error e
    | .ok s' => squishLoop points K rest s'

/-- The result traversal of `compress`: follow `next` pointers from
`nodes[0]`.  `next` pointers always point to strictly larger indices, so
the live chain from node 0 has at most `points.length` nodes and the fuel
reproduces Python's unbounded `while curr` loop exactly. -/
def sqTraverse (nodes : List SqNode) (points : List Point) :
    ℕ → Option ℕ → List Point
  | 0, _ => []
  | _ + 1, none => []
  | fuel + 1, some i =>
    points.getD i default :: sqTraverse nodes points fuel (nodes.getD i default).next

/-- `SquishCompressor.compress(points, capacity)` for an instance whose
`self.capacity` is `selfCapacity`. -/
noncomputable def squishCompress (selfCapacity : ℤ) (points : List Point)
    (capacity : Option ℤ) : Except PyErr (List Point) :=
  if points.isEmpty then .ok []
  else
    let target := capacity.getD selfCapacity
    if (points.length : ℤ) ≤ target then .ok points
    else
      let s₀ : SqState := { nodes := points.map fun _ => {}, pq := [], buffer := [] }
      match squishLoop points target (List.range points.length) s₀ with
      | .error e => .error e
      | .ok s => .ok (sqTraverse s.nodes points points.length (some 0))

/-! ## `STEPSegmenter` (`hysoc/modules/segmentation/step.py`) -/

/-- `hysoc.core.segment`: a Stop (points plus centroid) or a Move. -/
inductive Segment where
  | stop (points : List Point) (centroid : Point) : Segment
  | move (points : List Point) : Segment

/-- The point sequence of a segment. -/
def Segment.pts : Segment → List Point
  | .stop ps _ => ps
  | .move ps => ps

/-- Whether a segment is a Stop. -/
def Segment.isStop : Segment → Bool
  | .stop _ _ => true
  | .move _ => false

/-- The full mutable state of a `STEPSegmenter` instance (configuration
fields are set by `__init__` and never written afterwards). -/
structure StepState where
  max_eps : ℝ
  min_duration_seconds : ℝ
  g : ℝ
  threshold_sq : ℝ
  origin_lat : Option ℝ
  origin_lon : Option ℝ
  cache : List (Point × ℤ × ℤ)
  cache_offset : ℤ
  current_sp_start : Option ℤ
  current_sp_end : Option ℤ

/-- The state built by `STEPSegmenter.__init__` (which performs no
validation and cannot raise). -/
noncomputable def stepNew (max_eps : ℝ) (min_duration_seconds : ℝ)
    (grid_size_meters : Option ℝ) : StepState :=
  let g := match grid_size_meters with
    | some gs => if gs > 0 then gs else Real.sqrt 2 / 4 * max_eps
    | none => Real.sqrt 2 / 4 * max_eps
  { max_eps := max_eps, min_duration_seconds := min_duration_seconds, g := g,
    threshold_sq := (max_eps / g) ^ 2,
    origin_lat := none, origin_lon := none, cache := [], cache_offset := 0,
    current_sp_start := none, current_sp_end := none }

/-- `STEPSegmenter.__init__` as a fallible constructor: the Python body
contains no validation and no `raise`, so it always succeeds. -/
noncomputable def stepInit (max_eps : ℝ) (min_duration_seconds : ℝ)
    (grid_size_meters : Option ℝ) : Except PyErr StepState :=
  .ok (stepNew max_eps min_duration_seconds grid_size_meters)

/-- `STEPSegmenter._get_points(start_abs_idx, end_abs_idx)`. -/
def stepGetPoints (st : StepState) (s e : ℤ) : List Point :=
  if s > e then []
  else
    let rel_s := max 0 (s - st.cache_offset)
    let rel_e := e - st.cache_offset
    ((st.cache.drop rel_s.toNat).take (rel_e + 1 - rel_s).toNat).map (·.1)

/-- `STEPSegmenter._prune_cache(new_start_abs_idx)`. -/
def stepPrune (st : StepState) (n : ℤ) : StepState :=
  if n > st.cache_offset then
    { st with
      cache := st.cache.drop (n - st.cache_offset).toNat
      cache_offset := n }
  else st

/-- `STEPSegmenter._create_stop(points)`: `none` models the
`ValueError("Empty points for Stop")`. -/
noncomputable def stepCreateStop (points : List Point) : Option Segment :=
  if points.isEmpty then none
  else
    let lat := (points.map (·.lat)).sum / points.length
    let lon := (points.map (·.lon)).sum / points.length
    some (.stop points
      ⟨lat, lon, (points.headD default).timestamp, (points.headD default).obj_id, none⟩)

/-- The grid x-index computed by `process_point`:
`int(dx_meters // self.g)` for
`dx_meters = (radians(lon) - origin_lon) * R * cos(origin_lat)`
(`o_lat`, `o_lon` are the radian origin values). -/
noncomputable def stepGridX (o_lat o_lon g : ℝ) (p : Point) : ℤ :=
  ⌊((radians p.lon - o_lon) * 6371000 * Real.cos o_lat) / g⌋

/-- The grid y-index computed by `process_point`:
`int(dy_meters // self.g)` for `dy_meters = (radians(lat) - origin_lat) * R`. -/
noncomputable def stepGridY (o_lat g : ℝ) (p : Point) : ℤ :=
  ⌊((radians p.lat - o_lat) * 6371000) / g⌋

/-- Algorithm 1's backward scan (the `while i >= self.cache_offset` loop of
`process_point`), returning the final value of `i` before clamping. -/
noncomputable def stepScan (st : StepState) (p_c : Point) (gx_c gy_c : ℤ) :
    ℤ → ℤ
  | i =>
    if h : st.cache_offset ≤ i then
      let item := st.cache.getD (i - st.cache_offset).toNat default
      let delta_x := |item.2.1 - gx_c|
      let delta_y := |item.2.2 - gy_c|
      if (((delta_x + 1) ^ 2 + (delta_y + 1) ^ 2 : ℤ) : ℝ) ≤ st.threshold_sq then
        stepScan st p_c gx_c gy_c (i - 1)
      else if (((max 0 (delta_x - 1)) ^ 2 + (max 0 (delta_y - 1)) ^ 2 : ℤ) : ℝ)
          > st.threshold_sq then
        i + 1
      else if local_distance p_c item.1 ≤ st.max_eps then
        stepScan st p_c gx_c gy_c (i - 1)
      else i + 1
    else i
  termination_by i => (i - st.cache_offset + 1).toNat
  decreasing_by all_goals omega

/-- Algorithm 2 (the trajectory-segmentation handling) of
`STEPSegmenter.process_point`, operating on the state `st₁` with the new
point `p_c` already cached, the detected stay-point start `iS` (`Is` in
the source, `none` when no stay point was detected) and the tentative end
`c` (`Ie`). -/
noncomputable def stepHandle (st₁ : StepState) (p_c : Point) (iS : Option ℤ)
    (c : ℤ) : Option (List Segment × StepState) :=
  match iS with
    | some is_ =>
      match st₁.current_sp_start, st₁.current_sp_end with
      | some sps, some spe =>
        if is_ ≤ spe then
          some ([], { st₁ with current_sp_end := some c })
        else
          match stepCreateStop (stepGetPoints st₁ sps spe) with
          | none => none
          | some stopSeg =>
            let move_points := stepGetPoints st₁ (spe + 1) (is_ - 1)
            let segs := if move_points.isEmpty then [stopSeg]
                        else [stopSeg, .move move_points]
            let st₂ := stepPrune { st₁ with
              current_sp_start := some is_
              current_sp_end := some c } is_
            some (segs, st₂)
      | none, _ =>
        let move_points := stepGetPoints st₁ st₁.cache_offset (is_ - 1)
        let segs := if move_points.isEmpty then []
                    else [Segment.move move_points]
        let st₂ := stepPrune { st₁ with
          current_sp_start := some is_
          current_sp_end := some c } is_
        some (segs, st₂)
      | some _, none => none
    | none =>
      match st₁.current_sp_start, st₁.current_sp_end with
      | some sps, some spe =>
        let p_Ie := (st₁.cache.getD (spe - st₁.cache_offset).toNat default).1
        if local_distance p_c p_Ie > st₁.max_eps then
          match stepCreateStop (stepGetPoints st₁ sps spe) with
          | none => none
          | some stopSeg =>
            let st₂ := stepPrune st₁ (spe + 1)
            some ([stopSeg], { st₂ with
              current_sp_start := none
              current_sp_end := none })
        else some ([], st₁)
      | none, _ => some ([], st₁)
      | some _, none => none

/-- `STEPSegmenter.process_point`.  `none` models an uncaught Python
exception (the `ValueError` of `_create_stop`, a `ZeroDivisionError` in the
grid projection, or a `TypeError` from arithmetic on a `None`
`current_sp_end`). -/
noncomputable def stepProcessPoint (st : StepState) (p_c : Point) :
    Option (List Segment × StepState) :=
  let o_lat := if st.cache.isEmpty then some (radians p_c.lat) else st.origin_lat
  let o_lon := if st.cache.isEmpty then some (radians p_c.lon) else st.origin_lon
  if st.g = 0 then none
  else
    let gx_c := stepGridX (o_lat.getD 0) (o_lon.getD 0) st.g p_c
    let gy_c := stepGridY (o_lat.getD 0) st.g p_c
    let st₁ := { st with
      origin_lat := o_lat
      origin_lon := o_lon
      cache := st.cache ++ [(p_c, gx_c, gy_c)] }
    let c := st₁.cache_offset + (st₁.cache.length : ℤ) - 1
    let i0 := stepScan st₁ p_c gx_c gy_c (c - 1)
    let i1 := if i0 < st₁.cache_offset then st₁.cache_offset else i0
    let iS : Option ℤ :=
      if i1 ≤ c then
        let p_i := (st₁.cache.getD (i1 - st₁.cache_offset).toNat default).1
        if p_c.timestamp - p_i.timestamp ≥ st₁.min_duration_seconds then some i1
        else none
      else none
    stepHandle st₁ p_c iS c

/-- `STEPSegmenter.flush`. -/
noncomputable def stepFlush (st : StepState) : Option (List Segment × StepState) :=
  match st.current_sp_start, st.current_sp_end with
  | some sps, some spe =>
    match stepCreateStop (stepGetPoints st sps spe) with
    | none => none
    | some stopSeg =>
      let move_points := stepGetPoints st (spe + 1)
        (st.cache_offset + (st.cache.length : ℤ) - 1)
      let segs := if move_points.isEmpty then [stopSeg]
                  else [stopSeg, .move move_points]
      some (segs, { st with
        cache := []
        current_sp_start := none
        current_sp_end := none })
  | none, _ =>
    let move_points := stepGetPoints st st.cache_offset
      (st.cache_offset + (st.cache.length : ℤ) - 1)
    let segs := if move_points.isEmpty then [] else [Segment.move move_points]
    some (segs, { st with
      cache := []
      current_sp_start := none
      current_sp_end := none })
  | some _, none => none

/-- The per-point folding of `STEPSegmenter.process` (without the final
flush), accumulating emitted segments. -/
noncomputable def stepProcessList (st : StepState) :
    List Point → Option (List Segment × StepState)
  | [] => some ([], st)
  | p :: rest =>
    match stepProcessPoint st p with
    | none => none
    | some (segs, st') =>
      match stepProcessList st' rest with
      | none => none
      | some (segs', st'') => some (segs ++ segs', st'')

/-- `STEPSegmenter.process(trajectory)`: process every point, then flush. -/
noncomputable def stepProcess (st : StepState) (trajectory : List Point) :
    Option (List Segment) :=
  match stepProcessList st trajectory with
  | none => none
  | some (segs, st') =>
    match stepFlush st' with
    | none => none
    | some r => some (segs ++ r.1)

/-! ## `STCOracle` (`benchmarks/oracles/stc.py`) -/

/-- The `for idx, point in enumerate(points)` loop of `STCOracle.process`:
`lastIdx = len(points) - 1`, `compressed` and `current_road` are the loop
state (Python initialises `current_road = None`). -/
noncomputable def stcGo (lastIdx : ℕ) :
    ℕ → List Point → List Point → Option String → List Point
  | _, [], compressed, _ => compressed
  | idx, p :: rest, compressed, current =>
    if idx = 0 then
      stcGo lastIdx (idx + 1) rest (compressed ++ [p]) p.road_id
    else if idx = lastIdx then
      if compressed.getLastD default ≠ p then
        stcGo lastIdx (idx + 1) rest (compressed ++ [p]) current
      else stcGo lastIdx (idx + 1) rest compressed current
    else if p.road_id ≠ current then
      stcGo lastIdx (idx + 1) rest (compressed ++ [p]) p.road_id
    else stcGo lastIdx (idx + 1) rest compressed current

/-- `STCOracle.process` on the point list of the segment. -/
noncomputable def stcProcess (points : List Point) : List Point :=
  if points.isEmpty then []
  else if points.length ≤ 1 then points
  else stcGo (points.length - 1) 0 points [] none

/-- `STCOracle.process(segment)`. -/
noncomputable def stcOracleProcess (segment : Segment) : List Point :=
  stcProcess segment.pts

/-! ## `OnlineMapMatcher` (`hysoc/modules/map_matching/matcher.py`)

The matcher drives three third-party libraries: `leuvenmapmatching`
(`DistanceMatcher.match`, whose exceptions the source catches and turns
into `states = []`), `networkx` (`G.get_edge_data`, `G.nodes`) and
`shapely` (`project`/`interpolate`).  These are modelled as oracle
functions in `MatcherEnv`; the buffering, windowing and failure-recovery
logic — the code of this repository — is embedded exactly. -/

/-- The fields of `G.get_edge_data(u, v)` that `_match_window` reads:
whether key `0` is present, the optional `osmid` attribute of
`edge_data[0]` (an id or a list of merged ids), and its optional
`geometry`. -/
structure EdgeData (G : Type) where
  hasKey0 : Bool
  osmid : Option (ℤ ⊕ List ℤ)
  geometry : Option G

/-- Oracle bundle for one `OnlineMapMatcher` instance.  `G` is the type of
edge geometries (shapely `LineString`s). -/
structure MatcherEnv (G : Type) where
  window_size : ℕ
  /-- `DistanceMatcher(...).match(path)` on a `(lat, lon)` path, with
  exceptions mapped to `[]` as the `try/except` does. -/
  matchFn : List (ℝ × ℝ) → List (ℕ × ℕ)
  getEdgeData : ℕ → ℕ → Option (EdgeData G)
  /-- `G.nodes[n]`: the `(x, y)` coordinates. -/
  nodeXY : ℕ → ℝ × ℝ
  /-- `LineString` between two node coordinate pairs. -/
  lineBetween : ℝ × ℝ → ℝ × ℝ → G
  /-- `geom.interpolate(geom.project(raw_pt))` for `raw_pt = (x, y) =
  (lon, lat)`, returned as `(x, y)`. -/
  projectInterpolate : G → ℝ × ℝ → ℝ × ℝ

/-- `OnlineMapMatcher._match_window` on the current buffer. -/
def matchWindow {G : Type} (env : MatcherEnv G) (buffer : List Point) :
    Option Point :=
  match buffer with
  | [] => none
  | oldest :: _ =>
    let path := buffer.map fun p => (p.lat, p.lon)
    match env.matchFn path with
    | [] => some oldest
    | (u, v) :: _ =>
      let ed := env.getEdgeData u v
      let r_id :=
        match ed with
        | some d =>
          if d.hasKey0 then
            match d.osmid with
            | some (.inl i) => toString i
            | some (.inr l) => toString (l.headD 0)
            | none => toString u ++ "-" ++ toString v
          else toString u ++ "-" ++ toString v
        | none => toString u ++ "-" ++ toString v
      let snapped :=
        match ed with
        | some d =>
          if d.hasKey0 then
            let geom := match d.geometry with
              | some gm => gm
              | none => env.lineBetween (env.nodeXY u) (env.nodeXY v)
            let r := env.projectInterpolate geom (oldest.lon, oldest.lat)
            (r.2, r.1)
          else (oldest.lat, oldest.lon)
        | none => (oldest.lat, oldest.lon)
      some { oldest with road_id := some r_id, lat := snapped.1, lon := snapped.2 }

/-- `OnlineMapMatcher.process_point`: append to the sliding buffer; while
it holds fewer than `window_size` fixes return `None`, otherwise match the
window, evict the oldest fix and return the matched fix. -/
def matcherProcessPoint {G : Type} (env : MatcherEnv G) (buffer : List Point)
    (point : Point) : List Point × Option Point :=
  let buf := buffer ++ [point]
  if buf.length < env.window_size then (buf, none)
  else (buf.tail, matchWindow env buf)

/-- Feed a fix stream through `process_point`, collecting each call's
return value. -/
def runMatcherGo {G : Type} (env : MatcherEnv G) (buffer : List Point) :
    List Point → List (Option Point)
  | [] => []
  | p :: rest =>
    let r := matcherProcessPoint env buffer p
    r.2 :: runMatcherGo env r.1 rest

/-- The per-call outputs of `process_point` over a whole stream, starting
from the empty buffer of a fresh matcher. -/
def runMatcher {G : Type} (env : MatcherEnv G) (points : List Point) :
    List (Option Point) :=
  runMatcherGo env [] points

/-! ## Claim C9 — SED helper on the S6 scenario -/

/-- **C9.** For segment anchors `(0, 0, t=0)` and `(2, 0, t=2)` and test
point `(1, 1, t=1)`, the SED error computed by the SED helper used for
SQUISH priorities (`SquishCompressor._compute_priority`, which works in
degree space) equals `1.0` in the unit used (degrees). -/
theorem c9_sed_helper_unit :
    squishPriority ⟨0, 0, 0, "o", none⟩ ⟨1, 1, 1, "o", none⟩
      ⟨2, 0, 2, "o", none⟩ = 1 := by
  unfold squishPriority
  norm_num

/-! ## Claim C7 — construction-time validation -/

/-- **C7, counterexample.** The claim states that constructing
`STEPSegmenter` with non-positive `max_eps` or non-positive
`min_duration_seconds` raises an error.  It does not: `__init__` performs
no validation, so construction with `max_eps = -1` and
`min_duration_seconds = -1` succeeds. -/
theorem c7_counterexample_step_init_no_validation :
    stepInit (-1) (-1) none = .ok (stepNew (-1) (-1) none) := rfl

/-- **C7, amended.** `SquishCompressor.__init__` does fail fast: any
capacity below 3 raises `ValueError` and any capacity at least 3 is
accepted.  `STEPSegmenter.__init__`, however, performs no validation at
all: it succeeds for every `max_eps`, `min_duration_seconds` and
`grid_size_meters`, including non-positive ones. -/
theorem c7_construction_validation :
    (∀ capacity : ℤ, capacity < 3 → squishInit capacity = .error .valueError) ∧
    (∀ capacity : ℤ, 3 ≤ capacity → squishInit capacity = .ok capacity) ∧
    (∀ (max_eps min_dur : ℝ) (gs : Option ℝ),
      stepInit max_eps min_dur gs = .ok (stepNew max_eps min_dur gs)) := by
  refine ⟨fun c hc => ?_, fun c hc => ?_, fun e d g => rfl⟩
  · simp [squishInit, hc]
  · simp [squishInit]
    omega

/-- Witness for `c7_construction_validation` at concrete inputs. -/
theorem c7_construction_validation_witness :
    squishInit 2 = .error .valueError ∧ squishInit 3 = .ok 3 ∧
      stepInit (-5) 0 none = .ok (stepNew (-5) 0 none) :=
  ⟨c7_construction_validation.1 2 (by norm_num),
   c7_construction_validation.2.1 3 (by norm_num),
   c7_construction_validation.2.2 (-5) 0 none⟩

/-! ## Claim C5 — map-matcher windowing and failure pass-through -/

/-- `_match_window` returns a point whenever the buffer is nonempty. -/
theorem matchWindow_isSome {G : Type} (env : MatcherEnv G)
    (buffer : List Point) (h : buffer ≠ []) :
    ∃ q, matchWindow env buffer = some q := by
  cases buffer with
  | nil => exact absurd rfl h
  | cons oldest rest =>
    unfold matchWindow
    simp only [List.map_cons]
    cases henv : env.matchFn
        ((oldest.lat, oldest.lon) :: rest.map fun p => (p.lat, p.lon)) with
    | nil => exact ⟨oldest, rfl⟩
    | cons uv states =>
      obtain ⟨u, v⟩ := uv
      exact ⟨_, rfl⟩

/-- One output of `process_point` per ingested fix. -/
theorem runMatcherGo_length {G : Type} (env : MatcherEnv G) :
    ∀ (rest : List Point) (buffer : List Point),
      (runMatcherGo env buffer rest).length = rest.length := by
  intro rest
  induction rest with
  | nil => intro buffer; rfl
  | cons p rest ih => intro buffer; simp [runMatcherGo, ih]

/-- Closed form of the per-call outputs of `process_point`: with the
buffer holding the trailing window of an already-consumed history `hist`,
the `j`-th output of the remaining stream is `None` while fewer than
`window_size` fixes have been ingested in total, and otherwise is
`_match_window` applied to the window of the last `window_size` fixes. -/
theorem runMatcherGo_spec {G : Type} (env : MatcherEnv G)
    (hws : 1 ≤ env.window_size) :
    ∀ (rest hist : List Point) (j : ℕ), j < rest.length →
      (runMatcherGo env
        (hist.drop (hist.length + 1 - env.window_size)) rest).getD j none
      = (if hist.length + j + 1 < env.window_size then none
         else matchWindow env
           (((hist ++ rest).take (hist.length + j + 1)).drop
             (hist.length + j + 1 - env.window_size))) := by
  intro rest
  induction rest with
  | nil => intro hist j hj; simp at hj
  | cons p rest ih =>
    intro hist j hj
    have hdrople : hist.length + 1 - env.window_size ≤ hist.length := by omega
    have hbuf : hist.drop (hist.length + 1 - env.window_size) ++ [p]
        = (hist ++ [p]).drop (hist.length + 1 - env.window_size) :=
      (List.drop_append_of_le_length hdrople).symm
    have hbuflen : ((hist ++ [p]).drop
        (hist.length + 1 - env.window_size)).length
        = hist.length + 1 - (hist.length + 1 - env.window_size) := by simp
    simp only [runMatcherGo, matcherProcessPoint, hbuf]
    by_cases hlt : hist.length + 1 < env.window_size
    · rw [if_pos (by rw [hbuflen]; omega : ((hist ++ [p]).drop
        (hist.length + 1 - env.window_size)).length < env.window_size)]
      cases j with
      | zero =>
        simp only [List.getD_cons_zero]
        rw [if_pos (by omega : hist.length + 0 + 1 < env.window_size)]
      | succ jj =>
        simp only [List.getD_cons_succ]
        have hj' : jj < rest.length := by
          simp only [List.length_cons] at hj; omega
        have hIH := ih (hist ++ [p]) jj hj'
        simp only [List.length_append, List.length_cons, List.length_nil,
          List.append_assoc, List.singleton_append] at hIH
        have e1 : hist.length + 1 - env.window_size
            = hist.length + 1 + 1 - env.window_size := by omega
        rw [e1, hIH]
        have e2 : hist.length + 1 + jj + 1 = hist.length + (jj + 1) + 1 := by
          omega
        rw [e2]
    · rw [if_neg (by rw [hbuflen]; omega)]
      cases j with
      | zero =>
        simp only [List.getD_cons_zero, Nat.add_zero]
        rw [if_neg (by omega : ¬ hist.length + 1 < env.window_size)]
        rw [List.take_append]
        simp
      | succ jj =>
        simp only [List.getD_cons_succ]
        rw [List.tail_drop]
        have hj' : jj < rest.length := by
          simp only [List.length_cons] at hj; omega
        have hIH := ih (hist ++ [p]) jj hj'
        simp only [List.length_append, List.length_cons, List.length_nil,
          List.append_assoc, List.singleton_append] at hIH
        have e1 : hist.length + 1 - env.window_size + 1
            = hist.length + 1 + 1 - env.window_size := by omega
        rw [e1, hIH]
        have e2 : hist.length + 1 + jj + 1 = hist.length + (jj + 1) + 1 := by
          omega
        rw [e2]

/-- When Viterbi matching returns no states, `_match_window` returns the
oldest buffered fix itself (coordinates and `road_id` untouched). -/
theorem matchWindow_failure {G : Type} (env : MatcherEnv G) (W : List Point)
    (hne : W ≠ [])
    (hfail : env.matchFn (W.map fun p => (p.lat, p.lon)) = []) :
    matchWindow env W = some (W.getD 0 default) := by
  cases W with
  | nil => exact absurd rfl hne
  | cons o t =>
    unfold matchWindow
    simp only [List.map_cons] at hfail ⊢
    rw [hfail]
    rfl

/-- **C5.** For every oracle environment with `window_size ≥ 1` and every
ingested fix sequence: `process_point` emits one output slot per call; the
first `window_size − 1` calls return `None`; from the `window_size`-th call
onward every call returns exactly one fix; and when matching yields no
states for the current window, the oldest buffered fix passes through
unchanged (same coordinates and `road_id` — in particular `road_id = None`
for raw input fixes), with no exception raised (the model is total). -/
theorem c5_matcher_window_delay {G : Type} (env : MatcherEnv G)
    (hws : 1 ≤ env.window_size) (pts : List Point) :
    (runMatcher env pts).length = pts.length ∧
    (∀ k, k < pts.length → k + 1 < env.window_size →
      (runMatcher env pts).getD k none = none) ∧
    (∀ k, k < pts.length → env.window_size ≤ k + 1 →
      ∃ q, (runMatcher env pts).getD k none = some q) ∧
    (∀ k, k < pts.length → env.window_size ≤ k + 1 →
      env.matchFn (((pts.take (k + 1)).drop (k + 1 - env.window_size)).map
        (fun p => (p.lat, p.lon))) = [] →
      (runMatcher env pts).getD k none
        = some (pts.getD (k + 1 - env.window_size) default)) := by
  have hspec : ∀ k, k < pts.length →
      (runMatcher env pts).getD k none
      = (if k + 1 < env.window_size then none
         else matchWindow env ((pts.take (k + 1)).drop
           (k + 1 - env.window_size))) := by
    intro k hk
    have h := runMatcherGo_spec env hws pts [] k hk
    simpa [runMatcher] using h
  have hWlen : ∀ k, k < pts.length → env.window_size ≤ k + 1 →
      (pts.take (k + 1)).drop (k + 1 - env.window_size) ≠ [] := by
    intro k hk hge
    apply List.ne_nil_of_length_pos
    simp only [List.length_drop, List.length_take]
    omega
  refine ⟨runMatcherGo_length env pts [], fun k hk hlt => ?_,
    fun k hk hge => ?_, fun k hk hge hfail => ?_⟩
  · rw [hspec k hk, if_pos hlt]
  · rw [hspec k hk, if_neg (by omega)]
    exact matchWindow_isSome env _ (hWlen k hk hge)
  · rw [hspec k hk, if_neg (by omega),
      matchWindow_failure env _ (hWlen k hk hge) hfail]
    have hgd : ((pts.take (k + 1)).drop (k + 1 - env.window_size)).getD 0
        default = pts.getD (k + 1 - env.window_size) default := by
      simp [List.getD_eq_getElem?_getD, List.getElem?_drop,
        List.getElem?_take, (by omega : k + 1 - env.window_size < k + 1)]
    rw [hgd]

/-- Witness environment for `c5_matcher_window_delay`: `window_size = 2`,
matching always fails. -/
def c5WitnessEnv : MatcherEnv Unit where
  window_size := 2
  matchFn := fun _ => []
  getEdgeData := fun _ _ => none
  nodeXY := fun _ => (0, 0)
  lineBetween := fun _ _ => ()
  projectInterpolate := fun _ _ => (0, 0)

/-- Witness for `c5_matcher_window_delay` on a concrete two-fix stream:
the first call emits nothing and the second call passes the first fix
through unchanged. -/
theorem c5_matcher_window_delay_witness :
    (runMatcher c5WitnessEnv [⟨1, 2, 0, "a", none⟩, ⟨3, 4, 5, "a", none⟩]).getD
      0 none = none ∧
    (runMatcher c5WitnessEnv [⟨1, 2, 0, "a", none⟩, ⟨3, 4, 5, "a", none⟩]).getD
      1 none = some ⟨1, 2, 0, "a", none⟩ :=
  ⟨(c5_matcher_window_delay c5WitnessEnv (by simp [c5WitnessEnv])
      [⟨1, 2, 0, "a", none⟩, ⟨3, 4, 5, "a", none⟩]).2.1 0 (by norm_num)
      (by simp [c5WitnessEnv]),
   (c5_matcher_window_delay c5WitnessEnv (by simp [c5WitnessEnv])
      [⟨1, 2, 0, "a", none⟩, ⟨3, 4, 5, "a", none⟩]).2.2.2 1 (by norm_num)
      (by simp [c5WitnessEnv]) rfl⟩

/-! ## Claim C8 — SED statistics of a list against itself -/

/-- Two fixes sharing a timestamp but one degree of latitude apart. -/
noncomputable def c8pA : Point := ⟨0, 0, 0, "a", none⟩

/-- See `c8pA`. -/
noncomputable def c8pB : Point := ⟨1, 0, 0, "a", none⟩

theorem c8_planar_self (p : Point) : planarMeters p p = 0 := by
  unfold planarMeters
  norm_num

theorem c8_adv_a : sedAdvance [c8pA, c8pB] 0 0 = 0 := by
  rw [sedAdvance]
  norm_num [c8pA, c8pB]

theorem c8_err_b : planarMeters c8pB c8pA = 111320 := by
  unfold planarMeters c8pA c8pB
  norm_num
  rw [show (12392142400 : ℝ) = 111320 ^ 2 by norm_num]
  exact Real.sqrt_sq (by norm_num)

theorem c8_step_a : sedStatsStep [c8pA, c8pB] 0 c8pA = (0, 0) := by
  unfold sedStatsStep
  rw [show c8pA.timestamp = 0 from rfl, c8_adv_a]
  norm_num [c8pA, c8pB, calculate_sed_error, c8_planar_self]

theorem c8_step_b : sedStatsStep [c8pA, c8pB] 0 c8pB = (111320, 0) := by
  unfold sedStatsStep
  rw [show c8pB.timestamp = 0 from rfl, c8_adv_a]
  norm_num [calculate_sed_error, c8_err_b, show c8pA.timestamp = 0 from rfl,
    show c8pB.timestamp = 0 from rfl]

/-- **C8, counterexample.**  The claim asserts
`calculate_sed_stats(points, points)` returns all-zero statistics for
*any* input list.  It fails when two fixes share a timestamp but not a
location: for `[(0°, 0°, t=0), (1°, 0°, t=0)]` the zero-duration fallback
measures the full planar distance (111320 m) for the second fix, so
`max_sed ≠ 0`. -/
theorem c8_counterexample_duplicate_timestamp :
    (calculate_sed_stats [c8pA, c8pB] [c8pA, c8pB]).max_sed ≠ 0 := by
  unfold calculate_sed_stats
  simp only [sedErrorsGo, c8_step_a, c8_step_b]
  norm_num [pyMax]

/-- When comparing a strictly time-increasing list against itself, the
`comp_idx` advance loop run for element `j` (whose incoming index is
`j - 2`) stops at `j - 1`. -/
theorem sedAdvance_self (pts : List Point)
    (hmono : ∀ i, i + 1 < pts.length →
      (pts.getD i default).timestamp < (pts.getD (i + 1) default).timestamp) :
    ∀ j, j < pts.length →
      sedAdvance pts (pts.getD j default).timestamp (j - 2) = j - 1 := by
  intro j hj
  match j with
  | 0 =>
    rw [sedAdvance]
    rw [dif_neg (by
      rintro ⟨h1, h2⟩
      exact absurd (hmono 0 (by omega)) (not_lt.mpr (le_of_lt h2)))]
  | 1 =>
    rw [sedAdvance]
    rw [dif_neg (by
      rintro ⟨h1, h2⟩
      exact absurd h2 (lt_irrefl _))]
  | (j + 2) =>
    rw [sedAdvance]
    rw [dif_pos ⟨by omega, hmono (j + 1) (by omega)⟩]
    rw [sedAdvance]
    rw [dif_neg (by
      rintro ⟨h1, h2⟩
      exact absurd h2 (lt_irrefl _))]
    omega

/-- SED error of the left anchor against its own segment is zero. -/
theorem sed_error_self_left (a b : Point) (hne : a.timestamp ≠ b.timestamp) :
    calculate_sed_error a a b = 0 := by
  unfold calculate_sed_error
  rw [if_neg hne]
  simp [sub_self, zero_div, mul_zero, add_zero]

/-- SED error of the right anchor against its own segment is zero. -/
theorem sed_error_self_right (a b : Point) (hne : a.timestamp ≠ b.timestamp) :
    calculate_sed_error b a b = 0 := by
  unfold calculate_sed_error
  rw [if_neg hne]
  rw [div_self (sub_ne_zero.mpr (Ne.symm hne))]
  ring_nf
  simp

/-- On a strictly time-increasing list compared against itself, every
per-element step of `calculate_sed_stats` records error `0` and leaves
`comp_idx` at `j - 1`. -/
theorem sedStatsStep_self (pts : List Point)
    (hmono : ∀ i, i + 1 < pts.length →
      (pts.getD i default).timestamp < (pts.getD (i + 1) default).timestamp)
    (j : ℕ) (hj : j < pts.length) :
    sedStatsStep pts (j - 2) (pts.getD j default) = (0, j - 1) := by
  unfold sedStatsStep
  rw [sedAdvance_self pts hmono j hj]
  by_cases hbig : j - 1 ≥ pts.length - 1
  · have hj0 : j = 0 := by omega
    have hn1 : pts.length = 1 := by omega
    rw [if_pos hbig]
    subst hj0
    match pts, hn1 with
    | [a], _ => simp [c8_planar_self]
  · rw [if_neg hbig]
    have hplt : ¬ (pts.getD j default).timestamp
        < (pts.getD (j - 1) default).timestamp := by
      match j with
      | 0 => exact lt_irrefl _
      | jj + 1 => exact not_lt.mpr (le_of_lt (hmono jj (by omega)))
    rw [if_neg hplt]
    match j with
    | 0 =>
      simp only [Nat.zero_sub, Nat.zero_add]
      rw [sed_error_self_left _ _ (ne_of_lt (hmono 0 (by omega)))]
    | jj + 1 =>
      simp only [Nat.add_sub_cancel]
      rw [sed_error_self_right _ _ (ne_of_lt (hmono jj (by omega)))]

/-- On a strictly time-increasing list compared against itself, the error
list from position `j` on is all zeros. -/
theorem sedErrorsGo_self (pts : List Point)
    (hmono : ∀ i, i + 1 < pts.length →
      (pts.getD i default).timestamp < (pts.getD (i + 1) default).timestamp) :
    ∀ k j, pts.length - j ≤ k → j ≤ pts.length →
      sedErrorsGo pts (j - 2) (pts.drop j)
        = List.replicate (pts.length - j) 0 := by
  intro k
  induction k with
  | zero =>
    intro j h1 h2
    have hj : j = pts.length := by omega
    subst hj
    simp [sedErrorsGo, List.drop_length]
  | succ k ih =>
    intro j h1 h2
    by_cases hj : j = pts.length
    · subst hj
      simp [sedErrorsGo, List.drop_length]
    · have hjlt : j < pts.length := by omega
      have hdrop : pts.drop j = pts.getD j default :: pts.drop (j + 1) := by
        rw [List.drop_eq_getElem_cons hjlt]
        congr 1
        simp [List.getD_eq_getElem?_getD, List.getElem?_eq_getElem hjlt]
      rw [hdrop]
      simp only [sedErrorsGo]
      rw [sedStatsStep_self pts hmono j hjlt]
      have e1 : j + 1 - 2 = j - 1 := by omega
      have hrec := ih (j + 1) (by omega) (by omega)
      rw [e1] at hrec
      simp only [hrec]
      rw [show pts.length - j = (pts.length - (j + 1)) + 1 from by omega,
        List.replicate_succ]

theorem foldl_max_zero : ∀ k, (List.replicate k (0 : ℝ)).foldl max 0 = 0 := by
  intro k
  induction k with
  | zero => rfl
  | succ k ih => simpa [List.replicate_succ] using ih

theorem pyMax_replicate_zero (n : ℕ) : pyMax (List.replicate n (0 : ℝ)) = 0 := by
  cases n with
  | zero => rfl
  | succ n => simp [List.replicate_succ, pyMax, foldl_max_zero]

/-- **C8, amended.** `calculate_sed_stats(points, points)` returns
`average_sed = 0`, `max_sed = 0` and `rmse = 0` for every input list with
*strictly increasing* timestamps (the original claim's "any input" fails
for repeated timestamps, see the counterexample). -/
theorem c8_sed_stats_self_zero (pts : List Point)
    (hmono : pts.Chain' fun a b => a.timestamp < b.timestamp) :
    (calculate_sed_stats pts pts).average_sed = 0 ∧
    (calculate_sed_stats pts pts).max_sed = 0 ∧
    (calculate_sed_stats pts pts).rmse = 0 := by
  have hm : ∀ i, i + 1 < pts.length →
      (pts.getD i default).timestamp < (pts.getD (i + 1) default).timestamp := by
    intro i h
    have h1 : i < pts.length := by omega
    rw [List.getD_eq_getElem?_getD, List.getElem?_eq_getElem h1,
        List.getD_eq_getElem?_getD, List.getElem?_eq_getElem h]
    simp only [Option.getD_some]
    have := List.chain'_iff_get.mp hmono i (by omega)
    simpa using this
  by_cases hpe : pts = []
  · subst hpe
    unfold calculate_sed_stats
    simp
  · have hn : 0 < pts.length := List.length_pos.mpr hpe
    have herr : sedErrorsGo pts 0 pts = List.replicate pts.length 0 := by
      have h := sedErrorsGo_self pts hm pts.length 0 (by omega) (by omega)
      simpa using h
    have hie : (List.replicate pts.length (0 : ℝ)).isEmpty = false := by
      cases hL : pts.length with
      | zero => omega
      | succ n => simp [List.replicate_succ]
    unfold calculate_sed_stats
    rw [if_neg (by simp [hpe])]
    simp only [herr]
    rw [if_neg (by simp [hie])]
    refine ⟨?_, ?_, ?_⟩
    · simp
    · simp [pyMax_replicate_zero]
    · simp

/-- Witness for `c8_sed_stats_self_zero` on a concrete strictly-increasing
two-fix list. -/
theorem c8_sed_stats_self_zero_witness :
    (calculate_sed_stats [⟨0, 0, 0, "a", none⟩, ⟨1, 0, 5, "a", none⟩]
      [⟨0, 0, 0, "a", none⟩, ⟨1, 0, 5, "a", none⟩]).average_sed = 0 ∧
    (calculate_sed_stats [⟨0, 0, 0, "a", none⟩, ⟨1, 0, 5, "a", none⟩]
      [⟨0, 0, 0, "a", none⟩, ⟨1, 0, 5, "a", none⟩]).max_sed = 0 ∧
    (calculate_sed_stats [⟨0, 0, 0, "a", none⟩, ⟨1, 0, 5, "a", none⟩]
      [⟨0, 0, 0, "a", none⟩, ⟨1, 0, 5, "a", none⟩]).rmse = 0 :=
  c8_sed_stats_self_zero _ (by
    refine List.chain'_cons.mpr ⟨?_, List.chain'_singleton _⟩
    norm_num)

/-! ## Claim C6 — STC output characterisation -/

/-- The road-transition filter of the spec's wording: the pairs
`(predecessor, fix)` over the interior fixes, keeping fixes whose
`road_id` differs from their predecessor's. -/
noncomputable def stcChanges (prev : Point) (mid : List Point) : List Point :=
  (((prev :: mid).zip mid).filter fun q => q.2.road_id ≠ q.1.road_id).map (·.2)

/-- The spec's description of STC output (§4.6): the first fix, every
interior fix whose `road_id` differs from its predecessor's, and the last
fix appended only if distinct from the already-last emitted fix; inputs
with at most one fix are returned unchanged. -/
noncomputable def stcSpecList (pts : List Point) : List Point :=
  if pts.length ≤ 1 then pts
  else
    match pts with
    | [] => []
    | p0 :: rest =>
      let body := p0 :: stcChanges p0 rest.dropLast
      body ++ (if body.getLast? ≠ some (rest.getLastD default)
               then [rest.getLastD default] else [])

theorem stcChanges_nil (prev : Point) : stcChanges prev [] = [] := rfl

theorem stcChanges_cons_eq (prev q : Point) (mid : List Point)
    (h : q.road_id = prev.road_id) :
    stcChanges prev (q :: mid) = stcChanges q mid := by
  unfold stcChanges
  simp [List.zip_cons_cons, List.filter_cons, h]

theorem stcChanges_cons_ne (prev q : Point) (mid : List Point)
    (h : q.road_id ≠ prev.road_id) :
    stcChanges prev (q :: mid) = q :: stcChanges q mid := by
  unfold stcChanges
  simp [List.zip_cons_cons, List.filter_cons, h]

/-- Closed form of the `STCOracle.process` loop: processing the remaining
fixes `mid ++ [plast]` from interior position `idx` with accumulator
`acc`, where `current_road` equals the `road_id` of the input predecessor
`prev`, appends exactly the predecessor-changing interior fixes and then
the terminal fix when it differs from the last emitted one. -/
theorem stcGo_spec (plast : Point) :
    ∀ (mid acc : List Point) (prev : Point) (cur : Option String)
      (idx lastIdx : ℕ),
      acc ≠ [] → cur = prev.road_id → idx + mid.length = lastIdx → 1 ≤ idx →
      stcGo lastIdx idx (mid ++ [plast]) acc cur
        = acc ++ stcChanges prev mid
          ++ (if (acc ++ stcChanges prev mid).getLast? ≠ some plast
              then [plast] else []) := by
  intro mid
  induction mid with
  | nil =>
    intro acc prev cur idx lastIdx hacc hcur hidx h1
    simp only [List.length_nil, Nat.add_zero] at hidx
    simp only [List.nil_append, stcChanges_nil, List.append_nil]
    simp only [stcGo]
    rw [if_neg (by omega : ¬ idx = 0), if_pos hidx]
    have hy : acc.getLast? = some (acc.getLast hacc) :=
      List.getLast?_eq_getLast acc hacc
    by_cases hne : acc.getLast hacc = plast
    · rw [if_neg (by
        rw [List.getLastD_eq_getLast?, hy]
        simp [hne]), if_neg (by simp [hy, hne])]
      simp
    · rw [if_pos (by
        rw [List.getLastD_eq_getLast?, hy]
        simp [hne]), if_pos (by simp [hy, hne])]
  | cons q mid ih =>
    intro acc prev cur idx lastIdx hacc hcur hidx h1
    simp only [List.cons_append, stcGo, List.append_eq]
    rw [if_neg (by omega : ¬ idx = 0),
      if_neg (by simp only [List.length_cons] at hidx; omega : ¬ idx = lastIdx)]
    by_cases hq : q.road_id = prev.road_id
    · rw [if_neg (by simp [hcur, hq])]
      rw [ih acc q cur (idx + 1) lastIdx hacc (by rw [hcur, hq]) (by
        simp only [List.length_cons] at hidx; omega) (by omega)]
      rw [stcChanges_cons_eq prev q mid hq]
    · rw [if_pos (by simp [hcur]; exact fun hh => hq hh)]
      rw [ih (acc ++ [q]) q q.road_id (idx + 1) lastIdx (by simp) rfl (by
        simp only [List.length_cons] at hidx; omega) (by omega)]
      rw [stcChanges_cons_ne prev q mid hq]
      simp [List.append_assoc]

/-- `stcGo_spec` restated for a nonempty remaining list `tail` via
`dropLast`/`getLastD`. -/
theorem stcGo_spec_split (tail : List Point) (htail : tail ≠ [])
    (acc : List Point) (prev : Point) (cur : Option String) (idx lastIdx : ℕ)
    (hacc : acc ≠ []) (hcur : cur = prev.road_id)
    (hidx : idx + tail.length = lastIdx + 1) (h1 : 1 ≤ idx) :
    stcGo lastIdx idx tail acc cur
      = acc ++ stcChanges prev tail.dropLast
        ++ (if (acc ++ stcChanges prev tail.dropLast).getLast?
              ≠ some (tail.getLastD default)
            then [tail.getLastD default] else []) := by
  have hlastD : tail.getLastD default = tail.getLast htail := by
    rw [List.getLastD_eq_getLast?, List.getLast?_eq_getLast _ htail]
    rfl
  have hsplit : tail.dropLast ++ [tail.getLastD default] = tail := by
    rw [hlastD]
    exact List.dropLast_concat_getLast htail
  have hlen : tail.dropLast.length = tail.length - 1 := by simp
  conv_lhs => rw [← hsplit]
  rw [stcGo_spec (tail.getLastD default) tail.dropLast acc prev cur idx lastIdx
    hacc hcur (by
      have h0 : 0 < tail.length := List.length_pos.mpr htail
      omega) h1]

/-- Unfolding the `idx = 0` iteration of the STC loop. -/
theorem stcGo_zero_step (lastIdx : ℕ) (p : Point) (rest compressed : List Point)
    (cur : Option String) :
    stcGo lastIdx 0 (p :: rest) compressed cur
      = stcGo lastIdx 1 rest (compressed ++ [p]) p.road_id := by
  rw [stcGo]
  rw [if_pos rfl]

/-- `STCOracle.process` computes exactly the spec's description. -/
theorem stcProcess_eq_spec (pts : List Point) :
    stcProcess pts = stcSpecList pts := by
  match pts with
  | [] => rfl
  | [p] => rfl
  | p0 :: q :: rest =>
    have hne2 : ¬ (p0 :: q :: rest).length ≤ 1 := by
      simp only [List.length_cons]
      omega
    unfold stcProcess stcSpecList
    rw [if_neg (by simp), if_neg hne2, if_neg hne2]
    rw [stcGo_zero_step]
    simp only [List.nil_append]
    rw [stcGo_spec_split (q :: rest) (by simp) [p0] p0 p0.road_id 1
      ((p0 :: q :: rest).length - 1) (by simp) rfl
      (by simp only [List.length_cons]; omega) le_rfl]
    simp

/-- Appending the predecessor-change fixes to an accumulator whose last
element carries the current road keeps consecutive `road_id`s pairwise
distinct. -/
theorem stcChanges_chain :
    ∀ (mid acc : List Point) (prev : Point) (cur : Option String),
      cur = prev.road_id →
      List.Chain' (fun a b => a.road_id ≠ b.road_id) acc →
      (∀ x, acc.getLast? = some x → x.road_id = cur) →
      List.Chain' (fun a b => a.road_id ≠ b.road_id)
        (acc ++ stcChanges prev mid) := by
  intro mid
  induction mid with
  | nil =>
    intro acc prev cur hcur hch hl
    simpa [stcChanges_nil] using hch
  | cons q mid ih =>
    intro acc prev cur hcur hch hl
    by_cases hq : q.road_id = prev.road_id
    · rw [stcChanges_cons_eq prev q mid hq]
      exact ih acc q cur (by rw [hcur, hq]) hch hl
    · rw [stcChanges_cons_ne prev q mid hq]
      rw [show acc ++ q :: stcChanges q mid
          = (acc ++ [q]) ++ stcChanges q mid by simp]
      apply ih (acc ++ [q]) q q.road_id rfl
      · rw [List.chain'_append]
        refine ⟨hch, List.chain'_singleton q, ?_⟩
        intro x hx y hy
        have hyq : y = q := by have hh := hy; simp at hh; exact hh.symm
        subst hyq
        have hx' : x.road_id = cur := hl x (by simpa using hx)
        rw [hx', hcur]
        exact fun hh => hq (by rw [hh])
      · intro x hx
        rw [List.getLast?_concat] at hx
        cases hx
        rfl

/-- **C6.** `STCOracle.process` emits exactly the spec's sub-sequence: the
first fix, every interior fix whose `road_id` differs from its
predecessor's, and the last fix appended only when distinct from the
already-last emitted fix (`stcSpecList`); inputs of at most one fix are
returned unchanged; the first output fix is the first input fix; and
consecutive output fixes have pairwise-distinct `road_id` except possibly
the last two. -/
theorem c6_stc_characterization (pts : List Point) :
    stcProcess pts = stcSpecList pts ∧
    (stcProcess pts).head? = pts.head? ∧
    List.Chain' (fun a b => a.road_id ≠ b.road_id) (stcProcess pts).dropLast ∧
    (pts.length ≤ 1 → stcProcess pts = pts) := by
  refine ⟨stcProcess_eq_spec pts, ?_, ?_, ?_⟩
  · match pts with
    | [] => rfl
    | [p] => rfl
    | p0 :: q :: rest =>
      rw [stcProcess_eq_spec]
      unfold stcSpecList
      rw [if_neg (by simp only [List.length_cons]; omega)]
      simp [List.cons_append]
  · match pts with
    | [] => simp [stcProcess]
    | [p] => simp [stcProcess]
    | p0 :: q :: rest =>
      rw [stcProcess_eq_spec]
      unfold stcSpecList
      rw [if_neg (by simp only [List.length_cons]; omega)]
      dsimp only
      have hbody : List.Chain' (fun a b => a.road_id ≠ b.road_id)
          (p0 :: stcChanges p0 (q :: rest).dropLast) := by
        have h := stcChanges_chain ((q :: rest).dropLast) [p0] p0 p0.road_id
          rfl (List.chain'_singleton p0) (by
            intro x hx
            cases hx
            rfl)
        simpa using h
      by_cases hif : (p0 :: stcChanges p0 (q :: rest).dropLast).getLast?
          ≠ some ((q :: rest).getLastD default)
      · rw [if_pos hif, List.dropLast_concat]
        exact hbody
      · rw [if_neg hif]
        simp only [List.append_nil]
        exact hbody.prefix (List.dropLast_prefix _)
  · intro hlen
    match pts with
    | [] => rfl
    | [p] => rfl
    | p0 :: q :: rest => simp only [List.length_cons] at hlen; omega

/-- Witness for `c6_stc_characterization`: a singleton input is returned
unchanged. -/
theorem c6_stc_characterization_witness :
    stcProcess [⟨0, 0, 0, "a", some "A"⟩] = [⟨0, 0, 0, "a", some "A"⟩] :=
  (c6_stc_characterization [⟨0, 0, 0, "a", some "A"⟩]).2.2.2 (by norm_num)

/-! ## Claim C4 — soundness of the grid-cell classification -/

/-- Two reals in grid cells `⌊x/g⌋` and `⌊y/g⌋` are closer than
`(Δ + 1)·g` and farther than `(Δ - 1)·g` apart, where `Δ` is the cell
offset. -/
theorem floor_cell_bounds (g x y : ℝ) (hg : 0 < g) :
    |x - y| < (((|⌊x / g⌋ - ⌊y / g⌋| : ℤ) : ℝ) + 1) * g ∧
    (((|⌊x / g⌋ - ⌊y / g⌋| : ℤ) : ℝ) - 1) * g < |x - y| := by
  set a := ⌊x / g⌋ with ha
  set b := ⌊y / g⌋ with hb
  have hx1 : (a : ℝ) * g ≤ x := by
    rw [← le_div_iff hg]
    exact Int.floor_le (x / g)
  have hx2 : x < ((a : ℝ) + 1) * g := by
    rw [← div_lt_iff hg]
    exact Int.lt_floor_add_one (x / g)
  have hy1 : (b : ℝ) * g ≤ y := by
    rw [← le_div_iff hg]
    exact Int.floor_le (y / g)
  have hy2 : y < ((b : ℝ) + 1) * g := by
    rw [← div_lt_iff hg]
    exact Int.lt_floor_add_one (y / g)
  have habs1 : ((a - b : ℤ) : ℝ) ≤ ((|a - b| : ℤ) : ℝ) := by
    exact_mod_cast le_abs_self (a - b)
  have habs2 : ((b - a : ℤ) : ℝ) ≤ ((|a - b| : ℤ) : ℝ) := by
    have h : b - a ≤ |a - b| := by
      rw [abs_sub_comm]
      exact le_abs_self _
    exact_mod_cast h
  constructor
  · rw [abs_sub_lt_iff]
    constructor
    · have : x - y < ((a : ℝ) + 1) * g - (b : ℝ) * g := by linarith
      have h2 : ((a : ℝ) + 1) * g - (b : ℝ) * g = (((a - b : ℤ) : ℝ) + 1) * g := by
        push_cast
        ring
      rw [h2] at this
      calc x - y < (((a - b : ℤ) : ℝ) + 1) * g := this
        _ ≤ (((|a - b| : ℤ) : ℝ) + 1) * g := by
            apply mul_le_mul_of_nonneg_right _ hg.le
            linarith
    · have : y - x < ((b : ℝ) + 1) * g - (a : ℝ) * g := by linarith
      have h2 : ((b : ℝ) + 1) * g - (a : ℝ) * g = (((b - a : ℤ) : ℝ) + 1) * g := by
        push_cast
        ring
      rw [h2] at this
      calc y - x < (((b - a : ℤ) : ℝ) + 1) * g := this
        _ ≤ (((|a - b| : ℤ) : ℝ) + 1) * g := by
            apply mul_le_mul_of_nonneg_right _ hg.le
            linarith
  · rcases lt_trichotomy a b with hab | hab | hab
    · have h1 : |a - b| = b - a := by
        rw [abs_sub_comm]
        exact abs_of_nonneg (by omega)
      have h2 : y - x > ((b : ℝ) : ℝ) * g - ((a : ℝ) + 1) * g := by linarith
      have h3 : ((b : ℝ)) * g - ((a : ℝ) + 1) * g = (((b - a : ℤ) : ℝ) - 1) * g := by
        push_cast
        ring
      have h4 : (((|a - b| : ℤ) : ℝ) - 1) * g = (((b - a : ℤ) : ℝ) - 1) * g := by
        rw [h1]
      rw [h4, ← h3]
      calc ((b : ℝ)) * g - ((a : ℝ) + 1) * g < y - x := by linarith
        _ ≤ |x - y| := by
            rw [abs_sub_comm]
            exact le_abs_self (y - x)
    · have h1 : |a - b| = 0 := by rw [hab, sub_self, abs_zero]
      rw [h1]
      have : ((0 : ℤ) : ℝ) - 1 = -1 := by norm_num
      rw [this]
      calc (-1 : ℝ) * g < 0 := by linarith
        _ ≤ |x - y| := abs_nonneg _
    · have h1 : |a - b| = a - b := abs_of_nonneg (by omega)
      have h3 : ((a : ℝ)) * g - ((b : ℝ) + 1) * g = (((a - b : ℤ) : ℝ) - 1) * g := by
        push_cast
        ring
      rw [h1, ← h3]
      calc ((a : ℝ)) * g - ((b : ℝ) + 1) * g < x - y := by linarith
        _ ≤ |x - y| := le_abs_self (x - y)

/-- When the mean-latitude cosine of the two fixes agrees with the cosine
of the projection origin's latitude, the flat-earth distance equals the
Euclidean distance of the origin-anchored metric coordinates used for
gridding. -/
theorem local_distance_eq_frame (o_lat o_lon : ℝ) (p1 p2 : Point)
    (hcos : Real.cos (radians ((p1.lat + p2.lat) / 2)) = Real.cos o_lat) :
    local_distance p1 p2
      = Real.sqrt
          (((radians p2.lon - o_lon) * 6371000 * Real.cos o_lat
            - (radians p1.lon - o_lon) * 6371000 * Real.cos o_lat) ^ 2
           + ((radians p2.lat - o_lat) * 6371000
            - (radians p1.lat - o_lat) * 6371000) ^ 2) := by
  unfold local_distance
  dsimp only
  rw [hcos]
  have hrad : ∀ u v : ℝ, radians (u - v) = radians u - radians v := by
    intro u v
    unfold radians
    ring
  have hR : (6371000 : ℝ) * Real.sqrt
      ((radians (p2.lon - p1.lon) * Real.cos o_lat)
        * (radians (p2.lon - p1.lon) * Real.cos o_lat)
       + radians (p2.lat - p1.lat) * radians (p2.lat - p1.lat))
      = Real.sqrt ((6371000 : ℝ) ^ 2 *
        ((radians (p2.lon - p1.lon) * Real.cos o_lat)
          * (radians (p2.lon - p1.lon) * Real.cos o_lat)
         + radians (p2.lat - p1.lat) * radians (p2.lat - p1.lat))) := by
    rw [Real.sqrt_mul (by positivity) _]
    rw [Real.sqrt_sq (by norm_num)]
  rw [hR]
  congr 1
  rw [hrad, hrad]
  unfold radians
  ring

/-- **C4, amended.** The grid-cell classification of the indexed stay-point
search is sound with respect to the flat-earth distance test *provided the
mean-latitude cosine used by `local_distance` agrees with the origin
cosine used for gridding* (e.g. when the fixes straddle the origin
latitude): confirmed cells imply `local_distance ≤ max_eps` and pruned
cells imply `local_distance > max_eps`.  Without that hypothesis the claim
is false (see the counterexample): the grid is built with
`cos(origin_lat)` while `local_distance` uses the fixes' mean latitude. -/
theorem c4_grid_classification_sound (st : StepState) (o_lat o_lon : ℝ)
    (p_c p_i : Point) (hg : 0 < st.g) (heps : 0 ≤ st.max_eps)
    (hthr : st.threshold_sq = (st.max_eps / st.g) ^ 2)
    (hcos : Real.cos (radians ((p_c.lat + p_i.lat) / 2)) = Real.cos o_lat) :
    (((((|stepGridX o_lat o_lon st.g p_i - stepGridX o_lat o_lon st.g p_c| + 1) ^ 2
        + (|stepGridY o_lat st.g p_i - stepGridY o_lat st.g p_c| + 1) ^ 2 : ℤ) : ℝ)
        ≤ st.threshold_sq) →
      local_distance p_c p_i ≤ st.max_eps) ∧
    (((((max 0 (|stepGridX o_lat o_lon st.g p_i - stepGridX o_lat o_lon st.g p_c| - 1)) ^ 2
        + (max 0 (|stepGridY o_lat st.g p_i - stepGridY o_lat st.g p_c| - 1)) ^ 2 : ℤ) : ℝ)
        > st.threshold_sq) →
      local_distance p_c p_i > st.max_eps) := by
  set Xc := (radians p_c.lon - o_lon) * 6371000 * Real.cos o_lat with hXc
  set Xi := (radians p_i.lon - o_lon) * 6371000 * Real.cos o_lat with hXi
  set Yc := (radians p_c.lat - o_lat) * 6371000 with hYc
  set Yi := (radians p_i.lat - o_lat) * 6371000 with hYi
  have hgx : stepGridX o_lat o_lon st.g p_c = ⌊Xc / st.g⌋ := rfl
  have hgx' : stepGridX o_lat o_lon st.g p_i = ⌊Xi / st.g⌋ := rfl
  have hgy : stepGridY o_lat st.g p_c = ⌊Yc / st.g⌋ := rfl
  have hgy' : stepGridY o_lat st.g p_i = ⌊Yi / st.g⌋ := rfl
  have hld : local_distance p_c p_i
      = Real.sqrt ((Xi - Xc) ^ 2 + (Yi - Yc) ^ 2) :=
    local_distance_eq_frame o_lat o_lon p_c p_i hcos
  set A := |⌊Xi / st.g⌋ - ⌊Xc / st.g⌋| with hA
  set B := |⌊Yi / st.g⌋ - ⌊Yc / st.g⌋| with hB
  obtain ⟨hX1, hX2⟩ := floor_cell_bounds st.g Xi Xc hg
  obtain ⟨hY1, hY2⟩ := floor_cell_bounds st.g Yi Yc hg
  have hthr2 : st.threshold_sq * st.g ^ 2 = st.max_eps ^ 2 := by
    rw [hthr]
    field_simp
  have hAnn : (0 : ℤ) ≤ A := abs_nonneg _
  have hBnn : (0 : ℤ) ≤ B := abs_nonneg _
  constructor
  · intro hcf
    rw [hgx, hgx', hgy, hgy', ← hA, ← hB] at hcf
    rw [hld]
    have h1 : (Xi - Xc) ^ 2 < (((A : ℝ) + 1) * st.g) ^ 2 := by
      rw [← sq_abs (Xi - Xc)]
      exact pow_lt_pow_left hX1 (abs_nonneg _) (by norm_num)
    have h2 : (Yi - Yc) ^ 2 < (((B : ℝ) + 1) * st.g) ^ 2 := by
      rw [← sq_abs (Yi - Yc)]
      exact pow_lt_pow_left hY1 (abs_nonneg _) (by norm_num)
    have h3 : ((((A + 1) ^ 2 + (B + 1) ^ 2 : ℤ) : ℝ)) * st.g ^ 2
        ≤ st.threshold_sq * st.g ^ 2 :=
      mul_le_mul_of_nonneg_right hcf (sq_nonneg _)
    have h4 : (((A : ℝ) + 1) * st.g) ^ 2 + (((B : ℝ) + 1) * st.g) ^ 2
        = (((A + 1) ^ 2 + (B + 1) ^ 2 : ℤ) : ℝ) * st.g ^ 2 := by
      push_cast
      ring
    have h5 : (Xi - Xc) ^ 2 + (Yi - Yc) ^ 2 ≤ st.max_eps ^ 2 := by
      nlinarith [h1, h2, h3, h4, hthr2]
    calc Real.sqrt ((Xi - Xc) ^ 2 + (Yi - Yc) ^ 2)
        ≤ Real.sqrt (st.max_eps ^ 2) := Real.sqrt_le_sqrt h5
      _ = st.max_eps := Real.sqrt_sq heps
  · intro hpr
    rw [hgx, hgx', hgy, hgy', ← hA, ← hB] at hpr
    rw [hld]
    have hA2 : (((max 0 (A - 1) : ℤ) : ℝ)) ^ 2 * st.g ^ 2 ≤ (Xi - Xc) ^ 2 := by
      rcases (by omega : A = 0 ∨ 1 ≤ A) with hA0 | hA1
      · rw [hA0]
        simp
        positivity
      · rw [max_eq_right (by omega : (0 : ℤ) ≤ A - 1)]
        have hstep : ((A : ℝ) - 1) * st.g ≤ |Xi - Xc| := le_of_lt (by
          have : (((A - 1 : ℤ)) : ℝ) = (A : ℝ) - 1 := by push_cast; ring
          rw [← this]
          exact_mod_cast hX2)
        have hnn : (0 : ℝ) ≤ ((A : ℝ) - 1) * st.g := by
          apply mul_nonneg _ hg.le
          have : (1 : ℝ) ≤ (A : ℝ) := by exact_mod_cast hA1
          linarith
        calc (((A - 1 : ℤ) : ℝ)) ^ 2 * st.g ^ 2
            = (((A : ℝ) - 1) * st.g) ^ 2 := by push_cast; ring
          _ ≤ |Xi - Xc| ^ 2 := pow_le_pow_left hnn hstep 2
          _ = (Xi - Xc) ^ 2 := sq_abs _
    have hB2 : (((max 0 (B - 1) : ℤ) : ℝ)) ^ 2 * st.g ^ 2 ≤ (Yi - Yc) ^ 2 := by
      rcases (by omega : B = 0 ∨ 1 ≤ B) with hB0 | hB1
      · rw [hB0]
        simp
        positivity
      · rw [max_eq_right (by omega : (0 : ℤ) ≤ B - 1)]
        have hstep : ((B : ℝ) - 1) * st.g ≤ |Yi - Yc| := le_of_lt (by
          have : (((B - 1 : ℤ)) : ℝ) = (B : ℝ) - 1 := by push_cast; ring
          rw [← this]
          exact_mod_cast hY2)
        have hnn : (0 : ℝ) ≤ ((B : ℝ) - 1) * st.g := by
          apply mul_nonneg _ hg.le
          have : (1 : ℝ) ≤ (B : ℝ) := by exact_mod_cast hB1
          linarith
        calc (((B - 1 : ℤ) : ℝ)) ^ 2 * st.g ^ 2
            = (((B : ℝ) - 1) * st.g) ^ 2 := by push_cast; ring
          _ ≤ |Yi - Yc| ^ 2 := pow_le_pow_left hnn hstep 2
          _ = (Yi - Yc) ^ 2 := sq_abs _
    have h3 : st.threshold_sq * st.g ^ 2
        < (((max 0 (A - 1)) ^ 2 + (max 0 (B - 1)) ^ 2 : ℤ) : ℝ) * st.g ^ 2 :=
      mul_lt_mul_of_pos_right hpr (pow_pos hg 2)
    have h4 : ((((max 0 (A - 1)) ^ 2 + (max 0 (B - 1)) ^ 2 : ℤ) : ℝ)) * st.g ^ 2
        = (((max 0 (A - 1) : ℤ) : ℝ)) ^ 2 * st.g ^ 2
          + (((max 0 (B - 1) : ℤ) : ℝ)) ^ 2 * st.g ^ 2 := by
      push_cast
      ring
    have h5 : st.max_eps ^ 2 < (Xi - Xc) ^ 2 + (Yi - Yc) ^ 2 := by
      linarith [hA2, hB2, h3, h4, hthr2]
    exact (Real.lt_sqrt heps).mpr h5

/-- Counterexample fix at the equator, at the projection origin. -/
noncomputable def c4pC : Point := ⟨0, 0, 0, "a", none⟩

/-- Counterexample fix at the equator, 58 flat-earth metres east of
`c4pC` (its longitude is chosen so that `radians lon = 58 / 6371000`). -/
noncomputable def c4pI : Point := ⟨0, 58 / 6371000 * (180 / Real.pi), 0, "a", none⟩

theorem c4_radians_zero : radians 0 = 0 := by
  unfold radians
  norm_num

theorem c4_radians_lon : radians c4pI.lon = 58 / 6371000 := by
  unfold radians c4pI
  field_simp
  ring

theorem c4_cos_origin : Real.cos (radians 60) = 1 / 2 := by
  unfold radians
  rw [show (60 : ℝ) * Real.pi / 180 = Real.pi / 3 by ring]
  exact Real.cos_pi_div_three

/-- **C4, counterexample.**  For a segmenter configured with
`max_eps = 50` and `grid_size_meters = 10` whose projection origin sits at
latitude 60° (cosine ½), the two equatorial fixes `c4pC`, `c4pI` fall in
grid cells with `Δx = 2`, `Δy = 0`, which the scan classifies as
*confirmed* (`(2+1)² + (0+1)² = 10 ≤ threshold_sq = 25`), yet their
flat-earth distance is 58 m > `max_eps = 50`: the grid-cell
classification is not sound with respect to `local_distance`, because the
grid uses `cos(origin_lat)` while `local_distance` uses the fixes' mean
latitude. -/
theorem c4_counterexample_origin_latitude :
    ((((|stepGridX (radians 60) (radians 0) (stepNew 50 60 (some 10)).g c4pI
          - stepGridX (radians 60) (radians 0) (stepNew 50 60 (some 10)).g c4pC|
        + 1) ^ 2
       + (|stepGridY (radians 60) (stepNew 50 60 (some 10)).g c4pI
          - stepGridY (radians 60) (stepNew 50 60 (some 10)).g c4pC|
        + 1) ^ 2 : ℤ) : ℝ)
      ≤ (stepNew 50 60 (some 10)).threshold_sq) ∧
    local_distance c4pC c4pI > (stepNew 50 60 (some 10)).max_eps := by
  have hg : (stepNew 50 60 (some 10)).g = 10 := by
    unfold stepNew
    norm_num
  have hthr : (stepNew 50 60 (some 10)).threshold_sq = 25 := by
    unfold stepNew
    norm_num
  have heps : (stepNew 50 60 (some 10)).max_eps = 50 := by
    unfold stepNew
    norm_num
  have hgxC : stepGridX (radians 60) (radians 0) 10 c4pC = 0 := by
    unfold stepGridX
    rw [show c4pC.lon = 0 from rfl, c4_radians_zero]
    norm_num
  have hgxI : stepGridX (radians 60) (radians 0) 10 c4pI = 2 := by
    unfold stepGridX
    rw [c4_radians_lon, c4_radians_zero, c4_cos_origin]
    rw [show (58 / 6371000 - 0) * 6371000 * (1 / 2) / 10 = (29 : ℝ) / 10 by
      field_simp
      ring]
    rw [Int.floor_eq_iff]
    norm_num
  have hgy : stepGridY (radians 60) 10 c4pI - stepGridY (radians 60) 10 c4pC
      = 0 := by
    unfold stepGridY
    rw [show c4pI.lat = 0 from rfl, show c4pC.lat = 0 from rfl, sub_self]
  have hld : local_distance c4pC c4pI = 58 := by
    unfold local_distance
    dsimp only
    rw [show c4pC.lat = 0 from rfl, show c4pI.lat = 0 from rfl,
      show c4pC.lon = 0 from rfl]
    rw [show ((0 : ℝ) + 0) / 2 = 0 by norm_num, c4_radians_zero, Real.cos_zero]
    rw [show c4pI.lon - 0 = c4pI.lon by ring, c4_radians_lon]
    rw [show (0 : ℝ) - 0 = 0 by ring, c4_radians_zero]
    rw [show (58 / 6371000 * 1 * (58 / 6371000 * 1) + 0 * 0 : ℝ)
        = (58 / 6371000) * (58 / 6371000) by ring]
    rw [Real.sqrt_mul_self (by norm_num)]
    norm_num
  constructor
  · rw [hg, hthr, hgxC, hgxI, hgy]
    norm_num
  · rw [heps, hld]
    norm_num

/-- Witness for `c4_grid_classification_sound` at a concrete
configuration and a coincident pair of fixes. -/
theorem c4_grid_classification_sound_witness :
    local_distance ⟨0, 0, 0, "a", none⟩ ⟨0, 0, 0, "a", none⟩
      ≤ (stepNew 50 60 (some 10)).max_eps :=
  (c4_grid_classification_sound (stepNew 50 60 (some 10)) (radians 0)
    (radians 0) ⟨0, 0, 0, "a", none⟩ ⟨0, 0, 0, "a", none⟩
    (by unfold stepNew; norm_num) (by unfold stepNew; norm_num) rfl
    (by norm_num)).1
    (by
      simp only [sub_self, abs_zero]
      unfold stepNew
      norm_num)

/-! ## Claims C2 and C3 — STEP coverage and time monotonicity

The segmentation handling is structural: whatever the geometric decisions,
every emitted segment is a contiguous slice of the cache, the cache is the
un-emitted suffix of the input, and pruning advances the offset exactly
past what was emitted.  The invariant `StepOK` captures this. -/

/-- Invariant tying a segmenter state and the segments emitted so far to
the consumed input prefix. -/
structure StepOK (consumed : List Point) (segs : List Segment)
    (st : StepState) : Prop where
  g_ne : st.g ≠ 0
  off_nonneg : 0 ≤ st.cache_offset
  off_len : st.cache_offset.toNat + st.cache.length = consumed.length
  cache_eq : st.cache.map (·.1) = consumed.drop st.cache_offset.toNat
  emit_eq : (segs.map Segment.pts).flatten = consumed.take st.cache_offset.toNat
  emit_ne : ∀ s ∈ segs, s.pts ≠ []
  sp_inv : match st.current_sp_start, st.current_sp_end with
    | some s, some e => s = st.cache_offset ∧ s ≤ e ∧
        e < st.cache_offset + st.cache.length
    | none, none => True
    | _, _ => False

/-- The backward scan never returns more than `i + 1`. -/
theorem stepScan_le (st : StepState) (p : Point) (gx gy : ℤ) :
    ∀ (k : ℕ) (i : ℤ), (i - st.cache_offset + 1).toNat ≤ k →
      stepScan st p gx gy i ≤ i + 1 := by
  intro k
  induction k with
  | zero =>
    intro i hk
    rw [stepScan, dif_neg (by omega)]
    omega
  | succ k ih =>
    intro i hk
    rw [stepScan]
    by_cases hoff : st.cache_offset ≤ i
    · rw [dif_pos hoff]
      dsimp only
      split_ifs with h1 h2 h3
      · have := ih (i - 1) (by omega)
        omega
      · omega
      · have := ih (i - 1) (by omega)
        omega
      · omega
    · rw [dif_neg hoff]
      omega

/-- `_get_points` on an in-range span is the corresponding slice of the
cached points. -/
theorem stepGetPoints_slice (st : StepState) (s e : ℤ)
    (hs : st.cache_offset ≤ s) (hse : s ≤ e) :
    stepGetPoints st s e
      = ((st.cache.map (·.1)).drop (s - st.cache_offset).toNat).take
          (e - s + 1).toNat := by
  unfold stepGetPoints
  rw [if_neg (by omega)]
  have h1 : max 0 (s - st.cache_offset) = s - st.cache_offset := by omega
  rw [h1]
  rw [List.map_take, List.map_drop]
  congr 1
  omega

/-- An in-range span yields a nonempty slice. -/
theorem stepGetPoints_ne (st : StepState) (s e : ℤ)
    (hs : st.cache_offset ≤ s) (hse : s ≤ e)
    (he : e < st.cache_offset + st.cache.length) :
    stepGetPoints st s e ≠ [] := by
  rw [stepGetPoints_slice st s e hs hse]
  apply List.ne_nil_of_length_pos
  simp only [List.length_take, List.length_drop, List.length_map]
  omega

/-- `_create_stop` on a nonempty list returns a Stop carrying exactly that
list. -/
theorem stepCreateStop_ne (l : List Point) (hl : l ≠ []) :
    ∃ cen, stepCreateStop l = some (Segment.stop l cen) := by
  unfold stepCreateStop
  rw [if_neg (by simpa using hl)]
  exact ⟨_, rfl⟩

/-- Gluing two adjacent `take`/`drop` slices. -/
theorem take_glue (L : List Point) (a b : ℕ) (hab : a ≤ b) :
    L.take a ++ (L.drop a).take (b - a) = L.take b := by
  rw [show b = a + (b - a) from by omega, List.take_add]
  congr 2
  omega

/-- Fields of `_prune_cache` for a target at or past the offset. -/
theorem stepPrune_fields (st : StepState) (n : ℤ) (hn : st.cache_offset ≤ n) :
    (stepPrune st n).cache_offset = n ∧
    (stepPrune st n).cache = st.cache.drop (n - st.cache_offset).toNat ∧
    (stepPrune st n).g = st.g ∧
    (stepPrune st n).current_sp_start = st.current_sp_start ∧
    (stepPrune st n).current_sp_end = st.current_sp_end := by
  unfold stepPrune
  by_cases h : n > st.cache_offset
  · rw [if_pos h]
    exact ⟨rfl, rfl, rfl, rfl, rfl⟩
  · rw [if_neg h]
    have hn' : n = st.cache_offset := by omega
    refine ⟨hn'.symm, ?_, rfl, rfl, rfl⟩
    rw [hn']
    simp

/-- Single-step preservation: `process_point` succeeds on any state
satisfying `StepOK` and re-establishes the invariant for the extended
input. -/
theorem stepHandle_ok (consumed : List Point) (segs : List Segment)
    (st₁ : StepState) (p_c : Point) (iS : Option ℤ) (c : ℤ)
    (hok : StepOK consumed segs st₁)
    (hc : c = st₁.cache_offset + st₁.cache.length - 1)
    (hlen1 : 1 ≤ st₁.cache.length)
    (hiS : ∀ is_, iS = some is_ → st₁.cache_offset ≤ is_ ∧ is_ ≤ c) :
    ∃ segs' st', stepHandle st₁ p_c iS c = some (segs', st') ∧
      StepOK consumed (segs ++ segs') st' := by
  obtain ⟨hg, hoff0, hofflen, hcache, hemit, hne, hsp⟩ := hok
  have hoffN : st₁.cache_offset.toNat ≤ consumed.length := by omega
  have hoffc : st₁.cache_offset ≤ c := by omega
  unfold stepHandle
  match hiSs : iS with
  | some is_ =>
    obtain ⟨his1, his2⟩ := hiS is_ rfl
    cases hsp1 : st₁.current_sp_start with
    | none =>
      rw [hsp1] at hsp
      cases hsp2 : st₁.current_sp_end with
      | none =>
        dsimp only
        refine ⟨_, _, rfl, ?_⟩
        have hmv_eq : stepGetPoints st₁ st₁.cache_offset (is_ - 1)
            = (List.drop st₁.cache_offset.toNat consumed).take
                (is_ - st₁.cache_offset).toNat := by
          by_cases h2 : st₁.cache_offset ≤ is_ - 1
          · rw [stepGetPoints_slice st₁ _ _ le_rfl h2, hcache,
              show (st₁.cache_offset - st₁.cache_offset).toNat = 0 from by
                omega,
              show (is_ - 1 - st₁.cache_offset + 1).toNat
                = (is_ - st₁.cache_offset).toNat from by omega,
              List.drop_zero]
          · have h3 : is_ = st₁.cache_offset := by omega
            rw [h3]
            rw [show stepGetPoints st₁ st₁.cache_offset (st₁.cache_offset - 1)
                = [] from by
              unfold stepGetPoints
              rw [if_pos (by omega)]]
            rw [show (st₁.cache_offset - st₁.cache_offset).toNat = 0 from by
              omega]
            simp
        obtain ⟨hP1, hP2, hP3, hP4, hP5⟩ := stepPrune_fields
          { st₁ with current_sp_start := some is_, current_sp_end := some c }
          is_ his1
        dsimp only at hP1 hP2 hP3 hP4 hP5
        have hflat : ((if (stepGetPoints st₁ st₁.cache_offset (is_ - 1)).isEmpty
              then ([] : List Segment)
              else [Segment.move
                (stepGetPoints st₁ st₁.cache_offset (is_ - 1))]).map
                Segment.pts).flatten
            = stepGetPoints st₁ st₁.cache_offset (is_ - 1) := by
          by_cases hmw : (stepGetPoints st₁ st₁.cache_offset (is_ - 1)).isEmpty
          · rw [if_pos hmw]
            simp [List.isEmpty_iff.mp hmw]
          · rw [if_neg hmw]
            simp [Segment.pts]
        refine ⟨?_, ?_, ?_, ?_, ?_, ?_, ?_⟩
        · rw [hP3]
          exact hg
        · rw [hP1]
          omega
        · rw [hP1, hP2]
          simp only [List.length_drop]
          omega
        · rw [hP1, hP2, List.map_drop, hcache, List.drop_drop]
          congr 1
          omega
        · rw [hP1, List.map_append, List.flatten_append, hemit, hflat, hmv_eq]
          rw [show (is_ - st₁.cache_offset).toNat
              = is_.toNat - st₁.cache_offset.toNat from by omega]
          exact take_glue consumed _ _ (by omega)
        · intro sseg hmem
          rcases List.mem_append.mp hmem with hmem1 | hmem2
          · exact hne sseg hmem1
          · by_cases hmw : (stepGetPoints st₁ st₁.cache_offset
                (is_ - 1)).isEmpty
            · rw [if_pos hmw] at hmem2
              simp at hmem2
            · rw [if_neg hmw] at hmem2
              simp only [List.mem_singleton] at hmem2
              subst hmem2
              simpa [Segment.pts, List.isEmpty_iff] using hmw
        · rw [hP4, hP5]
          dsimp only
          refine ⟨hP1.symm, by omega, ?_⟩
          rw [hP1, hP2]
          simp only [List.length_drop]
          omega
      | some e => rw [hsp2] at hsp; exact absurd hsp (by simp)
    | some s =>
      rw [hsp1] at hsp
      cases hsp2 : st₁.current_sp_end with
      | none => rw [hsp2] at hsp; exact absurd hsp (by simp)
      | some e =>
        rw [hsp2] at hsp
        obtain ⟨hs_off, hse, helt⟩ := hsp
        by_cases hmerge : is_ ≤ e
        · refine ⟨[],
            { st₁ with current_sp_start := some s, current_sp_end := some c },
            ?_, ?_⟩
          · dsimp only
            rw [if_pos hmerge]
          · refine ⟨hg, hoff0, ?_, hcache, ?_, ?_, ?_⟩
            · simpa using hofflen
            · simpa using hemit
            · simpa using hne
            · dsimp only
              exact ⟨hs_off, by omega, by omega⟩
        · subst hs_off
          have hstopne : stepGetPoints st₁ st₁.cache_offset e ≠ [] :=
            stepGetPoints_ne st₁ _ _ le_rfl hse (by omega)
          obtain ⟨cen, hcs⟩ := stepCreateStop_ne _ hstopne
          dsimp only
          rw [if_neg hmerge, hcs]
          refine ⟨_, _, rfl, ?_⟩
          have hstop_eq : stepGetPoints st₁ st₁.cache_offset e
              = (List.drop st₁.cache_offset.toNat consumed).take
                  (e - st₁.cache_offset + 1).toNat := by
            rw [stepGetPoints_slice st₁ _ _ le_rfl hse, hcache]
            rw [show (st₁.cache_offset - st₁.cache_offset).toNat = 0 from by
              omega]
            rw [List.drop_zero]
          have hmv_eq : stepGetPoints st₁ (e + 1) (is_ - 1)
              = ((List.drop st₁.cache_offset.toNat consumed).drop
                  (e - st₁.cache_offset + 1).toNat).take (is_ - e - 1).toNat := by
            by_cases h2 : e + 1 ≤ is_ - 1
            · rw [stepGetPoints_slice st₁ _ _ (by omega) h2, hcache,
                show (e + 1 - st₁.cache_offset).toNat
                  = (e - st₁.cache_offset + 1).toNat from by omega,
                show (is_ - 1 - (e + 1) + 1).toNat = (is_ - e - 1).toNat from by
                  omega]
            · have h3 : is_ = e + 1 := by omega
              rw [h3]
              rw [show stepGetPoints st₁ (e + 1) (e + 1 - 1) = [] from by
                unfold stepGetPoints
                rw [if_pos (by omega)]]
              rw [show (e + 1 - e - 1 : ℤ).toNat = 0 from by omega]
              simp
          have hglue : stepGetPoints st₁ st₁.cache_offset e
                ++ stepGetPoints st₁ (e + 1) (is_ - 1)
              = (List.drop st₁.cache_offset.toNat consumed).take
                  (is_ - st₁.cache_offset).toNat := by
            rw [hstop_eq, hmv_eq, show (is_ - e - 1).toNat
                = (is_ - st₁.cache_offset).toNat
                  - (e - st₁.cache_offset + 1).toNat from by omega]
            exact take_glue _ _ _ (by omega)
          obtain ⟨hP1, hP2, hP3, hP4, hP5⟩ := stepPrune_fields
            { st₁ with current_sp_start := some is_, current_sp_end := some c }
            is_ his1
          dsimp only at hP1 hP2 hP3 hP4 hP5
          have hflat : ((if (stepGetPoints st₁ (e + 1) (is_ - 1)).isEmpty then
                [Segment.stop (stepGetPoints st₁ st₁.cache_offset e) cen]
              else [Segment.stop (stepGetPoints st₁ st₁.cache_offset e) cen,
                Segment.move (stepGetPoints st₁ (e + 1) (is_ - 1))]).map
                  Segment.pts).flatten
              = stepGetPoints st₁ st₁.cache_offset e
                ++ stepGetPoints st₁ (e + 1) (is_ - 1) := by
            by_cases hmw : (stepGetPoints st₁ (e + 1) (is_ - 1)).isEmpty
            · rw [if_pos hmw]
              simp [Segment.pts, List.isEmpty_iff.mp hmw]
            · rw [if_neg hmw]
              simp [Segment.pts]
          refine ⟨?_, ?_, ?_, ?_, ?_, ?_, ?_⟩
          · rw [hP3]
            exact hg
          · rw [hP1]
            omega
          · rw [hP1, hP2]
            simp only [List.length_drop]
            omega
          · rw [hP1, hP2, List.map_drop, hcache, List.drop_drop]
            congr 1
            omega
          · rw [hP1, List.map_append, List.flatten_append, hemit, hflat, hglue]
            rw [show (is_ - st₁.cache_offset).toNat
                = is_.toNat - st₁.cache_offset.toNat from by omega]
            exact take_glue consumed _ _ (by omega)
          · intro sseg hmem
            rcases List.mem_append.mp hmem with hmem1 | hmem2
            · exact hne sseg hmem1
            · by_cases hmw : (stepGetPoints st₁ (e + 1) (is_ - 1)).isEmpty
              · rw [if_pos hmw] at hmem2
                simp only [List.mem_singleton] at hmem2
                subst hmem2
                exact hstopne
              · rw [if_neg hmw] at hmem2
                simp only [List.mem_cons, List.mem_singleton] at hmem2
                rcases hmem2 with h | h | h
                · subst h
                  exact hstopne
                · subst h
                  simpa [Segment.pts, List.isEmpty_iff] using hmw
                · exact absurd h (by simp)
          · rw [hP4, hP5]
            dsimp only
            refine ⟨hP1.symm, by omega, ?_⟩
            rw [hP1, hP2]
            simp only [List.length_drop]
            omega
  | none =>
    cases hsp1 : st₁.current_sp_start with
    | none =>
      rw [hsp1] at hsp
      cases hsp2 : st₁.current_sp_end with
      | none =>
        refine ⟨[], st₁, ?_, ?_⟩
        · rfl
        · exact ⟨hg, hoff0, by simpa using hofflen, hcache, by simpa using hemit,
            by simpa using hne, by rw [hsp1, hsp2]; trivial⟩
      | some e => rw [hsp2] at hsp; exact absurd hsp (by simp)
    | some s =>
      rw [hsp1] at hsp
      cases hsp2 : st₁.current_sp_end with
      | none => rw [hsp2] at hsp; exact absurd hsp (by simp)
      | some e =>
        rw [hsp2] at hsp
        obtain ⟨hs_off, hse, helt⟩ := hsp
        by_cases hfar : local_distance p_c
            ((st₁.cache.getD (e - st₁.cache_offset).toNat default).1)
            > st₁.max_eps
        · subst hs_off
          have hstopne : stepGetPoints st₁ st₁.cache_offset e ≠ [] :=
            stepGetPoints_ne st₁ _ _ le_rfl hse (by omega)
          obtain ⟨cen, hcs⟩ := stepCreateStop_ne _ hstopne
          dsimp only
          rw [if_pos hfar, hcs]
          refine ⟨_, _, rfl, ?_⟩
          have hstop_eq : stepGetPoints st₁ st₁.cache_offset e
              = (List.drop st₁.cache_offset.toNat consumed).take
                  (e - st₁.cache_offset + 1).toNat := by
            rw [stepGetPoints_slice st₁ _ _ le_rfl hse, hcache]
            rw [show (st₁.cache_offset - st₁.cache_offset).toNat = 0 from by
              omega]
            rw [List.drop_zero]
          obtain ⟨hP1, hP2, hP3, hP4, hP5⟩ := stepPrune_fields st₁ (e + 1)
            (by omega)
          refine ⟨?_, ?_, ?_, ?_, ?_, ?_, ?_⟩
          · dsimp only
            rw [hP3]
            exact hg
          · dsimp only
            rw [hP1]
            omega
          · dsimp only
            rw [hP1, hP2]
            simp only [List.length_drop]
            omega
          · dsimp only
            rw [hP1, hP2, List.map_drop, hcache, List.drop_drop]
            congr 1
            omega
          · dsimp only
            rw [hP1, List.map_append, List.flatten_append, hemit]
            rw [show (([Segment.stop (stepGetPoints st₁ st₁.cache_offset e)
                cen].map Segment.pts).flatten)
              = stepGetPoints st₁ st₁.cache_offset e from by
                simp [Segment.pts]]
            rw [hstop_eq]
            rw [show (e - st₁.cache_offset + 1).toNat
                = (e + 1).toNat - st₁.cache_offset.toNat from by omega]
            exact take_glue consumed _ _ (by omega)
          · intro sseg hmem
            rcases List.mem_append.mp hmem with hmem1 | hmem2
            · exact hne sseg hmem1
            · simp only [List.mem_singleton] at hmem2
              subst hmem2
              exact hstopne
          · dsimp only
        · refine ⟨[], st₁, ?_, ?_⟩
          · dsimp only
            rw [if_neg hfar]
          · exact ⟨hg, hoff0, by simpa using hofflen, hcache,
              by simpa using hemit, by simpa using hne,
              by rw [hsp1, hsp2]; exact ⟨hs_off, hse, helt⟩⟩

/-- process_point preserves the STEP invariant. -/
theorem stepProcessPoint_ok (consumed : List Point) (segs : List Segment)
    (st : StepState) (p : Point) (hok : StepOK consumed segs st) :
    ∃ segs' st', stepProcessPoint st p = some (segs', st') ∧
      StepOK (consumed ++ [p]) (segs ++ segs') st' := by
  obtain ⟨hg, hoff0, hofflen, hcache, hemit, hne, hsp⟩ := hok
  have hoffN : st.cache_offset.toNat ≤ consumed.length := by omega
  unfold stepProcessPoint
  dsimp only
  rw [if_neg hg]
  apply stepHandle_ok
  · refine ⟨hg, hoff0, ?_, ?_, ?_, hne, ?_⟩
    · simp only [List.length_append, List.length_cons, List.length_nil]
      omega
    · rw [List.map_append, hcache]
      simp only [List.map_cons, List.map_nil]
      rw [List.drop_append_of_le_length hoffN]
    · rw [hemit]
      rw [List.take_append_of_le_length hoffN]
    · dsimp only
      cases h1 : st.current_sp_start with
      | none =>
        cases h2 : st.current_sp_end with
        | none => trivial
        | some e => rw [h1, h2] at hsp; exact absurd hsp (by simp)
      | some s =>
        cases h2 : st.current_sp_end with
        | none => rw [h1, h2] at hsp; exact absurd hsp (by simp)
        | some e =>
          rw [h1, h2] at hsp
          obtain ⟨ha, hb, hcc⟩ := hsp
          refine ⟨ha, hb, ?_⟩
          simp only [List.length_append, List.length_cons, List.length_nil]
          push_cast
          omega
  · dsimp only
  · dsimp only
    simp only [List.length_append, List.length_cons, List.length_nil]
    omega
  · intro is_ h
    dsimp only at h ⊢
    split_ifs at h ⊢
    all_goals simp only [Option.some.injEq, reduceCtorEq] at h
    all_goals omega

/-- Folding `process_point` over a whole list preserves the invariant. -/
theorem stepProcessList_ok (pts : List Point) :
    ∀ (consumed : List Point) (segs : List Segment) (st : StepState),
      StepOK consumed segs st →
      ∃ segs' st', stepProcessList st pts = some (segs', st') ∧
        StepOK (consumed ++ pts) (segs ++ segs') st' := by
  induction pts with
  | nil =>
    intro consumed segs st hok
    exact ⟨[], st, rfl, by simpa using hok⟩
  | cons p rest ih =>
    intro consumed segs st hok
    obtain ⟨segs₁, st₁, hp, hok₁⟩ := stepProcessPoint_ok consumed segs st p hok
    obtain ⟨segs₂, st₂, hr, hok₂⟩ := ih (consumed ++ [p]) (segs ++ segs₁) st₁ hok₁
    refine ⟨segs₁ ++ segs₂, st₂, ?_, ?_⟩
    · simp only [stepProcessList, hp, hr]
    · simpa [List.append_assoc] using hok₂

/-- Reduction of `flush` when no stay-point is open. -/
theorem stepFlush_none (st : StepState) (h : st.current_sp_start = none) :
    stepFlush st =
      (let move_points := stepGetPoints st st.cache_offset
        (st.cache_offset + (st.cache.length : ℤ) - 1)
       let segs := if move_points.isEmpty then []
                   else [Segment.move move_points]
       some (segs, { st with
        cache := []
        current_sp_start := none
        current_sp_end := none })) := by
  unfold stepFlush
  rw [h]

/-- Reduction of `flush` when a stay-point is open. -/
theorem stepFlush_some (st : StepState) (sps spe : ℤ)
    (h1 : st.current_sp_start = some sps) (h2 : st.current_sp_end = some spe) :
    stepFlush st =
      (match stepCreateStop (stepGetPoints st sps spe) with
      | none => none
      | some stopSeg =>
        let move_points := stepGetPoints st (spe + 1)
          (st.cache_offset + (st.cache.length : ℤ) - 1)
        let segs := if move_points.isEmpty then [stopSeg]
                    else [stopSeg, .move move_points]
        some (segs, { st with
          cache := []
          current_sp_start := none
          current_sp_end := none })) := by
  unfold stepFlush
  rw [h1, h2]

/-- `flush` succeeds on any invariant state and its emissions complete the
coverage: all segment point-lists emitted so far plus those of the flush
concatenate to exactly the consumed input; every emitted list is nonempty. -/
theorem stepFlush_ok (consumed : List Point) (segs : List Segment)
    (st : StepState) (hok : StepOK consumed segs st) :
    ∃ segs' st', stepFlush st = some (segs', st') ∧
      (((segs ++ segs').map Segment.pts)).flatten = consumed ∧
      ∀ s ∈ segs ++ segs', s.pts ≠ [] := by
  obtain ⟨hg, hoff0, hofflen, hcache, hemit, hne, hsp⟩ := hok
  cases hsp1 : st.current_sp_start with
  | none =>
    rw [stepFlush_none st hsp1]
    dsimp only
    by_cases hlen : st.cache.length = 0
    · have hmv : stepGetPoints st st.cache_offset
          (st.cache_offset + (st.cache.length : ℤ) - 1) = [] := by
        unfold stepGetPoints
        rw [if_pos (by omega)]
      rw [hmv]
      refine ⟨[], _, rfl, ?_, by simpa using hne⟩
      simp only [List.append_nil]
      rw [hemit, show st.cache_offset.toNat = consumed.length from by omega,
        List.take_length]
    · have hmvne : stepGetPoints st st.cache_offset
          (st.cache_offset + (st.cache.length : ℤ) - 1) ≠ [] :=
        stepGetPoints_ne st _ _ (le_refl _) (by omega) (by omega)
      have hmv : stepGetPoints st st.cache_offset
          (st.cache_offset + (st.cache.length : ℤ) - 1)
          = consumed.drop st.cache_offset.toNat := by
        rw [stepGetPoints_slice st _ _ (le_refl _) (by omega), hcache]
        rw [show (st.cache_offset - st.cache_offset).toNat = 0 from by omega,
          List.drop_zero]
        rw [show (st.cache_offset + (st.cache.length : ℤ) - 1
          - st.cache_offset + 1).toNat = st.cache.length from by omega]
        apply List.take_of_length_le
        simp only [List.length_drop]
        omega
      rw [if_neg (by simpa [List.isEmpty_iff] using hmvne)]
      refine ⟨[Segment.move (stepGetPoints st st.cache_offset
        (st.cache_offset + (st.cache.length : ℤ) - 1))], _, rfl, ?_, ?_⟩
      · rw [List.map_append, List.flatten_append, hemit]
        simp only [List.map_cons, List.map_nil, Segment.pts,
          List.flatten_cons, List.flatten_nil, List.append_nil]
        rw [hmv, List.take_append_drop]
      · intro s hs
        rcases List.mem_append.mp hs with h | h
        · exact hne s h
        · simp only [List.mem_singleton] at h
          subst h
          simpa [Segment.pts] using hmvne
  | some sps =>
    cases hsp2 : st.current_sp_end with
    | none =>
      rw [hsp1, hsp2] at hsp
      exact absurd hsp (by simp)
    | some spe =>
      rw [hsp1, hsp2] at hsp
      obtain ⟨hs_off, hse, helt⟩ := hsp
      rw [stepFlush_some st sps spe hsp1 hsp2]
      have hstopne : stepGetPoints st sps spe ≠ [] :=
        stepGetPoints_ne st sps spe (by omega) hse (by omega)
      have hstop : stepGetPoints st sps spe
          = (consumed.drop st.cache_offset.toNat).take
              (spe - sps + 1).toNat := by
        rw [stepGetPoints_slice st sps spe (by omega) hse, hcache]
        rw [show (sps - st.cache_offset).toNat = 0 from by omega,
          List.drop_zero]
      obtain ⟨cen, hcs⟩ := stepCreateStop_ne _ hstopne
      rw [hcs]
      dsimp only
      by_cases hlast : spe = st.cache_offset + st.cache.length - 1
      · have hmv : stepGetPoints st (spe + 1)
            (st.cache_offset + (st.cache.length : ℤ) - 1) = [] := by
          unfold stepGetPoints
          rw [if_pos (by omega)]
        rw [hmv]
        refine ⟨[Segment.stop (stepGetPoints st sps spe) cen], _, rfl, ?_, ?_⟩
        · rw [List.map_append, List.flatten_append, hemit]
          simp only [List.map_cons, List.map_nil, Segment.pts,
            List.flatten_cons, List.flatten_nil, List.append_nil]
          rw [hstop]
          rw [show (spe - sps + 1).toNat = st.cache.length from by omega]
          have hlen2 : (consumed.drop st.cache_offset.toNat).length
              ≤ st.cache.length := by
            simp only [List.length_drop]
            omega
          rw [List.take_of_length_le hlen2]
          exact List.take_append_drop _ _
        · intro s hs
          rcases List.mem_append.mp hs with h | h
          · exact hne s h
          · simp only [List.mem_singleton] at h
            subst h
            simpa [Segment.pts] using hstopne
      · have hmvne : stepGetPoints st (spe + 1)
            (st.cache_offset + (st.cache.length : ℤ) - 1) ≠ [] :=
          stepGetPoints_ne st _ _ (by omega) (by omega) (by omega)
        have hmv : stepGetPoints st (spe + 1)
            (st.cache_offset + (st.cache.length : ℤ) - 1)
            = ((consumed.drop st.cache_offset.toNat).drop
                (spe - sps + 1).toNat).take
                (st.cache.length - (spe - sps + 1).toNat) := by
          rw [stepGetPoints_slice st _ _ (by omega) (by omega), hcache]
          rw [show (spe + 1 - st.cache_offset).toNat
              = (spe - sps + 1).toNat from by omega]
          rw [show (st.cache_offset + (st.cache.length : ℤ) - 1
            - (spe + 1) + 1).toNat
              = st.cache.length - (spe - sps + 1).toNat from by omega]
        rw [if_neg (by simpa [List.isEmpty_iff] using hmvne)]
        refine ⟨[Segment.stop (stepGetPoints st sps spe) cen,
          Segment.move (stepGetPoints st (spe + 1)
            (st.cache_offset + (st.cache.length : ℤ) - 1))], _, rfl, ?_, ?_⟩
        · rw [List.map_append, List.flatten_append, hemit]
          simp only [List.map_cons, List.map_nil, Segment.pts,
            List.flatten_cons, List.flatten_nil, List.append_nil]
          rw [hstop, hmv]
          rw [take_glue (consumed.drop st.cache_offset.toNat)
            (spe - sps + 1).toNat st.cache.length (by omega)]
          have hlen2 : (consumed.drop st.cache_offset.toNat).length
              ≤ st.cache.length := by
            simp only [List.length_drop]
            omega
          rw [List.take_of_length_le hlen2]
          exact List.take_append_drop _ _
        · intro s hs
          rcases List.mem_append.mp hs with h | h
          · exact hne s h
          · simp only [List.mem_cons, List.mem_singleton] at h
            rcases h with h | h | h
            · subst h
              simpa [Segment.pts] using hstopne
            · subst h
              simpa [Segment.pts] using hmvne
            · exact absurd h (by simp)

/-- A freshly constructed segmenter (with nonzero cell size) satisfies the
invariant for the empty consumed prefix. -/
theorem stepNew_ok (eps dur : ℝ) (grid : Option ℝ)
    (hg : (stepNew eps dur grid).g ≠ 0) :
    StepOK [] [] (stepNew eps dur grid) := by
  refine ⟨hg, ?_, ?_, ?_, ?_, ?_, ?_⟩ <;> simp [stepNew]

/-- Full coverage: `process` on a fresh segmenter succeeds and the
concatenation of all emitted segments' point lists is exactly the input;
every emitted point list is nonempty. -/
theorem stepProcess_cover (eps dur : ℝ) (grid : Option ℝ) (pts : List Point)
    (hg : (stepNew eps dur grid).g ≠ 0) :
    ∃ segs, stepProcess (stepNew eps dur grid) pts = some segs ∧
      (segs.map Segment.pts).flatten = pts ∧ ∀ s ∈ segs, s.pts ≠ [] := by
  obtain ⟨segs₁, st₁, hp, hok₁⟩ :=
    stepProcessList_ok pts [] [] _ (stepNew_ok eps dur grid hg)
  obtain ⟨segs₂, st₂, hf, hcov, hnef⟩ := stepFlush_ok _ _ st₁ hok₁
  refine ⟨segs₁ ++ segs₂, ?_, ?_, ?_⟩
  · unfold stepProcess
    rw [hp]
    dsimp only
    rw [hf]
  · simpa using hcov
  · intro s hs
    exact hnef s (by simpa using hs)

/-- C2: for every input list of fixes with non-decreasing timestamps
(and a segmenter whose grid cell size is nonzero, as on every run that
does not divide by zero), `STEPSegmenter.process` succeeds and
concatenating the point sequences of all emitted segments yields the input
itself — in particular a subsequence of the input in input order, with no
input fix silently dropped. -/
theorem c2_step_coverage (eps dur : ℝ) (grid : Option ℝ) (pts : List Point)
    (hg : (stepNew eps dur grid).g ≠ 0)
    (hts : pts.Chain' fun a b => a.timestamp ≤ b.timestamp) :
    ∃ segs, stepProcess (stepNew eps dur grid) pts = some segs ∧
      (segs.map Segment.pts).flatten = pts := by
  obtain ⟨segs, h1, h2, h3⟩ := stepProcess_cover eps dur grid pts hg
  exact ⟨segs, h1, h2⟩

/-- Witness for C2 at a concrete instance. -/
theorem c2_step_coverage_witness :
    (stepNew 1 1 (some 1)).g ≠ 0 ∧
    List.Chain' (fun a b : Point => a.timestamp ≤ b.timestamp) [] ∧
    ∃ segs, stepProcess (stepNew 1 1 (some 1)) [] = some segs ∧
      (segs.map Segment.pts).flatten = [] := by
  have hg : (stepNew 1 1 (some 1)).g ≠ 0 := by
    norm_num [stepNew]
  exact ⟨hg, List.chain'_nil,
    c2_step_coverage 1 1 (some 1) [] hg List.chain'_nil⟩

/-- C3: on a time-sorted input, every segment emitted by
`STEPSegmenter.process` has internally non-decreasing timestamps, and for
successive segments the last timestamp of the earlier one is at most the
first timestamp of the later one (all emitted point lists are nonempty, so
`getLast?` and `head?` are the segments' actual last and first fixes). -/
theorem c3_step_time_monotone (eps dur : ℝ) (grid : Option ℝ)
    (pts : List Point) (hg : (stepNew eps dur grid).g ≠ 0)
    (hts : pts.Chain' fun a b => a.timestamp ≤ b.timestamp) :
    ∃ segs, stepProcess (stepNew eps dur grid) pts = some segs ∧
      (∀ s ∈ segs, s.pts ≠ [] ∧
        s.pts.Chain' fun a b => a.timestamp ≤ b.timestamp) ∧
      segs.Chain' (fun s₁ s₂ => ∀ x ∈ s₁.pts.getLast?, ∀ y ∈ s₂.pts.head?,
        x.timestamp ≤ y.timestamp) := by
  obtain ⟨segs, h1, h2, h3⟩ := stepProcess_cover eps dur grid pts hg
  have hnmem : [] ∉ segs.map Segment.pts := by
    intro h
    obtain ⟨s, hs, heq⟩ := List.mem_map.mp h
    exact h3 s hs heq
  have hflat : List.Chain' (fun a b : Point => a.timestamp ≤ b.timestamp)
      (segs.map Segment.pts).flatten := by
    rw [h2]
    exact hts
  rw [List.chain'_flatten hnmem] at hflat
  obtain ⟨hper, hacross⟩ := hflat
  refine ⟨segs, h1, ?_, ?_⟩
  · intro s hs
    exact ⟨h3 s hs, hper _ (List.mem_map.mpr ⟨s, hs, rfl⟩)⟩
  · rw [List.chain'_map] at hacross
    exact hacross

/-- Witness for C3 at a concrete instance. -/
theorem c3_step_time_monotone_witness :
    (stepNew 2 1 (some 3)).g ≠ 0 ∧
    List.Chain' (fun a b : Point => a.timestamp ≤ b.timestamp) [] ∧
    ∃ segs, stepProcess (stepNew 2 1 (some 3)) [] = some segs ∧
      (∀ s ∈ segs, s.pts ≠ [] ∧
        s.pts.Chain' fun a b => a.timestamp ≤ b.timestamp) ∧
      segs.Chain' (fun s₁ s₂ => ∀ x ∈ s₁.pts.getLast?, ∀ y ∈ s₂.pts.head?,
        x.timestamp ≤ y.timestamp) := by
  have hg : (stepNew 2 1 (some 3)).g ≠ 0 := by
    norm_num [stepNew]
  exact ⟨hg, List.chain'_nil,
    c3_step_time_monotone 2 1 (some 3) [] hg List.chain'_nil⟩

/-- `getD` after `set` at the same (in-range) index. -/
theorem getD_set_self {α : Type} (l : List α) (n : ℕ) (x d : α)
    (h : n < l.length) : (l.set n x).getD n d = x := by
  simp [List.getD_eq_getElem?_getD, List.getElem?_set_self, h]

/-- `getD` after `set` at a different index. -/
theorem getD_set_ne {α : Type} (l : List α) (m n : ℕ) (x d : α)
    (h : m ≠ n) : (l.set m x).getD n d = l.getD n d := by
  simp [List.getD_eq_getElem?_getD, List.getElem?_set_ne h]

/-- Pushing onto an empty heap. -/
theorem heappush_nil (x : ℝ × ℕ) : heappush [] x = [x] := by
  unfold heappush
  rw [siftdownGo]
  simp

/-- Popping a singleton heap. -/
theorem heappop_singleton (x : ℝ × ℕ) : heappop [x] = some (x, []) := by
  unfold heappop
  simp

/-- One unfolding of the lazy-deletion pop loop. -/
theorem popVictim_eq (nodes : List SqNode) (pq : List (ℝ × ℕ)) :
    popVictim nodes pq = match heappop pq with
      | none => .error .indexError
      | some (item, pq') =>
        if (nodes.getD item.2 default).removed = false ∧
            (nodes.getD item.2 default).priority = some item.1
        then .ok (item.2, pq') else popVictim nodes pq' := by
  rw [popVictim]
  cases hp : heappop pq with
  | none => rfl
  | some r => rfl

/-- The pop loop on a singleton heap whose entry is valid. -/
theorem popVictim_singleton (nodes : List SqNode) (x : ℝ × ℕ)
    (hrm : (nodes.getD x.2 default).removed = false)
    (hpr : (nodes.getD x.2 default).priority = some x.1) :
    popVictim nodes [x] = .ok (x.2, []) := by
  rw [popVictim_eq, heappop_singleton]
  exact if_pos ⟨hrm, hpr⟩

/-- Characterization of `_remove_node` on an interior victim `v` with
neighbours `a = v.prev` and `b = v.next`. -/
theorem sqRemoveNode_eq (points : List Point) (nodes : List SqNode)
    (pq : List (ℝ × ℕ)) (v a b : ℕ) (pv : Option ℝ)
    (hav : a ≠ v) (hbv : b ≠ v) (hab : a ≠ b)
    (hvlt : v < nodes.length) (halt : a < nodes.length)
    (hblt : b < nodes.length)
    (hv : nodes.getD v default =
      { prev := some a, next := some b, priority := pv, removed := false }) :
    sqRemoveNode points nodes pq v =
      (let na := nodes.getD a default
       let nb := nodes.getD b default
       let n₂ := ((nodes.set v
            { prev := some a, next := some b, priority := pv, removed := true
            }).set a { na with next := some b }).set b { nb with prev := some a }
       let r₃ := match na.prev with
         | some pp =>
           (n₂.set a { na with
              next := some b
              priority := some (squishPriority (points.getD pp default)
                (points.getD a default) (points.getD b default)) },
            heappush pq (squishPriority (points.getD pp default)
              (points.getD a default) (points.getD b default), a))
         | none => (n₂, pq)
       match nb.next with
       | some nx =>
         (r₃.1.set b { nb with
            prev := some a
            priority := some (squishPriority (points.getD a default)
              (points.getD b default) (points.getD nx default)) },
          heappush r₃.2 (squishPriority (points.getD a default)
            (points.getD b default) (points.getD nx default), b))
       | none => r₃) := by
  unfold sqRemoveNode
  rw [hv]
  dsimp only
  rw [getD_set_self _ v _ _ hvlt]
  dsimp only
  rw [getD_set_ne _ v a _ _ (Ne.symm hav)]
  rw [getD_set_ne _ a b _ _ hab,
    getD_set_ne _ v b _ _ (Ne.symm hbv)]
  rw [getD_set_ne _ b a _ _ (Ne.symm hab),
    getD_set_self _ a _ _ (by simp only [List.length_set]; exact halt)]
  dsimp only
  cases hna : (nodes.getD a default).prev with
  | some pp =>
    dsimp only
    rw [getD_set_ne _ a b _ _ hab,
      getD_set_self _ b _ _ (by simp only [List.length_set]; exact hblt)]
  | none =>
    dsimp only
    rw [getD_set_self _ b _ _ (by simp only [List.length_set]; exact hblt)]

/-- Loop invariant of `compress` with per-call capacity 2, after the first
`i ≥ 2` points have been taken in: the buffer holds exactly the first and
the most recent point, linked head-to-tail, the heap is empty, and all
later nodes are untouched. -/
def SqInv2 (points : List Point) (i : ℕ) (s : SqState) : Prop :=
  s.nodes.length = points.length ∧ s.pq = [] ∧ s.buffer = [0, i - 1] ∧
  s.nodes.getD 0 default =
    { prev := none, next := some (i - 1), priority := none, removed := false } ∧
  s.nodes.getD (i - 1) default =
    { prev := some 0, next := none, priority := none, removed := false } ∧
  ∀ j, i ≤ j → s.nodes.getD j default = {}

/-- With capacity 2, each further intake step pops the freshly pushed
middle node again: the buffer stays `[first, latest]`. -/
theorem sqInv2_step (points : List Point) (i : ℕ) (s : SqState)
    (h2 : 2 ≤ i) (hiN : i < points.length) (hinv : SqInv2 points i s) :
    ∃ s', squishStep points 2 s i = .ok s' ∧ SqInv2 points (i + 1) s' := by
  obtain ⟨hlen, hpq, hbuf, h0, hT, hU⟩ := hinv
  have hTi : i - 1 ≠ i := by omega
  have h0T : (0 : ℕ) ≠ i - 1 := by omega
  have h0i : (0 : ℕ) ≠ i := by omega
  have hTlt : i - 1 < s.nodes.length := by omega
  have hilt : i < s.nodes.length := by omega
  unfold squishStep
  rw [hbuf]
  rw [if_neg (by simp)]
  rw [show ([0, i - 1] : List ℕ).getLast? = some (i - 1) from rfl]
  dsimp only
  unfold sqLink
  rw [hbuf]
  dsimp only
  rw [hT, hU i le_rfl]
  dsimp only
  rw [getD_set_ne _ i (i - 1) _ _ (Ne.symm hTi),
    getD_set_self _ (i - 1) _ _ hTlt]
  dsimp only
  rw [hpq, heappush_nil]
  rw [popVictim_singleton _ _
    (by
      dsimp only
      rw [getD_set_self _ _ _ _ (by simp only [List.length_set]; exact hTlt)])
    (by
      dsimp only
      rw [getD_set_self _ _ _ _ (by simp only [List.length_set]; exact hTlt)])]
  dsimp only
  rw [sqRemoveNode_eq points _ _ (i - 1) 0 i _
    h0T (Ne.symm hTi) h0i
    (by simp only [List.length_set]; exact hTlt)
    (by simp only [List.length_set]; omega)
    (by simp only [List.length_set]; exact hilt)
    (by rw [getD_set_self _ _ _ _ (by simp only [List.length_set]; exact hTlt)])]
  dsimp only
  have E1 : ∀ (l : List SqNode) x d, (l.set (i - 1) x).getD 0 d = l.getD 0 d :=
    fun l x d => getD_set_ne l (i - 1) 0 x d (Ne.symm h0T)
  have E2 : ∀ (l : List SqNode) x d, (l.set i x).getD 0 d = l.getD 0 d :=
    fun l x d => getD_set_ne l i 0 x d (Ne.symm h0i)
  have E3 : ∀ (l : List SqNode) x d, (l.set (i - 1) x).getD i d = l.getD i d :=
    fun l x d => getD_set_ne l (i - 1) i x d hTi
  simp only [E1, E2, E3]
  rw [getD_set_self _ i _ _ (by simp only [List.length_set]; exact hilt)]
  rw [h0]
  dsimp only
  have herase : (([0, i - 1] ++ [i] : List ℕ)).erase (i - 1) = [0, i] := by
    simp [List.erase_cons, h0T]
  refine ⟨_, rfl, ?_, rfl, ?_, ?_, ?_, ?_⟩
  · simp only [List.length_set]
    exact hlen
  · dsimp only
    rw [herase]
    simp only [Nat.add_sub_cancel]
  · dsimp only
    simp only [Nat.add_sub_cancel, E2]
    rw [getD_set_self _ 0 _ _ (by simp only [List.length_set]; omega)]
  · dsimp only
    simp only [Nat.add_sub_cancel]
    rw [getD_set_self _ i _ _ (by simp only [List.length_set]; exact hilt)]
  · intro j hj
    dsimp only
    have hij : i ≠ j := by omega
    have h0j : (0 : ℕ) ≠ j := by omega
    have hTj : i - 1 ≠ j := by omega
    rw [getD_set_ne _ i j _ _ hij, getD_set_ne _ 0 j _ _ h0j,
      getD_set_ne _ (i - 1) j _ _ hTj, getD_set_ne _ (i - 1) j _ _ hTj,
      getD_set_ne _ i j _ _ hij, getD_set_ne _ (i - 1) j _ _ hTj]
    exact hU j (by omega)

/-- Every node of the freshly allocated `nodes` array is the default node. -/
theorem getD_map_const (points : List Point) (j : ℕ) :
    ((points.map fun _ => ({} : SqNode)).getD j default) = {} := by
  rw [List.getD_eq_getElem?_getD, List.getElem?_map]
  cases hx : points[j]? <;> rfl

/-- The first two intake steps with capacity 2 establish the invariant. -/
theorem sqInv2_base (points : List Point) (h2 : 2 ≤ points.length)
    (rest : List ℕ) :
    ∃ s₂, squishLoop points 2 (0 :: 1 :: rest)
        { nodes := points.map fun _ => {}, pq := [], buffer := [] }
      = squishLoop points 2 rest s₂ ∧ SqInv2 points 2 s₂ := by
  have hstep0 : squishStep points 2
      { nodes := points.map fun _ => {}, pq := [], buffer := [] } 0
      = .ok { nodes := points.map fun _ => {}, pq := [], buffer := [0] } := by
    unfold squishStep
    rw [if_pos (by simp)]
    rfl
  have hstep1 : squishStep points 2
      { nodes := points.map fun _ => {}, pq := [], buffer := [0] } 1
      = .ok { nodes := List.set (List.set (points.map fun _ => ({} : SqNode)) 0 { prev := none, next := some 1, priority := none, removed := false }) 1 { prev := some 0, next := none, priority := none, removed := false }, pq := [], buffer := [0, 1] } := by
    unfold squishStep
    rw [if_pos (by simp)]
    rw [show ([0] : List ℕ).getLast? = some 0 from rfl]
    dsimp only
    unfold sqLink
    dsimp only
    rw [getD_map_const points 0, getD_map_const points 1]
    dsimp only
    rw [getD_set_ne _ 1 0 _ _ (by omega),
      getD_set_self _ 0 _ _ (by simp only [List.length_map]; omega)]
    rfl
  refine ⟨{ nodes := List.set (List.set (points.map fun _ => ({} : SqNode)) 0 { prev := none, next := some 1, priority := none, removed := false }) 1 { prev := some 0, next := none, priority := none, removed := false }, pq := [], buffer := [0, 1] }, ?_, ?_⟩
  · simp only [squishLoop, hstep0, hstep1]
  · refine ⟨by simp only [List.length_set, List.length_map], rfl, rfl, ?_, ?_, ?_⟩
    · rw [getD_set_ne _ 1 0 _ _ (by omega),
        getD_set_self _ 0 _ _ (by simp only [List.length_map]; omega)]
    · rw [getD_set_self _ 1 _ _
        (by simp only [List.length_set, List.length_map]; omega)]
    · intro j hj
      rw [getD_set_ne _ 1 j _ _ (by omega), getD_set_ne _ 0 j _ _ (by omega),
        getD_map_const]

/-- Invariant-carrying run of the intake loop with capacity 2 over the
remaining indices. -/
theorem sqInv2_loop (points : List Point) :
    ∀ (k i : ℕ) (s : SqState), 2 ≤ i → i + k = points.length →
      SqInv2 points i s →
      ∃ s', squishLoop points 2 (List.range' i k) s = .ok s' ∧
        SqInv2 points points.length s' := by
  intro k
  induction k with
  | zero =>
    intro i s h2 hik hinv
    exact ⟨s, rfl, by rw [show points.length = i from by omega]; exact hinv⟩
  | succ k ih =>
    intro i s h2 hik hinv
    obtain ⟨s₁, hstep, hinv₁⟩ := sqInv2_step points i s h2 (by omega) hinv
    obtain ⟨s', hloop, hinv'⟩ := ih (i + 1) s₁ (by omega) (by omega) hinv₁
    refine ⟨s', ?_, hinv'⟩
    rw [List.range'_succ]
    simp only [squishLoop, hstep, hloop]

/-- Following a `none` pointer yields the empty traversal. -/
theorem sqTraverse_none (nodes : List SqNode) (points : List Point)
    (k : ℕ) : sqTraverse nodes points k none = [] := by
  cases k <;> rfl

/-- The only error the pop loop can raise is the `IndexError` of popping an
empty heap. -/
theorem popVictim_error (nodes : List SqNode) :
    ∀ (n : ℕ) (pq : List (ℝ × ℕ)), pq.length ≤ n →
      ∀ e, popVictim nodes pq = .error e → e = .indexError := by
  intro n
  induction n with
  | zero =>
    intro pq hn e h
    have hpq : pq = [] := by
      cases pq with
      | nil => rfl
      | cons a l => simp at hn
    subst hpq
    rw [popVictim_eq] at h
    simp only [heappop, List.getLast?_nil] at h
    exact (Except.error.injEq _ _).mp h.symm
  | succ n ih =>
    intro pq hn e h
    rw [popVictim_eq] at h
    cases hp : heappop pq with
    | none =>
      rw [hp] at h
      exact (Except.error.injEq _ _).mp h.symm
    | some r =>
      obtain ⟨item, pq'⟩ := r
      rw [hp] at h
      dsimp only at h
      split_ifs at h with hc
      exact ih pq' (by have := heappop_length hp; omega) e h

/-- The only error a single intake step can raise is an `IndexError`. -/
theorem squishStep_error (points : List Point) (K : ℤ) (s : SqState)
    (i : ℕ) (e : PyErr) (h : squishStep points K s i = .error e) :
    e = .indexError := by
  unfold squishStep at h
  split_ifs at h with h1
  · cases hl : s.buffer.getLast? <;> rw [hl] at h <;> exact absurd h (by simp)
  · cases hl : s.buffer.getLast? with
    | none =>
      rw [hl] at h
      exact (Except.error.injEq _ _).mp h.symm
    | some last =>
      rw [hl] at h
      dsimp only at h
      cases hpv : popVictim (sqLink points s last i).nodes
          (sqLink points s last i).pq with
      | error e' =>
        rw [hpv] at h
        have he : e' = e := (Except.error.injEq _ _).mp h
        subst he
        exact popVictim_error _ _ _ le_rfl _ hpv
      | ok r =>
        rw [hpv] at h
        exact absurd h (by simp)

/-- The only error the intake loop can raise is an `IndexError`. -/
theorem squishLoop_error (points : List Point) (K : ℤ) :
    ∀ (idxs : List ℕ) (s : SqState) (e : PyErr),
      squishLoop points K idxs s = .error e → e = .indexError := by
  intro idxs
  induction idxs with
  | nil =>
    intro s e h
    simp only [squishLoop] at h
    exact absurd h (by simp)
  | cons i rest ih =>
    intro s e h
    rw [squishLoop] at h
    cases hs : squishStep points K s i with
    | error e' =>
      rw [hs] at h
      have he : e' = e := (Except.error.injEq _ _).mp h
      subst he
      exact squishStep_error points K s i _ hs
    | ok s' =>
      rw [hs] at h
      exact ih s' e h

/-- The only error `compress` can raise is an `IndexError`; in particular
the per-call capacity override is never validated and the constructor's
`ValueError` is never raised from `compress`. -/
theorem squishCompress_error (selfCapacity : ℤ) (points : List Point)
    (capacity : Option ℤ) (e : PyErr)
    (h : squishCompress selfCapacity points capacity = .error e) :
    e = .indexError := by
  simp only [squishCompress] at h
  split_ifs at h with h1 h2
  cases hl : squishLoop points (capacity.getD selfCapacity)
      (List.range points.length)
      { nodes := points.map fun _ => {}, pq := [], buffer := [] } with
  | error e2 =>
    rw [hl] at h
    have he : e2 = e := (Except.error.injEq _ _).mp h
    subst he
    exact squishLoop_error points _ _ _ _ hl
  | ok s =>
    rw [hl] at h
    exact absurd h (by simp)

/-- With a non-positive capacity override and a nonempty input, the very
first intake step pops `current_buffer_nodes[-1]` from an empty buffer. -/
theorem squishCompress_cap_nonpos (selfCapacity cap : ℤ) (points : List Point)
    (hcap : cap ≤ 0) (hN : 1 ≤ points.length) :
    squishCompress selfCapacity points (some cap) = .error .indexError := by
  have hne : ¬points.isEmpty = true := by
    simp only [List.isEmpty_iff]
    exact List.ne_nil_of_length_pos (by omega)
  unfold squishCompress
  rw [if_neg hne]
  dsimp only
  rw [Option.getD_some]
  rw [if_neg (by push_cast; omega)]
  have hrange : List.range points.length
      = 0 :: List.range' 1 (points.length - 1) := by
    rw [List.range_eq_range',
      show points.length = (points.length - 1) + 1 from by omega,
      List.range'_succ]
    norm_num
  rw [hrange]
  have hstep : squishStep points cap
      { nodes := points.map fun _ => {}, pq := [], buffer := [] } 0
      = .error .indexError := by
    unfold squishStep
    rw [if_neg (by simp only [List.length_nil]; omega)]
    rfl
  simp only [squishLoop, hstep]

/-- With capacity override 1 and at least two fixes, the second intake step
pops from an empty heap. -/
theorem squishCompress_cap_one (selfCapacity : ℤ) (points : List Point)
    (hN : 2 ≤ points.length) :
    squishCompress selfCapacity points (some 1) = .error .indexError := by
  have hne : ¬points.isEmpty = true := by
    simp only [List.isEmpty_iff]
    exact List.ne_nil_of_length_pos (by omega)
  unfold squishCompress
  rw [if_neg hne]
  dsimp only
  rw [Option.getD_some]
  rw [if_neg (by push_cast; omega)]
  have hrange : List.range points.length
      = 0 :: 1 :: List.range' 2 (points.length - 2) := by
    rw [List.range_eq_range',
      show points.length = (points.length - 2) + 1 + 1 from by omega,
      List.range'_succ, List.range'_succ]
    norm_num
    omega
  rw [hrange]
  have hstep0 : squishStep points 1
      { nodes := points.map fun _ => {}, pq := [], buffer := [] } 0
      = .ok { nodes := points.map fun _ => {}, pq := [], buffer := [0] } := by
    unfold squishStep
    rw [if_pos (by simp)]
    rfl
  have hstep1 : squishStep points 1
      { nodes := points.map fun _ => {}, pq := [], buffer := [0] } 1
      = .error .indexError := by
    unfold squishStep
    rw [if_neg (by simp)]
    rw [show ([0] : List ℕ).getLast? = some 0 from rfl]
    dsimp only
    unfold sqLink
    dsimp only
    rw [getD_map_const points 0, getD_map_const points 1]
    dsimp only
    rw [getD_set_ne _ 1 0 _ _ (by omega),
      getD_set_self _ 0 _ _ (by simp only [List.length_map]; omega)]
    dsimp only
    rw [popVictim_eq]
    rfl
  simp only [squishLoop, hstep0, hstep1]

/-- With capacity override 2 and more than two fixes, `compress` returns
exactly the first and the last fix. -/
theorem squishCompress_cap_two (selfCapacity : ℤ) (points : List Point)
    (hN : 2 < points.length) :
    squishCompress selfCapacity points (some 2)
      = .ok [points.headD default, points.getLastD default] := by
  have hne : ¬points.isEmpty = true := by
    simp only [List.isEmpty_iff]
    exact List.ne_nil_of_length_pos (by omega)
  unfold squishCompress
  rw [if_neg hne]
  dsimp only
  rw [Option.getD_some]
  rw [if_neg (by push_cast; omega)]
  have hrange : List.range points.length
      = 0 :: 1 :: List.range' 2 (points.length - 2) := by
    rw [List.range_eq_range',
      show points.length = (points.length - 2) + 1 + 1 from by omega,
      List.range'_succ, List.range'_succ]
    norm_num
    omega
  rw [hrange]
  obtain ⟨s₂, hbase, hinv₂⟩ :=
    sqInv2_base points (by omega) (List.range' 2 (points.length - 2))
  rw [hbase]
  obtain ⟨s', hloop, hinv'⟩ :=
    sqInv2_loop points (points.length - 2) 2 s₂ le_rfl (by omega) hinv₂
  rw [hloop]
  dsimp only
  obtain ⟨hlen', hpq', hbuf', h0', hT', hU'⟩ := hinv'
  have htrav : sqTraverse s'.nodes points points.length (some 0)
      = [points.getD 0 default, points.getD (points.length - 1) default] := by
    rw [show points.length = (points.length - 2) + 1 + 1 from by omega]
    rw [sqTraverse, h0']
    dsimp only
    rw [show points.length - 2 + 1 + 1 - 1 = points.length - 1 from by omega]
    rw [sqTraverse, hT']
    dsimp only
    rw [sqTraverse_none]
  rw [htrav]
  have h1 : points.getD 0 default = points.headD default := by
    cases points with
    | nil => rfl
    | cons a l => rfl
  have h2 : points.getD (points.length - 1) default
      = points.getLastD default := by
    rw [List.getD_eq_getElem?_getD, List.getLastD_eq_getLast?,
      List.getLast?_eq_getElem?]
  rw [h1, h2]

/-- C10 counterexample to the claim as stated: with a negative capacity
override and an empty input, the antecedent `capacity ≤ 1` and
`len(points) ≥ capacity + 1` holds, yet `compress` succeeds (returns `[]`)
instead of raising: the empty-input early return fires first. -/
theorem c10_counterexample_empty_negative_capacity :
    (-1 : ℤ) ≤ 1 ∧ (-1 : ℤ) + 1 ≤ (([] : List Point).length : ℤ) ∧
    squishCompress 50 [] (some (-1)) = .ok [] := by
  refine ⟨by norm_num, by norm_num, ?_⟩
  rfl

/-- C10 (amended): `compress` never validates the per-call capacity
override — the only error it can ever raise is an `IndexError`, never the
constructor's `ValueError`; with override 2 and more than two fixes it
returns exactly `[first, last]`; and with override `cap ≤ 1`, a *nonempty*
input of at least `cap + 1` fixes makes it raise an unhandled
`IndexError`. -/
theorem c10_capacity_override (selfCapacity : ℤ) (points : List Point)
    (hts : points.Chain' fun a b => a.timestamp < b.timestamp) :
    (∀ (capacity : Option ℤ) (e : PyErr),
      squishCompress selfCapacity points capacity = .error e →
        e = .indexError) ∧
    (2 < points.length →
      squishCompress selfCapacity points (some 2)
        = .ok [points.headD default, points.getLastD default]) ∧
    (∀ cap : ℤ, cap ≤ 1 → cap + 1 ≤ (points.length : ℤ) →
      1 ≤ points.length →
      squishCompress selfCapacity points (some cap)
        = .error .indexError) := by
  refine ⟨?_, ?_, ?_⟩
  · intro capacity e h
    exact squishCompress_error selfCapacity points capacity e h
  · intro hN
    exact squishCompress_cap_two selfCapacity points hN
  · intro cap hcap hcapN hN
    by_cases hc : cap ≤ 0
    · exact squishCompress_cap_nonpos selfCapacity cap points hc hN
    · have hcap1 : cap = 1 := by omega
      subst hcap1
      exact squishCompress_cap_one selfCapacity points (by omega)

/-- Witness for C10 at a concrete three-point instance. -/
theorem c10_capacity_override_witness :
    List.Chain' (fun a b : Point => a.timestamp < b.timestamp)
      [⟨0, 0, 0, "w", none⟩, ⟨0, 1, 1, "w", none⟩, ⟨0, 2, 2, "w", none⟩] ∧
    2 < ([⟨0, 0, 0, "w", none⟩, ⟨0, 1, 1, "w", none⟩,
      ⟨0, 2, 2, "w", none⟩] : List Point).length ∧
    squishCompress 50
        [⟨0, 0, 0, "w", none⟩, ⟨0, 1, 1, "w", none⟩, ⟨0, 2, 2, "w", none⟩]
        (some 2)
      = .ok [⟨0, 0, 0, "w", none⟩, ⟨0, 2, 2, "w", none⟩] := by
  have hch : List.Chain' (fun a b : Point => a.timestamp < b.timestamp)
      [⟨0, 0, 0, "w", none⟩, ⟨0, 1, 1, "w", none⟩, ⟨0, 2, 2, "w", none⟩] := by
    refine List.chain'_cons.mpr ⟨by norm_num, List.chain'_cons.mpr
      ⟨by norm_num, List.chain'_singleton _⟩⟩
  refine ⟨hch, by norm_num, ?_⟩
  have h := (c10_capacity_override 50 _ hch).2.1 (by norm_num)
  simpa using h

/-- Replacing an element with a copy of another and then overwriting the
copy's original position is, up to permutation, just the first
replacement. -/
theorem cons_set_perm {α : Type} (d : α) :
    ∀ (xs : List α) (k : ℕ) (a : α), k < xs.length →
      List.Perm (xs.getD k d :: xs.set k a) (a :: xs) := by
  intro xs
  induction xs with
  | nil => intro k a h; simp at h
  | cons x tl ih =>
    intro k a h
    cases k with
    | zero =>
      simp only [List.getD_cons_zero, List.set_cons_zero]
      exact List.Perm.swap _ _ _
    | succ k =>
      simp only [List.getD_cons_succ, List.set_cons_succ]
      refine (List.Perm.swap _ _ _).trans ?_
      refine (((ih k a (by simpa using h)).cons x).trans ?_)
      exact List.Perm.swap _ _ _

/-- Swapping which of two values overwrites and which leads. -/
theorem set_swap_perm {α : Type} :
    ∀ (tl : List α) (i : ℕ) (x y : α), i < tl.length →
      List.Perm (x :: tl.set i y) (y :: tl.set i x) := by
  intro tl
  induction tl with
  | nil => intro i x y h; simp at h
  | cons t tl ih =>
    intro i x y h
    cases i with
    | zero =>
      simp only [List.set_cons_zero]
      exact List.Perm.swap _ _ _
    | succ i =>
      simp only [List.set_cons_succ]
      refine (List.Perm.swap _ _ _).trans ?_
      refine (((ih i x y (by simpa using h)).cons t).trans ?_)
      exact List.Perm.swap _ _ _

/-- Overwriting position `i` with the entry at `j` and then position `j`
with `x` permutes to simply overwriting position `i` with `x`. -/
theorem set_set_perm {α : Type} (d : α) :
    ∀ (l : List α) (i j : ℕ) (x : α), i ≠ j → i < l.length → j < l.length →
      List.Perm ((l.set i (l.getD j d)).set j x) (l.set i x) := by
  intro l
  induction l with
  | nil => intro i j x hij hi hj; simp at hi
  | cons y tl ih =>
    intro i j x hij hi hj
    cases i with
    | zero =>
      cases j with
      | zero => exact absurd rfl hij
      | succ j =>
        simp only [List.getD_cons_succ, List.set_cons_zero,
          List.set_cons_succ]
        exact cons_set_perm d tl j x (by simpa using hj)
    | succ i =>
      cases j with
      | zero =>
        simp only [List.getD_cons_zero, List.set_cons_succ,
          List.set_cons_zero]
        exact set_swap_perm tl i x y (by simpa using hi)
      | succ j =>
        simp only [List.getD_cons_succ, List.set_cons_succ]
        exact (ih i j x (by omega) (by simpa using hi)
          (by simpa using hj)).cons y

/-- `_siftdown` permutes the heap with the new item written at `pos`. -/
theorem siftdownGo_perm (newitem : ℝ × ℕ) (startpos : ℕ) :
    ∀ (pos : ℕ) (heap : List (ℝ × ℕ)), pos < heap.length →
      List.Perm (siftdownGo newitem startpos heap pos)
        (heap.set pos newitem) := by
  intro pos
  induction pos using Nat.strong_induction_on with
  | _ pos ih =>
    intro heap hpos
    rw [siftdownGo]
    split
    · rename_i h
      dsimp only
      split
      · rename_i hlt
        refine (ih ((pos - 1) / 2) (by omega) _
          (by simp only [List.length_set]; omega)).trans ?_
        exact set_set_perm default heap pos ((pos - 1) / 2) newitem
          (by omega) hpos (by omega)
      · exact List.Perm.refl _
    · exact List.Perm.refl _

/-- Writing at the one-past-the-end slot created by the push. -/
theorem set_append_len {α : Type} (x : α) :
    ∀ (h : List α), (h ++ [x]).set h.length x = h ++ [x] := by
  intro h
  induction h with
  | nil => rfl
  | cons y tl ih =>
    simp only [List.cons_append, List.length_cons, List.set_cons_succ]
    rw [ih]

/-- `heappush` permutes to consing the new item. -/
theorem heappush_perm (h : List (ℝ × ℕ)) (x : ℝ × ℕ) :
    List.Perm (heappush h x) (x :: h) := by
  unfold heappush
  refine (siftdownGo_perm x 0 h.length (h ++ [x]) (by simp)).trans ?_
  rw [set_append_len]
  exact List.perm_append_singleton x h

/-- The child-walking loop keeps the hole in range and, once the hole is
filled, permutes with filling the original hole. -/
theorem siftupGo_spec (endpos : ℕ) :
    ∀ (k pos : ℕ) (heap : List (ℝ × ℕ)), endpos - pos ≤ k →
      pos < heap.length → endpos ≤ heap.length →
      (siftupGo endpos heap pos).2 < heap.length ∧
      ∀ x, List.Perm
        ((siftupGo endpos heap pos).1.set (siftupGo endpos heap pos).2 x)
        (heap.set pos x) := by
  intro k
  induction k with
  | zero =>
    intro pos heap hk hpos hend
    rw [siftupGo]
    split
    · rename_i h
      omega
    · exact ⟨hpos, fun x => List.Perm.refl _⟩
  | succ k ih =>
    intro pos heap hk hpos hend
    rw [siftupGo]
    split
    · rename_i h
      have hcg := siftupChild_gt endpos heap pos
      have hcl := siftupChild_lt endpos heap pos h
      have hlen : (heap.set pos
          (heap.getD (siftupChild endpos heap pos) default)).length
          = heap.length := by simp
      obtain ⟨h2, hperm⟩ := ih (siftupChild endpos heap pos) _ (by omega)
        (by rw [hlen]; omega) (by rw [hlen]; exact hend)
      rw [hlen] at h2
      refine ⟨h2, fun x => ?_⟩
      refine (hperm x).trans ?_
      exact set_set_perm default heap pos (siftupChild endpos heap pos) x
        (by omega) hpos (by omega)
    · exact ⟨hpos, fun x => List.Perm.refl _⟩

/-- Writing back the entry already at a position is the identity. -/
theorem set_getD_self {α : Type} (l : List α) (n : ℕ) (d : α)
    (h : n < l.length) : l.set n (l.getD n d) = l := by
  apply List.ext_getElem?
  intro m
  by_cases hm : m = n
  · subst hm
    simp [List.getElem?_set_self, h, List.getElem?_eq_getElem h,
      List.getD_eq_getElem?_getD]
  · simp [List.getElem?_set_ne (by omega : n ≠ m)]

/-- `_siftup` permutes the heap. -/
theorem siftup_perm (heap : List (ℝ × ℕ)) (pos : ℕ)
    (hpos : pos < heap.length) : List.Perm (siftup heap pos) heap := by
  unfold siftup
  dsimp only
  obtain ⟨h2, hperm⟩ := siftupGo_spec heap.length (heap.length - pos) pos
    heap le_rfl hpos le_rfl
  have hlt : (siftupGo heap.length heap pos).2
      < (siftupGo heap.length heap pos).1.length := by
    rw [siftupGo_length heap.length (heap.length - pos) pos heap le_rfl]
    exact h2
  refine (siftdownGo_perm (heap.getD pos default) pos
    (siftupGo heap.length heap pos).2
    (siftupGo heap.length heap pos).1 hlt).trans ?_
  have hfin := hperm (heap.getD pos default)
  rw [set_getD_self heap pos default hpos] at hfin
  exact hfin

/-- A successful `heappop` permutes the heap to the popped element consed
on the remainder. -/
theorem heappop_perm {pq : List (ℝ × ℕ)} {e : ℝ × ℕ}
    {pq' : List (ℝ × ℕ)} (h : heappop pq = some (e, pq')) :
    List.Perm pq (e :: pq') := by
  unfold heappop at h
  cases hg : pq.getLast? with
  | none => rw [hg] at h; exact absurd h (by simp)
  | some lastelt =>
    rw [hg] at h
    dsimp only at h
    have hne : pq ≠ [] := fun hnil => by rw [hnil] at hg; simp at hg
    have hpq : pq = pq.dropLast ++ [lastelt] := by
      obtain ⟨l', hl'⟩ := List.getLast?_eq_some_iff.mp hg
      rw [hl', List.dropLast_concat]
    by_cases hre : pq.dropLast.isEmpty
    · rw [if_pos hre] at h
      simp only [Option.some.injEq, Prod.mk.injEq] at h
      obtain ⟨h1, h2⟩ := h
      have hd : pq.dropLast = [] := by simpa [List.isEmpty_iff] using hre
      rw [hpq, hd, ← h1, ← h2]
      exact List.Perm.refl _
    · rw [if_neg hre] at h
      simp only [Option.some.injEq, Prod.mk.injEq] at h
      obtain ⟨h1, h2⟩ := h
      cases hd0 : pq.dropLast with
      | nil => rw [hd0] at hre; simp at hre
      | cons d0 rest =>
        rw [hd0] at h1 h2
        rw [hpq, hd0]
        rw [← h1, ← h2]
        simp only [List.headD_cons, List.set_cons_zero, List.cons_append]
        refine List.Perm.cons d0 ?_
        refine (List.perm_append_singleton lastelt rest).trans ?_
        exact (siftup_perm (lastelt :: rest) 0 (by simp)).symm

/-- If the heap holds at least one entry whose node is live and whose
recorded priority matches, the lazy-deletion pop loop succeeds and returns
a live node with a recorded priority. -/
theorem popVictim_ok (nodes : List SqNode) :
    ∀ (n : ℕ) (pq : List (ℝ × ℕ)), pq.length ≤ n →
      ∀ q : ℝ × ℕ, q ∈ pq →
        (nodes.getD q.2 default).removed = false →
        (nodes.getD q.2 default).priority = some q.1 →
      ∃ v pq₂, popVictim nodes pq = .ok (v, pq₂) ∧
        (nodes.getD v default).removed = false ∧
        ∃ pv, (nodes.getD v default).priority = some pv := by
  intro n
  induction n with
  | zero =>
    intro pq hn q hq hrm hpr
    have hnil : pq = [] := by
      cases pq with
      | nil => rfl
      | cons a l => simp at hn
    subst hnil
    simp at hq
  | succ n ih =>
    intro pq hn q hq hrm hpr
    rw [popVictim_eq]
    cases hp : heappop pq with
    | none =>
      have hnil : pq = [] := by
        unfold heappop at hp
        cases hgl : pq.getLast? with
        | some x =>
          rw [hgl] at hp
          dsimp only at hp
          split_ifs at hp <;> simp at hp
        | none =>
          cases pq with
          | nil => rfl
          | cons a l =>
            rw [List.getLast?_eq_getElem?] at hgl
            simp at hgl
      subst hnil
      simp at hq
    | some r =>
      obtain ⟨item, pq'⟩ := r
      dsimp only
      by_cases hc : (nodes.getD item.2 default).removed = false ∧
          (nodes.getD item.2 default).priority = some item.1
      · rw [if_pos hc]
        exact ⟨item.2, pq', rfl, hc.1, item.1, hc.2⟩
      · rw [if_neg hc]
        have hperm := heappop_perm hp
        have hqi : q ≠ item := by
          intro he
          subst he
          exact hc ⟨hrm, hpr⟩
        have hq' : q ∈ pq' := by
          have hmem := hperm.mem_iff.mp hq
          rcases List.mem_cons.mp hmem with hcase | hcase
          · exact absurd hcase hqi
          · exact hcase
        exact ih pq' (by have := heappop_length hp; omega) q hq' hrm hpr

/-- The doubly-linked adjacency of consecutive buffer members. -/
def Linked (nodes : List SqNode) (l : List ℕ) : Prop :=
  l.Chain' fun a b => (nodes.getD a default).next = some b ∧
    (nodes.getD b default).prev = some a

/-- Any adjacent pair inside a `Chain'` satisfies the relation. -/
theorem chain'_pair {α : Type} (R : α → α → Prop) :
    ∀ (l₁ : List α) (x y : α) (l₂ : List α),
      List.Chain' R (l₁ ++ x :: y :: l₂) → R x y := by
  intro l₁
  induction l₁ with
  | nil =>
    intro x y l₂ h
    exact (List.chain'_cons.mp h).1
  | cons c tl ih =>
    intro x y l₂ h
    rw [List.cons_append] at h
    exact ih x y l₂ h.tail

/-- `Linked` only inspects `next` of non-final members and `prev` of
non-initial members. -/
theorem linked_of_eqOn (nodes nodes' : List SqNode) :
    ∀ (l : List ℕ), Linked nodes l →
      (∀ j ∈ l.dropLast,
        (nodes'.getD j default).next = (nodes.getD j default).next) →
      (∀ j ∈ l.tail,
        (nodes'.getD j default).prev = (nodes.getD j default).prev) →
      Linked nodes' l := by
  intro l
  induction l with
  | nil => intro _ _ _; exact List.chain'_nil
  | cons a tl ih =>
    intro h hnext hprev
    cases tl with
    | nil => exact List.chain'_singleton a
    | cons b tl' =>
      obtain ⟨hab, htl⟩ := List.chain'_cons.mp h
      refine List.chain'_cons.mpr ⟨?_, ?_⟩
      · refine ⟨?_, ?_⟩
        · rw [hnext a (by simp), hab.1]
        · rw [hprev b (by simp), hab.2]
      · refine ih htl ?_ ?_
        · intro j hj
          refine hnext j ?_
          simp only [List.dropLast_cons_of_ne_nil (by simp :
            (b :: tl') ≠ [])]
          exact List.mem_cons_of_mem a hj
        · intro j hj
          refine hprev j ?_
          simp only [List.tail_cons]
          exact List.mem_cons_of_mem b (by simpa using hj)

/-- The last member of a linked list of at least two nodes has a `prev`. -/
theorem linked_last_prev (nodes : List SqNode) :
    ∀ (l : List ℕ) (t : ℕ), Linked nodes l → l.getLast? = some t →
      2 ≤ l.length →
      ∃ a, (nodes.getD t default).prev = some a := by
  intro l
  induction l with
  | nil => intro t _ hl _; simp at hl
  | cons x tl ih =>
    intro t h hl hlen
    cases tl with
    | nil => simp at hlen
    | cons y tl' =>
      obtain ⟨hxy, htl⟩ := List.chain'_cons.mp h
      cases tl' with
      | nil =>
        have ht : t = y := by
          simp only [List.getLast?_cons_cons, List.getLast?_singleton] at hl
          exact (Option.some.injEq _ _).mp hl |>.symm
        subst ht
        exact ⟨x, hxy.2⟩
      | cons z tl'' =>
        refine ih t htl ?_ (by simp)
        rw [List.getLast?_cons_cons] at hl ⊢
        exact hl

/-- Traversing the linked list from its head yields exactly the points at
its member indices. -/
theorem sqTraverse_chain (nodes : List SqNode) (points : List Point) :
    ∀ (l : List ℕ) (fuel : ℕ), Linked nodes l →
      (∀ t, l.getLast? = some t → (nodes.getD t default).next = none) →
      l.length ≤ fuel →
      sqTraverse nodes points fuel l.head?
        = l.map fun j => points.getD j default := by
  intro l
  induction l with
  | nil =>
    intro fuel _ _ _
    simp only [List.head?_nil, List.map_nil]
    exact sqTraverse_none nodes points fuel
  | cons x tl ih =>
    intro fuel h hlast hlen
    cases fuel with
    | zero => simp at hlen
    | succ f =>
      simp only [List.head?_cons]
      rw [sqTraverse]
      cases tl with
      | nil =>
        rw [hlast x rfl]
        rw [sqTraverse_none]
        simp
      | cons y tl' =>
        obtain ⟨hxy, htl⟩ := List.chain'_cons.mp h
        rw [hxy.1]
        have hrec := ih f htl
          (fun t ht => hlast t (by rw [List.getLast?_cons_cons]; exact ht))
          (by simpa using hlen)
        simp only [List.head?_cons] at hrec
        rw [hrec]
        simp

/-- Mapping a strictly increasing, in-range index list through `getD`
produces a sublist (subsequence in order). -/
theorem getD_map_sublist {α : Type} (d : α) :
    ∀ (pts : List α) (l : List ℕ), l.Pairwise (· < ·) →
      (∀ j ∈ l, j < pts.length) →
      List.Sublist (l.map fun j => pts.getD j d) pts := by
  intro pts
  induction pts with
  | nil =>
    intro l _ hb
    cases l with
    | nil => simp
    | cons j tl => exact absurd (hb j (by simp)) (by simp)
  | cons p pts ih =>
    intro l hp hb
    have hshift : ∀ (m : List ℕ), (∀ k ∈ m, 1 ≤ k) → m.Pairwise (· < ·) →
        (∀ k ∈ m, k < (p :: pts).length) →
        List.Sublist (m.map fun k => (p :: pts).getD k d) pts := by
      intro m h1 h2 h3
      have hmap : m.map (fun k => (p :: pts).getD k d)
          = (m.map fun k => k - 1).map (fun k => pts.getD k d) := by
        rw [List.map_map]
        refine List.map_congr_left ?_
        intro k hk
        obtain ⟨k', rfl⟩ : ∃ k', k = k' + 1 :=
          ⟨k - 1, by have := h1 k hk; omega⟩
        simp only [Function.comp, List.getD_cons_succ, Nat.add_sub_cancel]
      rw [hmap]
      refine ih (m.map fun k => k - 1) ?_ ?_
      · refine List.pairwise_map.mpr ?_
        refine List.Pairwise.imp_of_mem ?_ h2
        intro a b ha hb' hab
        have := h1 a ha
        omega
      · intro k hk
        obtain ⟨k₀, hk₀, rfl⟩ := List.mem_map.mp hk
        have hb2 := h3 k₀ hk₀
        have h1' := h1 k₀ hk₀
        simp only [List.length_cons] at hb2
        omega
    cases l with
    | nil => simp
    | cons j tl =>
      cases j with
      | zero =>
        simp only [List.map_cons, List.getD_cons_zero]
        refine List.Sublist.cons₂ p ?_
        refine hshift tl ?_ (List.pairwise_cons.mp hp).2 ?_
        · intro k hk
          have := (List.pairwise_cons.mp hp).1 k hk
          omega
        · intro k hk
          exact hb k (List.mem_cons_of_mem _ hk)
      | succ j =>
        refine List.Sublist.cons p ?_
        refine hshift ((j + 1) :: tl) ?_ hp hb
        intro k hk
        rcases List.mem_cons.mp hk with hcase | hcase
        · omega
        · have := (List.pairwise_cons.mp hp).1 k hcase
          omega

/-- The SQUISH intake-loop invariant (apart from the buffer-length bound)
after the first `i` points have been taken in: the buffer is the sorted
list of live node indices, linked head-to-tail starting at node 0 and
ending at the most recent node, dead nodes are marked, later nodes are
untouched, and the head and tail never carry a recorded priority. -/
structure SqCore (points : List Point) (i : ℕ) (s : SqState) : Prop where
  nlen : s.nodes.length = points.length
  sorted : s.buffer.Chain' (· < ·)
  headq : s.buffer.head? = some 0
  lastq : s.buffer.getLast? = some (i - 1)
  blt : ∀ j ∈ s.buffer, j < i
  linked : Linked s.nodes s.buffer
  head_prev : (s.nodes.getD 0 default).prev = none
  tail_next : (s.nodes.getD (i - 1) default).next = none
  live : ∀ j ∈ s.buffer, (s.nodes.getD j default).removed = false
  dead : ∀ j, j < i → j ∉ s.buffer → (s.nodes.getD j default).removed = true
  untouched : ∀ j, i ≤ j → s.nodes.getD j default = {}
  prio_head : (s.nodes.getD 0 default).priority = none
  prio_tail : (s.nodes.getD (i - 1) default).priority = none

/-- In a strictly increasing list, everything before the last element is
smaller than it. -/
theorem sorted_dropLast_lt (l : List ℕ) (t : ℕ)
    (hs : l.Chain' (· < ·)) (hl : l.getLast? = some t) :
    ∀ j ∈ l.dropLast, j < t := by
  intro j hj
  have hp := List.chain'_iff_pairwise.mp hs
  obtain ⟨l', hl'⟩ := List.getLast?_eq_some_iff.mp hl
  have hdl : l.dropLast = l' := by rw [hl', List.dropLast_concat]
  rw [hl'] at hp
  rw [hdl] at hj
  exact (List.pairwise_append.mp hp).2.2 j hj t (by simp)

/-- Explicit form of `sqLink`. -/
theorem sqLink_eq (points : List Point) (s : SqState) (last i : ℕ)
    (hlast : last < s.nodes.length) (hli : last ≠ i) :
    sqLink points s last i =
      (let T := s.nodes.getD last default
       let U := s.nodes.getD i default
       let nodes₁ := (s.nodes.set last { T with next := some i }).set i
         { U with prev := some last }
       match T.prev with
       | some lp =>
         let p := squishPriority (points.getD lp default)
           (points.getD last default) (points.getD i default)
         { nodes := nodes₁.set last
             { T with next := some i, priority := some p }
           pq := heappush s.pq (p, last)
           buffer := s.buffer ++ [i] }
       | none => { nodes := nodes₁, pq := s.pq, buffer := s.buffer ++ [i] }) := by
  unfold sqLink
  dsimp only
  rw [getD_set_ne _ i last _ _ (Ne.symm hli),
    getD_set_self _ last _ _ hlast]

/-- The common post-link state (tail re-pointed at the new node, new node
appended) re-establishes the core invariant for `i + 1`: the record `RT`
written over the old tail may carry any priority, as long as it keeps the
tail's `prev` and `removed` flags, points `next` at the new node, and has
no priority when the old tail is the head. -/
theorem sqCore_link_aux (points : List Point) (i : ℕ) (s : SqState)
    (hc : SqCore points i s) (h1 : 1 ≤ i) (hiN : i < points.length)
    (RT : SqNode) (pq₂ : List (ℝ × ℕ))
    (hRTprev : RT.prev = (s.nodes.getD (i - 1) default).prev)
    (hRTnext : RT.next = some i)
    (hRTprio : i - 1 = 0 → RT.priority = none)
    (hRTrm : RT.removed = (s.nodes.getD (i - 1) default).removed) :
    SqCore points (i + 1)
      { nodes := List.set (List.set s.nodes (i - 1) RT) i { s.nodes.getD i default with prev := some (i - 1) }
        pq := pq₂
        buffer := s.buffer ++ [i] } := by
  obtain ⟨nlen, sorted, headq, lastq, blt, linked, head_prev, tail_next,
    live, dead, untouched, prio_head, prio_tail⟩ := hc
  have hbne : s.buffer ≠ [] := by
    intro h
    rw [h] at lastq
    simp at lastq
  have hTi : i - 1 ≠ i := by omega
  have hTlt : i - 1 < s.nodes.length := by omega
  have hilt : i < s.nodes.length := by omega
  have hU : s.nodes.getD i default = {} := untouched i le_rfl
  have hFT : ((List.set (List.set s.nodes (i - 1) RT) i { s.nodes.getD i default with prev := some (i - 1) }).getD (i - 1) default) = RT := by
    rw [getD_set_ne _ i (i - 1) _ _ (Ne.symm hTi),
      getD_set_self _ (i - 1) _ _ hTlt]
  have hFi : ((List.set (List.set s.nodes (i - 1) RT) i { s.nodes.getD i default with prev := some (i - 1) }).getD i default) = { prev := some (i - 1), next := none, priority := none, removed := false } := by
    rw [getD_set_self _ i _ _ (by simp only [List.length_set]; exact hilt)]
    rw [hU]
  have hFj : ∀ j, j ≠ i - 1 → j ≠ i → ((List.set (List.set s.nodes (i - 1) RT) i { s.nodes.getD i default with prev := some (i - 1) }).getD j default) = s.nodes.getD j default := by
    intro j hj1 hj2
    rw [getD_set_ne _ i j _ _ (Ne.symm hj2),
      getD_set_ne _ (i - 1) j _ _ (Ne.symm hj1)]
  have hTmem : i - 1 ∈ s.buffer := by
    obtain ⟨l', hl'⟩ := List.getLast?_eq_some_iff.mp lastq
    rw [hl']
    simp
  refine ⟨?_, ?_, ?_, ?_, ?_, ?_, ?_, ?_, ?_, ?_, ?_, ?_, ?_⟩
  · simp only [List.length_set]
    exact nlen
  · rw [List.chain'_append]
    refine ⟨sorted, List.chain'_singleton i, ?_⟩
    intro x hx y hy
    rw [lastq] at hx
    simp only [Option.mem_def, Option.some.injEq] at hx
    simp only [List.head?_cons, Option.mem_def, Option.some.injEq] at hy
    omega
  · rw [List.head?_append_of_ne_nil _ hbne]
    exact headq
  · rw [List.getLast?_concat]
    simp
  · intro j hj
    rcases List.mem_append.mp hj with hcase | hcase
    · have := blt j hcase
      omega
    · simp only [List.mem_singleton] at hcase
      omega
  · rw [Linked, List.chain'_append]
    refine ⟨?_, List.chain'_singleton i, ?_⟩
    · refine linked_of_eqOn s.nodes _ s.buffer linked ?_ ?_
      · intro j hj
        have hjlt : j < i - 1 := sorted_dropLast_lt s.buffer (i - 1) sorted lastq j hj
        rw [hFj j (by omega) (by omega)]
      · intro j hj
        have hjmem : j ∈ s.buffer := List.mem_of_mem_tail hj
        have hjlt : j < i := blt j hjmem
        by_cases hjT : j = i - 1
        · subst hjT
          rw [hFT, hRTprev]
        · rw [hFj j hjT (by omega)]
    · intro x hx y hy
      rw [lastq] at hx
      simp only [Option.mem_def, Option.some.injEq] at hx
      simp only [List.head?_cons, Option.mem_def, Option.some.injEq] at hy
      subst hx
      subst hy
      constructor
      · rw [hFT, hRTnext]
      · rw [hFi]
  · by_cases h0T : (0 : ℕ) = i - 1
    · rw [show (i : ℕ) - 1 = 0 from h0T.symm] at hFT hRTprev ⊢
      rw [hFT, hRTprev]
      exact head_prev
    · rw [hFj 0 h0T (by omega)]
      exact head_prev
  · simp only [Nat.add_sub_cancel]
    rw [hFi]
  · intro j hj
    rcases List.mem_append.mp hj with hcase | hcase
    · have hjlt := blt j hcase
      by_cases hjT : j = i - 1
      · subst hjT
        rw [hFT, hRTrm]
        exact live _ hTmem
      · rw [hFj j hjT (by omega)]
        exact live j hcase
    · simp only [List.mem_singleton] at hcase
      subst hcase
      rw [hFi]
  · intro j hjlt hjmem
    have hji : j ≠ i := by
      intro h
      exact hjmem (by rw [h]; exact List.mem_append_right _ (by simp))
    have hjT : j ≠ i - 1 := by
      intro h
      exact hjmem (by rw [h]; exact List.mem_append_left _ hTmem)
    rw [hFj j hjT hji]
    exact dead j (by omega) (fun hmem => hjmem (List.mem_append_left _ hmem))
  · intro j hj
    rw [hFj j (by omega) (by omega)]
    exact untouched j (by omega)
  · by_cases h0T : (0 : ℕ) = i - 1
    · rw [show (i : ℕ) - 1 = 0 from h0T.symm] at hFT ⊢
      rw [hFT]
      exact hRTprio h0T.symm
    · rw [hFj 0 h0T (by omega)]
      exact prio_head
  · simp only [Nat.add_sub_cancel]
    rw [hFi]

/-- The link step preserves the core invariant (for the extended prefix),
appends the new node to the buffer, and—when the buffer already has two
members—pushes a matching heap entry for the old tail. -/
theorem sqLink_core (points : List Point) (i : ℕ) (s : SqState)
    (hc : SqCore points i s) (h1 : 1 ≤ i) (hiN : i < points.length) :
    SqCore points (i + 1) (sqLink points s (i - 1) i) ∧
    (sqLink points s (i - 1) i).buffer = s.buffer ++ [i] ∧
    (2 ≤ s.buffer.length → ∃ p,
      (sqLink points s (i - 1) i).pq = heappush s.pq (p, i - 1) ∧
      ((sqLink points s (i - 1) i).nodes.getD (i - 1) default).priority
        = some p ∧
      ((sqLink points s (i - 1) i).nodes.getD (i - 1) default).removed
        = false) := by
  have hTlt : i - 1 < s.nodes.length := by
    rw [hc.nlen]
    omega
  have hTi : i - 1 ≠ i := by omega
  have hTmem : i - 1 ∈ s.buffer := by
    obtain ⟨l', hl'⟩ := List.getLast?_eq_some_iff.mp hc.lastq
    rw [hl']
    simp
  rw [sqLink_eq points s (i - 1) i hTlt hTi]
  dsimp only
  cases hprev : (s.nodes.getD (i - 1) default).prev with
  | none =>
    dsimp only
    refine ⟨?_, rfl, ?_⟩
    · refine sqCore_link_aux points i s hc h1 hiN _ s.pq ?_ rfl ?_ rfl
      · rw [hprev]
      · intro h0
        rw [h0] at hprev ⊢
        dsimp only
        exact hc.prio_head
    · intro h2len
      obtain ⟨a, ha⟩ :=
        linked_last_prev s.nodes s.buffer (i - 1) hc.linked hc.lastq h2len
      rw [hprev] at ha
      exact absurd ha (by simp)
  | some lp =>
    dsimp only
    have hset : ((s.nodes.set (i - 1) { prev := some lp, next := some i, priority := (s.nodes.getD (i - 1) default).priority, removed := (s.nodes.getD (i - 1) default).removed }).set i { prev := some (i - 1), next := (s.nodes.getD i default).next, priority := (s.nodes.getD i default).priority, removed := (s.nodes.getD i default).removed }).set (i - 1) { prev := some lp, next := some i, priority := some (squishPriority (points.getD lp default) (points.getD (i - 1) default) (points.getD i default)), removed := (s.nodes.getD (i - 1) default).removed } = (s.nodes.set (i - 1) { prev := some lp, next := some i, priority := some (squishPriority (points.getD lp default) (points.getD (i - 1) default) (points.getD i default)), removed := (s.nodes.getD (i - 1) default).removed }).set i { prev := some (i - 1), next := (s.nodes.getD i default).next, priority := (s.nodes.getD i default).priority, removed := (s.nodes.getD i default).removed } := by
      rw [List.set_comm _ _ _ (Ne.symm hTi), List.set_set]
    rw [hset]
    refine ⟨?_, rfl, ?_⟩
    · refine sqCore_link_aux points i s hc h1 hiN _ _ hprev.symm rfl ?_ rfl
      intro h0
      rw [h0] at hprev
      rw [hc.head_prev] at hprev
      exact absurd hprev (by simp)
    · intro h2len
      refine ⟨_, rfl, ?_, ?_⟩
      · rw [getD_set_ne _ i (i - 1) _ _ (Ne.symm hTi),
          getD_set_self _ (i - 1) _ _ hTlt]
      · rw [getD_set_ne _ i (i - 1) _ _ (Ne.symm hTi),
          getD_set_self _ (i - 1) _ _ hTlt]
        dsimp only
        exact hc.live _ hTmem

/-- Removing an interior victim: the victim has two buffer neighbours, and
overwriting victim/neighbour records in the canonical splice form (with any
priorities `qa`, `qb` that respect the head/tail rules) re-establishes the
core invariant on the buffer with the victim erased. -/
theorem sqCore_erase (points : List Point) (i : ℕ) (s₁ : SqState)
    (hc : SqCore points i s₁) (hiN : i ≤ points.length)
    (v : ℕ) (hv : v ∈ s₁.buffer) (hv0 : v ≠ 0) (hvT : v ≠ i - 1) :
    ∃ a b : ℕ,
      s₁.nodes.getD v default = { prev := some a, next := some b, priority := (s₁.nodes.getD v default).priority, removed := false } ∧
      a < v ∧ v < b ∧ b ≤ i - 1 ∧ v < s₁.nodes.length ∧
      a < s₁.nodes.length ∧ b < s₁.nodes.length ∧
      (s₁.buffer.erase v).length + 1 = s₁.buffer.length ∧
      ∀ (qa qb : Option ℝ) (pq₂ : List (ℝ × ℕ)),
        (a = 0 → qa = none) → (b = i - 1 → qb = none) →
        SqCore points i
          { nodes := List.set (List.set (List.set s₁.nodes v { prev := some a, next := some b, priority := (s₁.nodes.getD v default).priority, removed := true }) a { prev := (s₁.nodes.getD a default).prev, next := some b, priority := qa, removed := (s₁.nodes.getD a default).removed }) b { prev := some a, next := (s₁.nodes.getD b default).next, priority := qb, removed := (s₁.nodes.getD b default).removed }
            pq := pq₂
            buffer := s₁.buffer.erase v } := by
  obtain ⟨nlen, sorted, headq, lastq, blt, linked, head_prev, tail_next,
    live, dead, untouched, prio_head, prio_tail⟩ := hc
  obtain ⟨X, Y, hbuf⟩ := List.append_of_mem hv
  have hXne : X ≠ [] := by
    intro h
    rw [hbuf, h, List.nil_append, List.head?_cons] at headq
    exact hv0 ((Option.some.injEq _ _).mp headq)
  obtain hX | hX := List.eq_nil_or_concat X
  · exact absurd hX hXne
  obtain ⟨X₁, a, hX⟩ := hX
  have hYne : Y ≠ [] := by
    intro h
    rw [hbuf, h, List.getLast?_concat] at lastq
    exact hvT ((Option.some.injEq _ _).mp lastq)
  obtain ⟨b, Y', hY⟩ : ∃ b Y', Y = b :: Y' := by
    cases Y with
    | nil => exact absurd rfl hYne
    | cons b Y' => exact ⟨b, Y', rfl⟩
  have hflat : s₁.buffer = X₁ ++ a :: v :: b :: Y' := by
    rw [hbuf, hX, hY]
    simp
  have hsorted' : List.Chain' (· < ·) (X₁ ++ a :: v :: b :: Y') := by
    rw [← hflat]
    exact sorted
  have hlink' : Linked s₁.nodes (X₁ ++ a :: v :: b :: Y') := by
    rw [← hflat]
    exact linked
  have hshape : (X₁ ++ [a]) ++ v :: b :: Y' = X₁ ++ a :: v :: b :: Y' := by
    simp
  have hav : a < v := chain'_pair _ X₁ a v (b :: Y') hsorted'
  have hvb : v < b := chain'_pair _ (X₁ ++ [a]) v b Y' (by
    rw [hshape]
    exact hsorted')
  have hpav := chain'_pair _ X₁ a v (b :: Y') hlink'
  have hpvb := chain'_pair _ (X₁ ++ [a]) v b Y' (by
    rw [hshape]
    exact hlink')
  have hpw := List.chain'_iff_pairwise.mp hsorted'
  have hX₁lt : ∀ j ∈ X₁, j < a := by
    intro j hj
    exact (List.pairwise_append.mp hpw).2.2 j hj a (by simp)
  have hY'gt : ∀ j ∈ Y', b < j := by
    have hp2 := (List.pairwise_append.mp hpw).2.1
    exact (List.pairwise_cons.mp
      ((List.pairwise_cons.mp ((List.pairwise_cons.mp hp2).2)).2)).1
  have hamem : a ∈ s₁.buffer := by
    rw [hflat]
    exact List.mem_append_right _ (by simp)
  have hbmem : b ∈ s₁.buffer := by
    rw [hflat]
    refine List.mem_append_right _ ?_
    simp
  have hvlt : v < s₁.nodes.length := by
    rw [nlen]
    have := blt v hv
    omega
  have halt : a < s₁.nodes.length := by
    rw [nlen]
    have := blt a hamem
    omega
  have hblt : b < s₁.nodes.length := by
    rw [nlen]
    have := blt b hbmem
    omega
  have hbi : b ≤ i - 1 := by
    have := blt b hbmem
    omega
  have hvrec : s₁.nodes.getD v default = { prev := some a, next := some b, priority := (s₁.nodes.getD v default).priority, removed := false } := by
    have h1 := hpav.2
    have h2 := hpvb.1
    have h3 := live v hv
    rcases hEq : s₁.nodes.getD v default with ⟨pr, nx, pv', rm⟩
    rw [hEq] at h1 h2 h3
    dsimp only at h1 h2 h3 ⊢
    rw [h1, h2, h3]
  have hvX : v ∉ X₁ ++ [a] := by
    intro hmem
    rcases List.mem_append.mp hmem with hcase | hcase
    · have := hX₁lt v hcase
      omega
    · simp only [List.mem_singleton] at hcase
      omega
  have herase : s₁.buffer.erase v = (X₁ ++ [a]) ++ b :: Y' := by
    rw [hflat, show X₁ ++ a :: v :: b :: Y' = (X₁ ++ [a]) ++ v :: b :: Y'
      from hshape.symm]
    rw [List.erase_append_right _ hvX]
    rw [List.erase_cons_head]
  have hlen_erase : (s₁.buffer.erase v).length + 1 = s₁.buffer.length := by
    rw [herase, hflat]
    simp
    omega
  refine ⟨a, b, hvrec, hav, hvb, hbi, hvlt, halt, hblt, hlen_erase, ?_⟩
  intro qa qb pq₂ hqa hqb
  have hva : v ≠ a := by omega
  have hvbne : v ≠ b := by omega
  have hab : a ≠ b := by omega
  have hFv : ((List.set (List.set (List.set s₁.nodes v { prev := some a, next := some b, priority := (s₁.nodes.getD v default).priority, removed := true }) a { prev := (s₁.nodes.getD a default).prev, next := some b, priority := qa, removed := (s₁.nodes.getD a default).removed }) b { prev := some a, next := (s₁.nodes.getD b default).next, priority := qb, removed := (s₁.nodes.getD b default).removed }).getD v default) = { prev := some a, next := some b, priority := (s₁.nodes.getD v default).priority, removed := true } := by
    rw [getD_set_ne _ b v _ _ (by omega), getD_set_ne _ a v _ _ (by omega),
      getD_set_self _ v _ _ hvlt]
  have hFa : ((List.set (List.set (List.set s₁.nodes v { prev := some a, next := some b, priority := (s₁.nodes.getD v default).priority, removed := true }) a { prev := (s₁.nodes.getD a default).prev, next := some b, priority := qa, removed := (s₁.nodes.getD a default).removed }) b { prev := some a, next := (s₁.nodes.getD b default).next, priority := qb, removed := (s₁.nodes.getD b default).removed }).getD a default) = { prev := (s₁.nodes.getD a default).prev, next := some b, priority := qa, removed := (s₁.nodes.getD a default).removed } := by
    rw [getD_set_ne _ b a _ _ (by omega),
      getD_set_self _ a _ _ (by simp only [List.length_set]; exact halt)]
  have hFb : ((List.set (List.set (List.set s₁.nodes v { prev := some a, next := some b, priority := (s₁.nodes.getD v default).priority, removed := true }) a { prev := (s₁.nodes.getD a default).prev, next := some b, priority := qa, removed := (s₁.nodes.getD a default).removed }) b { prev := some a, next := (s₁.nodes.getD b default).next, priority := qb, removed := (s₁.nodes.getD b default).removed }).getD b default) = { prev := some a, next := (s₁.nodes.getD b default).next, priority := qb, removed := (s₁.nodes.getD b default).removed } := by
    rw [getD_set_self _ b _ _ (by simp only [List.length_set]; exact hblt)]
  have hFj : ∀ j, j ≠ v → j ≠ a → j ≠ b → ((List.set (List.set (List.set s₁.nodes v { prev := some a, next := some b, priority := (s₁.nodes.getD v default).priority, removed := true }) a { prev := (s₁.nodes.getD a default).prev, next := some b, priority := qa, removed := (s₁.nodes.getD a default).removed }) b { prev := some a, next := (s₁.nodes.getD b default).next, priority := qb, removed := (s₁.nodes.getD b default).removed }).getD j default) = s₁.nodes.getD j default := by
    intro j hj1 hj2 hj3
    rw [getD_set_ne _ b j _ _ (Ne.symm hj3), getD_set_ne _ a j _ _ (Ne.symm hj2),
      getD_set_ne _ v j _ _ (Ne.symm hj1)]
  refine ⟨?_, ?_, ?_, ?_, ?_, ?_, ?_, ?_, ?_, ?_, ?_, ?_, ?_⟩
  · simp only [List.length_set]
    exact nlen
  · refine List.Chain'.sublist sorted ?_
    rw [herase, hflat, ← hshape]
    exact List.Sublist.append_left (List.sublist_cons_self v (b :: Y')) _
  · rw [herase, List.head?_append_of_ne_nil _ (by simp)]
    rw [hflat, ← hshape] at headq
    rw [List.head?_append_of_ne_nil _ (by simp)] at headq
    exact headq
  · rw [herase, List.getLast?_append_of_ne_nil _ (by simp)]
    rw [hflat, ← hshape] at lastq
    rw [List.getLast?_append_of_ne_nil _ (by simp)] at lastq
    rw [List.getLast?_cons_cons] at lastq
    exact lastq
  · intro j hj
    refine blt j ?_
    rw [herase] at hj
    rw [hflat, ← hshape]
    rcases List.mem_append.mp hj with hcase | hcase
    · exact List.mem_append_left _ hcase
    · exact List.mem_append_right _ (List.mem_cons_of_mem v hcase)
  · rw [herase]
    have hlink2 : List.Chain' (fun x y =>
        (s₁.nodes.getD x default).next = some y ∧
        (s₁.nodes.getD y default).prev = some x)
        ((X₁ ++ [a]) ++ v :: b :: Y') := by
      rw [hshape]
      exact hlink'
    have hlinkdec := List.chain'_append.mp hlink2
    refine List.chain'_append.mpr ⟨?_, ?_, ?_⟩
    · refine linked_of_eqOn s₁.nodes _ (X₁ ++ [a]) hlinkdec.1 ?_ ?_
      · intro j hj
        rw [List.dropLast_concat] at hj
        have hja := hX₁lt j hj
        rw [hFj j (by omega) (by omega) (by omega)]
      · intro j hj
        have hjmem : j ∈ X₁ ++ [a] := List.mem_of_mem_tail hj
        rcases List.mem_append.mp hjmem with hcase | hcase
        · have hja := hX₁lt j hcase
          rw [hFj j (by omega) (by omega) (by omega)]
        · simp only [List.mem_singleton] at hcase
          subst hcase
          rw [hFa]
    · refine linked_of_eqOn s₁.nodes _ (b :: Y') hlinkdec.2.1.tail ?_ ?_
      · intro j hj
        by_cases hjb : j = b
        · subst hjb
          rw [hFb]
        · have hjY : j ∈ Y' := by
            have hjd : j ∈ b :: Y' := (List.dropLast_sublist _).mem hj
            rcases List.mem_cons.mp hjd with hcase | hcase
            · exact absurd hcase hjb
            · exact hcase
          have := hY'gt j hjY
          rw [hFj j (by omega) (by omega) (by omega)]
      · intro j hj
        simp only [List.tail_cons] at hj
        have := hY'gt j hj
        rw [hFj j (by omega) (by omega) (by omega)]
    · intro x hx y hy
      rw [List.getLast?_concat] at hx
      simp only [Option.mem_def, Option.some.injEq] at hx
      simp only [List.head?_cons, Option.mem_def, Option.some.injEq] at hy
      subst hx
      subst hy
      refine ⟨?_, ?_⟩
      · rw [hFa]
      · rw [hFb]
  · by_cases h0a : (0 : ℕ) = a
    · rw [← h0a] at hFa ⊢
      rw [hFa]
      dsimp only
      exact head_prev
    · rw [hFj 0 (by omega) h0a (by omega)]
      exact head_prev
  · by_cases hTb : i - 1 = b
    · rw [← hTb] at hFb ⊢
      rw [hFb]
      dsimp only
      exact tail_next
    · rw [hFj (i - 1) (by omega) (by omega) hTb]
      exact tail_next
  · intro j hj
    rw [herase] at hj
    by_cases hja : j = a
    · rw [hja, hFa]
      dsimp only
      exact live a hamem
    · by_cases hjb : j = b
      · rw [hjb, hFb]
        dsimp only
        exact live b hbmem
      · have hjv : j ≠ v := by
          intro h
          rw [h] at hj
          rcases List.mem_append.mp hj with hcase | hcase
          · exact hvX hcase
          · rcases List.mem_cons.mp hcase with hc2 | hc2
            · omega
            · have := hY'gt v hc2
              omega
        rw [hFj j hjv hja hjb]
        refine live j ?_
        rw [hflat, ← hshape]
        rcases List.mem_append.mp hj with hcase | hcase
        · exact List.mem_append_left _ hcase
        · exact List.mem_append_right _ (List.mem_cons_of_mem v hcase)
  · intro j hjlt hjmem
    by_cases hjv : j = v
    · subst hjv
      rw [hFv]
    · have hja : j ≠ a := by
        intro h
        subst h
        refine hjmem ?_
        rw [herase]
        exact List.mem_append_left _ (by simp)
      have hjb : j ≠ b := by
        intro h
        subst h
        refine hjmem ?_
        rw [herase]
        exact List.mem_append_right _ (by simp)
      rw [hFj j hjv hja hjb]
      refine dead j hjlt ?_
      intro hmem
      refine hjmem ?_
      rw [herase]
      rw [hflat, ← hshape] at hmem
      rcases List.mem_append.mp hmem with hcase | hcase
      · exact List.mem_append_left _ hcase
      · rcases List.mem_cons.mp hcase with hc2 | hc2
        · exact absurd hc2 hjv
        · exact List.mem_append_right _ hc2
  · intro j hj
    have hvi : v < i := by
      have := blt v hv
      omega
    rw [hFj j (by omega) (by omega) (by omega)]
    exact untouched j hj
  · by_cases h0a : (0 : ℕ) = a
    · rw [← h0a] at hFa ⊢
      rw [hFa]
      dsimp only
      exact hqa h0a.symm
    · rw [hFj 0 (by omega) h0a (by omega)]
      exact prio_head
  · by_cases hTb : i - 1 = b
    · rw [← hTb] at hFb ⊢
      rw [hFb]
      dsimp only
      exact hqb hTb.symm
    · rw [hFj (i - 1) (by omega) (by omega) hTb]
      exact prio_tail

/-- One intake step of `compress` preserves the invariant. -/
theorem sqStep_inv (points : List Point) (K : ℤ) (hK : 3 ≤ K) (i : ℕ)
    (s : SqState) (h1 : 1 ≤ i) (hiN : i < points.length)
    (hcore : SqCore points i s)
    (hblen : (s.buffer.length : ℤ) = min (i : ℤ) K) :
    ∃ s', squishStep points K s i = .ok s' ∧ SqCore points (i + 1) s' ∧
      ((s'.buffer.length : ℤ) = min ((i : ℤ) + 1) K) := by
  unfold squishStep
  by_cases hfill : (s.buffer.length : ℤ) < K
  · rw [if_pos hfill]
    rw [hcore.lastq]
    dsimp only
    obtain ⟨hc', hbuf', hpush⟩ := sqLink_core points i s hcore h1 hiN
    refine ⟨_, rfl, hc', ?_⟩
    rw [hbuf']
    simp only [List.length_append, List.length_cons, List.length_nil]
    push_cast
    omega
  · rw [if_neg hfill]
    rw [hcore.lastq]
    dsimp only
    obtain ⟨hc₁, hbuf₁, hpush⟩ := sqLink_core points i s hcore h1 hiN
    have h2len : 2 ≤ s.buffer.length := by omega
    obtain ⟨p, hpq₁, hprio₁, hrm₁⟩ := hpush h2len
    have hmem : (p, i - 1) ∈ (sqLink points s (i - 1) i).pq := by
      rw [hpq₁]
      exact (heappush_perm s.pq (p, i - 1)).mem_iff.mpr (by simp)
    obtain ⟨v, pq₂, hpop, hvrm, pv, hvprio⟩ :=
      popVictim_ok (sqLink points s (i - 1) i).nodes
        (sqLink points s (i - 1) i).pq.length
        (sqLink points s (i - 1) i).pq le_rfl (p, i - 1) hmem hrm₁ hprio₁
    rw [hpop]
    dsimp only
    have hv0 : v ≠ 0 := by
      intro h
      rw [h] at hvprio
      rw [hc₁.prio_head] at hvprio
      exact absurd hvprio (by simp)
    have hvT : v ≠ i := by
      intro h
      rw [h] at hvprio
      have hpt := hc₁.prio_tail
      simp only [Nat.add_sub_cancel] at hpt
      rw [hpt] at hvprio
      exact absurd hvprio (by simp)
    have hvlt : v < i + 1 := by
      by_contra hge
      have hu := hc₁.untouched v (by omega)
      rw [hu] at hvprio
      exact absurd hvprio (by simp)
    have hvmem : v ∈ (sqLink points s (i - 1) i).buffer := by
      by_contra hnm
      have hd := hc₁.dead v hvlt hnm
      rw [hvrm] at hd
      exact absurd hd (by simp)
    obtain ⟨a, b, hvrec, hav, hvb, hbi, hvlen, halen, hblen2, hlenerase,
      hfinal⟩ := sqCore_erase points (i + 1)
      (sqLink points s (i - 1) i) hc₁ (by omega) v hvmem hv0
      (by simpa using hvT)
    rw [sqRemoveNode_eq points _ pq₂ v a b _ (by omega) (by omega)
      (by omega) hvlen halen hblen2 hvrec]
    dsimp only
    have hlen₁ : (sqLink points s (i - 1) i).buffer.length
        = s.buffer.length + 1 := by
      rw [hbuf₁]
      simp
    cases hnb : ((sqLink points s (i - 1) i).nodes.getD b default).next with
    | some nx =>
      dsimp only
      have hbT : b ≠ i := by
        intro h
        rw [h] at hnb
        have hpt := hc₁.tail_next
        simp only [Nat.add_sub_cancel] at hpt
        rw [hpt] at hnb
        exact absurd hnb (by simp)
      cases hna : ((sqLink points s (i - 1) i).nodes.getD a default).prev with
      | some pp =>
        dsimp only
        rw [List.set_comm _ _ _ (show b ≠ a from by omega)]
        simp only [List.set_set]
        rw [← hna, ← hnb]
        refine ⟨_, rfl, ?_, ?_⟩
        · refine hfinal _ _ _ ?_ ?_
          · intro h0
            rw [h0] at hna
            rw [hc₁.head_prev] at hna
            exact absurd hna (by simp)
          · intro hbT'
            simp only [Nat.add_sub_cancel] at hbT'
            exact absurd hbT' hbT
        · dsimp only
          push_cast at hblen ⊢
          omega
      | none =>
        dsimp only
        simp only [List.set_set]
        have hf := hfinal
          (((sqLink points s (i - 1) i).nodes.getD a default).priority)
          (some (squishPriority (points.getD a default) (points.getD b default)
            (points.getD nx default)))
          (heappush pq₂ (squishPriority (points.getD a default)
            (points.getD b default) (points.getD nx default), b))
          (fun h0 => by rw [h0]; exact hc₁.prio_head)
          (fun hbT' => by
            simp only [Nat.add_sub_cancel] at hbT'
            exact absurd hbT' hbT)
        rw [hna, hnb] at hf
        refine ⟨_, rfl, hf, ?_⟩
        dsimp only
        push_cast at hblen ⊢
        omega
    | none =>
      dsimp only
      cases hna : ((sqLink points s (i - 1) i).nodes.getD a default).prev with
      | some pp =>
        dsimp only
        rw [List.set_comm _ _ _ (show b ≠ a from by omega)]
        simp only [List.set_set]
        have hf := hfinal
          (some (squishPriority (points.getD pp default)
            (points.getD a default) (points.getD b default)))
          (((sqLink points s (i - 1) i).nodes.getD b default).priority)
          (heappush pq₂ (squishPriority (points.getD pp default)
            (points.getD a default) (points.getD b default), a))
          (fun h0 => by
            rw [h0] at hna
            rw [hc₁.head_prev] at hna
            exact absurd hna (by simp))
          (fun hbT' => by
            rw [hbT']
            exact hc₁.prio_tail)
        rw [hna, hnb] at hf
        refine ⟨_, rfl, hf, ?_⟩
        dsimp only
        push_cast at hblen ⊢
        omega
      | none =>
        dsimp only
        have hf := hfinal
          (((sqLink points s (i - 1) i).nodes.getD a default).priority)
          (((sqLink points s (i - 1) i).nodes.getD b default).priority)
          pq₂
          (fun h0 => by rw [h0]; exact hc₁.prio_head)
          (fun hbT' => by
            rw [hbT']
            exact hc₁.prio_tail)
        rw [hna, hnb] at hf
        refine ⟨_, rfl, hf, ?_⟩
        dsimp only
        push_cast at hblen ⊢
        omega

/-- The first intake step just seeds the buffer with node 0. -/
theorem sqBase (points : List Point) (K : ℤ) (hK : 3 ≤ K)
    (hN : 1 ≤ points.length) :
    squishStep points K
      { nodes := points.map fun _ => {}, pq := [], buffer := [] } 0
      = .ok { nodes := points.map fun _ => {}, pq := [], buffer := [0] } ∧
    SqCore points 1
      { nodes := points.map fun _ => {}, pq := [], buffer := [0] } := by
  constructor
  · unfold squishStep
    rw [if_pos (by simp only [List.length_nil]; omega)]
    rfl
  · refine ⟨by simp, List.chain'_singleton 0, rfl, rfl, ?_,
      List.chain'_singleton 0, ?_, ?_, ?_, ?_, ?_, ?_, ?_⟩
    · intro j hj
      simp only [List.mem_singleton] at hj
      omega
    · rw [getD_map_const]
    · rw [getD_map_const]
    · intro j hj
      simp only [List.mem_singleton] at hj
      subst hj
      rw [getD_map_const]
    · intro j hjlt hjmem
      simp only [List.mem_singleton] at hjmem
      omega
    · intro j hj
      rw [getD_map_const]
    · rw [getD_map_const]
    · rw [getD_map_const]

/-- Invariant-carrying run of the intake loop over the remaining indices. -/
theorem sqLoop_inv (points : List Point) (K : ℤ) (hK : 3 ≤ K) :
    ∀ (k i : ℕ) (s : SqState), 1 ≤ i → i + k = points.length →
      SqCore points i s → (s.buffer.length : ℤ) = min (i : ℤ) K →
      ∃ s', squishLoop points K (List.range' i k) s = .ok s' ∧
        SqCore points points.length s' ∧
        ((s'.buffer.length : ℤ) = min (points.length : ℤ) K) := by
  intro k
  induction k with
  | zero =>
    intro i s h1 hik hc hb
    refine ⟨s, rfl, ?_, ?_⟩
    · rw [show points.length = i from by omega]
      exact hc
    · rw [show points.length = i from by omega]
      exact hb
  | succ k ih =>
    intro i s h1 hik hc hb
    obtain ⟨s₁, hstep, hc₁, hb₁⟩ :=
      sqStep_inv points K hK i s h1 (by omega) hc hb
    obtain ⟨s', hloop, hc', hb'⟩ :=
      ih (i + 1) s₁ (by omega) (by omega) hc₁ (by push_cast at hb₁ ⊢; omega)
    refine ⟨s', ?_, hc', hb'⟩
    rw [List.range'_succ]
    simp only [squishLoop, hstep, hloop]

/-- C1: for every capacity override `K ≥ 3`, `compress(points, K)`
succeeds and returns a subsequence of the input in input order, of length
at most `K`, that keeps the first and last fix of a nonempty input; if the
input has at most `K` fixes (in particular if it is empty) it is returned
unchanged. -/
theorem c1_squish_subsequence (selfCapacity K : ℤ) (points : List Point)
    (hK : 3 ≤ K) :
    ∃ out, squishCompress selfCapacity points (some K) = .ok out ∧
      List.Sublist out points ∧ (out.length : ℤ) ≤ K ∧
      (points ≠ [] → out.head? = points.head? ∧
        out.getLast? = points.getLast?) ∧
      ((points.length : ℤ) ≤ K → out = points) := by
  by_cases hemp : points.isEmpty
  · have hpts : points = [] := List.isEmpty_iff.mp hemp
    subst hpts
    exact ⟨[], rfl, by simp, by simp; omega, fun h => absurd rfl h,
      fun _ => rfl⟩
  · unfold squishCompress
    rw [if_neg hemp]
    dsimp only
    rw [Option.getD_some]
    by_cases hsmall : (points.length : ℤ) ≤ K
    · rw [if_pos hsmall]
      exact ⟨points, rfl, List.Sublist.refl _, hsmall,
        fun _ => ⟨rfl, rfl⟩, fun _ => rfl⟩
    · rw [if_neg hsmall]
      have hN1 : 1 ≤ points.length := by
        by_contra h
        push_cast at hsmall
        omega
      have hrange : List.range points.length
          = 0 :: List.range' 1 (points.length - 1) := by
        rw [List.range_eq_range',
          show points.length = (points.length - 1) + 1 from by omega,
          List.range'_succ]
        norm_num
      rw [hrange]
      obtain ⟨hstep0, hcore1⟩ := sqBase points K hK hN1
      obtain ⟨s', hloop, hcoreN, hblenN⟩ :=
        sqLoop_inv points K hK (points.length - 1) 1 _ le_rfl (by omega)
          hcore1 (by simp only [List.length_cons, List.length_nil]; omega)
      simp only [squishLoop, hstep0, hloop]
      obtain ⟨nlen, sorted, headq, lastq, blt, linked, head_prev, tail_next,
        live, dead, untouched, prio_head, prio_tail⟩ := hcoreN
      have htrav : sqTraverse s'.nodes points points.length (some 0)
          = s'.buffer.map fun j => points.getD j default := by
        have h := sqTraverse_chain s'.nodes points s'.buffer points.length
          linked ?_ ?_
        · rw [headq] at h
          exact h
        · intro t ht
          rw [lastq] at ht
          have ht' : t = points.length - 1 :=
            (Option.some.injEq _ _).mp ht.symm
          subst ht'
          exact tail_next
        · push_cast at hblenN
          omega
      rw [htrav]
      refine ⟨_, rfl, ?_, ?_, ?_, ?_⟩
      · refine getD_map_sublist default points s'.buffer ?_ ?_
        · exact List.chain'_iff_pairwise.mp sorted
        · intro j hj
          have := blt j hj
          omega
      · simp only [List.length_map]
        push_cast at hblenN ⊢
        omega
      · intro _
        constructor
        · obtain ⟨rest, hbuf⟩ : ∃ rest, s'.buffer = 0 :: rest := by
            cases hbuf : s'.buffer with
            | nil =>
              rw [hbuf] at headq
              simp at headq
            | cons x rest =>
              rw [hbuf] at headq
              simp only [List.head?_cons, Option.some.injEq] at headq
              exact ⟨rest, by rw [headq]⟩
          rw [hbuf]
          simp only [List.map_cons, List.head?_cons]
          cases points with
          | nil => simp at hN1
          | cons p ps => rfl
        · rw [List.getLast?_map, lastq]
          simp only [Option.map_some']
          rw [List.getLast?_eq_getElem?, List.getD_eq_getElem?_getD]
          have hlt : points.length - 1 < points.length := by omega
          rw [List.getElem?_eq_getElem hlt]
          rfl
      · intro hcontra
        exact absurd hcontra hsmall

/-- Witness for C1 at a concrete instance. -/
theorem c1_squish_subsequence_witness :
    (3 : ℤ) ≤ 3 ∧
    ∃ out, squishCompress 50 [⟨0, 0, 0, "w", none⟩] (some 3) = .ok out ∧
      List.Sublist out [⟨0, 0, 0, "w", none⟩] ∧ (out.length : ℤ) ≤ 3 ∧
      (([⟨0, 0, 0, "w", none⟩] : List Point) ≠ [] →
        out.head? = ([⟨0, 0, 0, "w", none⟩] : List Point).head? ∧
        out.getLast? = ([⟨0, 0, 0, "w", none⟩] : List Point).getLast?) ∧
      ((([⟨0, 0, 0, "w", none⟩] : List Point).length : ℤ) ≤ 3 →
        out = [⟨0, 0, 0, "w", none⟩]) :=
  ⟨by norm_num,
    c1_squish_subsequence 50 3 [⟨0, 0, 0, "w", none⟩] (by norm_num)⟩
